import Mathlib

/-! # Vigenère cryptanalysis tool (`Q2.cpp`): shallow embedding and verified properties

Conventions of the embedding.

* A C++ `std::string` is a `List Char` (the texts are ASCII: a `char` is the Lean `Char` of
  the same code); a `vector<int>` is a `List Int`; a `vector<string>` is a
  `List (List Char)`; an `unordered_map<string, int>` is an association list.
* C++ `int` values are `Int`. The quantities are bounded by the length `n` of the text,
  which fits a 32-bit `int`, except the products `c·(c−1)` and `n·(n−1)` of
  `calculateIOC`: these are reduced to the 32-bit range by `wrap32`. Loop counters and
  occurrence counts, which start at `0` and only grow, are `Nat`.
* A C++ `double` is the rational number it denotes (`ℚ`), and every operation on `double`s
  is the exact operation followed by the rounding `fl` to the nearest `double`.
* C++ `%` on `int` truncates towards zero: it is `Int.tmod`.
* Operations whose C++ behaviour is not a normal return (division by zero, an
  allocation of negative size) yield an `Except.error` carrying a `Fault`.
* A loop `for (int i = 0; i < text.length(); i++) { char c = text[i]; ... }` is a fold
  over `text.enum`, the list of pairs `(i, text[i])`; a loop over the indices of a vector
  that only reads the element at the index is a fold over its elements.
-/

namespace Q2

/-! ## Faults -/

/-- The ways in which a call can fail to return normally. The source raises no error of its
own: these are the only abnormal outcomes of the functions embedded below. -/
inductive Fault where
  /-- An integer `%` whose right operand is zero. -/
  | divByZero
  /-- Construction of `vector<string>(n)` with a negative `n`. -/
  | lengthError
  /-- A call `m.at(k)` on an `unordered_map` that has no entry for the key `k`. -/
  | outOfRange
  deriving DecidableEq, Repr

/-! ## Characters -/

/-- Integral promotion of a `char` to `int`. -/
def ord (c : Char) : Int := c.toNat

/-- Narrowing of an `int` to a `char` (the low byte is kept). -/
def toChar (x : Int) : Char := Char.ofNat (x % 256).toNat

/-- The upper-case letters `A`..`Z` (codes 65..90). -/
def isAZ (c : Char) : Prop := 65 ≤ c.toNat ∧ c.toNat ≤ 90

instance (c : Char) : Decidable (isAZ c) := by
  unfold isAZ
  infer_instance

/-! ## `decryptVig` (Q2.cpp lines 28-36) -/

/-- One iteration of the loop of `decryptVig`: `i` is the loop counter and `c = cipher[i]`.
`i % key.length()` is an unsigned modulo, a fault when the key is empty. -/
def decryptStep (key : List Char) (plain : List Char) (ic : Nat × Char) :
    Except Fault (List Char) :=
  if h : key.length = 0 then
    Except.error Fault.divByZero
  else
    let k := key.get ⟨ic.1 % key.length, Nat.mod_lt _ (Nat.pos_of_ne_zero h)⟩
    let decrypt := toChar (Int.tmod ((ord ic.2 - ord 'A') - (ord k - ord 'A') + 26) 26 + ord 'A')
    Except.ok (plain ++ [decrypt])

/-- The function `decryptVig(cipher, key)`. -/
def decryptVig (cipher key : List Char) : Except Fault (List Char) :=
  cipher.enum.foldlM (decryptStep key) []

/-- Modelled from the spec: the encryption transform, which the source does not contain.
It is the loop of `decryptVig` with the sign of the key letter reversed:
`encrypt(C, K)[i] = 'A' + ((C[i]-'A') + (K[i mod |K|]-'A')) mod 26`. -/
def encryptStep (key : List Char) (out : List Char) (ic : Nat × Char) :
    Except Fault (List Char) :=
  if h : key.length = 0 then
    Except.error Fault.divByZero
  else
    let k := key.get ⟨ic.1 % key.length, Nat.mod_lt _ (Nat.pos_of_ne_zero h)⟩
    let e := toChar (ord 'A' + Int.tmod ((ord ic.2 - ord 'A') + (ord k - ord 'A')) 26)
    Except.ok (out ++ [e])

/-- Modelled from the spec: `encrypt(C, K)`, the fold of `encryptStep` over the text
(the source has no encryption routine). -/
def encryptVig (text key : List Char) : Except Fault (List Char) :=
  text.enum.foldlM (encryptStep key) []

/-! ### Auxiliary notions for `decryptVig` -/

/-- The letter computed by one iteration of `decryptVig`. -/
def decLetter (c k : Char) : Char :=
  toChar (Int.tmod ((ord c - ord 'A') - (ord k - ord 'A') + 26) 26 + ord 'A')

/-- The letter computed by one iteration of the encryption transform. -/
def encLetter (c k : Char) : Char :=
  toChar (ord 'A' + Int.tmod ((ord c - ord 'A') + (ord k - ord 'A')) 26)

/-- The key letter used at position `i`. -/
def keyAt (key : List Char) (hne : key ≠ []) (i : Nat) : Char :=
  key.get ⟨i % key.length, Nat.mod_lt _ (List.length_pos.2 hne)⟩

/-! ## `kasiski` (Q2.cpp lines 61-77) -/

/-- The call `text.substr(i, length)` for `i ≤ text.length()`: the characters from offset
`i`, at most `length` of them. -/
def substr (text : List Char) (i length : Nat) : List Char := (text.drop i).take length

/-- The lookup `lastPos.find(s)` on an `unordered_map<string, int>`, kept as an association
list. -/
def mapFind : List (List Char × Nat) → List Char → Option Nat
  | [], _ => none
  | (k, v) :: rest, s => if k = s then some v else mapFind rest s

/-- The assignment `lastPos[s] = i`: the entry of `s` is replaced (or created). -/
def mapAssign (m : List (List Char × Nat)) (s : List Char) (i : Nat) : List (List Char × Nat) :=
  (s, i) :: m.filter (fun p => !decide (p.1 = s))

/-- Body of the inner loop of `kasiski` at start offset `i` and window length `length`;
the state is the pair `(distances, lastPos)`. -/
def kasiskiInner (text : List Char) (i : Nat) (st : List Int × List (List Char × Nat))
    (length : Nat) : List Int × List (List Char × Nat) :=
  if i + length ≤ text.length then
    let substring := substr text i length
    let distances :=
      match mapFind st.2 substring with
      | some j => st.1 ++ [(i : Int) - (j : Int)]
      | none => st.1
    (distances, mapAssign st.2 substring i)
  else
    st

/-- Body of the outer loop of `kasiski`: the inner loop runs over the lengths 3..8. -/
def kasiskiOuter (text : List Char) (st : List Int × List (List Char × Nat)) (i : Nat) :
    List Int × List (List Char × Nat) :=
  [3, 4, 5, 6, 7, 8].foldl (kasiskiInner text i) st

/-- The function `kasiski(text)`. -/
def kasiski (text : List Char) : List Int :=
  ((List.range text.length).foldl (kasiskiOuter text) ([], [])).1

/-- The largest offset `j < i` at which the string `s` starts in `text`, if there is one. -/
def prevOcc (text s : List Char) : Nat → Option Nat
  | 0 => none
  | i + 1 => if substr text i s.length = s then some i else prevOcc text s i

/-- The distance emitted for the window of length `L` at offset `i`, as the specification
words it: nothing for a window that runs past the end or occurs for the first time, else the
gap to the most recent previous occurrence. -/
def kasiskiEmit (text : List Char) (i L : Nat) : List Int :=
  if i + L ≤ text.length then
    match prevOcc text (substr text i L) i with
    | some j => [(i : Int) - (j : Int)]
    | none => []
  else
    []

/-- The list of distances as the specification words it: offsets in increasing order and,
for each offset, lengths 3..8 in increasing order. -/
def kasiskiSpec (text : List Char) : List Int :=
  (List.range text.length).flatMap fun i => [3, 4, 5, 6, 7, 8].flatMap fun L => kasiskiEmit text i L

/-- The map invariant of `kasiski` before the outer iteration `i`. -/
def LastPosInv (text : List Char) (i : Nat) (m : List (List Char × Nat)) : Prop :=
  ∀ s : List Char, mapFind m s =
    if 3 ≤ s.length ∧ s.length ≤ 8 then prevOcc text s i else none

/-! ## `gcd` and `findProbableKeyLength` (Q2.cpp lines 88-119) -/

/-- The function `gcd(a, b)`: the loop `while (b != 0) { temp = b; b = a % b; a = temp; }`,
one unfolding per iteration. It terminates because `|a % b| < |b|`. -/
def gcd (a b : Int) : Int :=
  if b = 0 then a else gcd b (Int.tmod a b)
termination_by b.natAbs
decreasing_by
  rename_i h
  cases a with
  | ofNat m =>
    cases b with
    | ofNat n =>
      have hn : 0 < n := Nat.pos_of_ne_zero (fun h0 => h (by rw [h0]; rfl))
      simpa [Int.tmod] using Nat.mod_lt m hn
    | negSucc n =>
      simpa [Int.tmod] using Nat.mod_lt m (Nat.succ_pos n)
  | negSucc m =>
    cases b with
    | ofNat n =>
      have hn : 0 < n := Nat.pos_of_ne_zero (fun h0 => h (by rw [h0]; rfl))
      simpa [Int.tmod] using Nat.mod_lt (m + 1) hn
    | negSucc n =>
      simpa [Int.tmod] using Nat.mod_lt (m + 1) (Nat.succ_pos n)

/-- First loop nest of `findProbableKeyLength`: for every `i` and every `j > i`, in this
order, `gcd(distances.at(i), distances.at(j))` is pushed onto `commonDen`. The pair
`ia = (i, distances.at(i))` runs over the vector and `b = distances.at(j)` over the
elements after position `i` (both indices are below `distances.size()`, so `at` does not
throw). -/
def commonDen (distances : List Int) : List Int :=
  distances.enum.foldl
    (fun cd ia => (distances.drop (ia.1 + 1)).foldl (fun cd b => cd ++ [gcd ia.2 b]) cd) []

/-- Inner counting loop of `findProbableKeyLength`: the number of `j` with
`commonDen[j] == x`. -/
def countEq (commonDen : List Int) (x : Int) : Nat :=
  commonDen.foldl (fun count y => if y = x then count + 1 else count) 0

/-- Body of the second loop of `findProbableKeyLength` for `x = commonDen[i]`; the state is
the pair `(probable_key_length, max)`. -/
def selectStep (commonDen : List Int) (st : Int × Nat) (x : Int) : Int × Nat :=
  let count := countEq commonDen x
  if count > st.2 then (x, count) else st

/-- The function `findProbableKeyLength(distances)`. -/
def findProbableKeyLength (distances : List Int) : Int :=
  ((commonDen distances).foldl (selectStep (commonDen distances)) (0, 0)).1

/-- The list `G = [gcd(d[i], d[j]) for i < j]`, `i` ascending and then `j` ascending, with the
mathematical greatest common divisor. -/
def pairGcds (d : List Int) : List Int :=
  (List.range d.length).flatMap fun i =>
    (List.range' (i + 1) (d.length - (i + 1))).map fun j =>
      ((Int.gcd (d.getD i 0) (d.getD j 0) : Nat) : Int)

/-- The values `f a b` for the pairs of an element `a` and a later element `b`. -/
def pairsRec (f : Int → Int → Int) : List Int → List Int
  | [] => []
  | a :: rest => rest.map (f a) ++ pairsRec f rest

/-! ## `subString` (Q2.cpp lines 79-86) -/

/-- One iteration of the loop of `subString`: `index = i % keyL` (a fault when `keyL` is
zero) and `subs[index] += text[i]`, for `ic = (i, text[i])`. -/
def subStringStep (keyL : Int) (subs : List (List Char)) (ic : Nat × Char) :
    Except Fault (List (List Char)) :=
  if keyL = 0 then
    Except.error Fault.divByZero
  else
    let index := Int.tmod (ic.1 : Int) keyL
    Except.ok (subs.modify (fun s => s ++ [ic.2]) index.toNat)

/-- The function `subString(text, keyL)`. The vector `subs(keyL)` holds `keyL` empty strings;
its construction fails for a negative `keyL`. -/
def subString (text : List Char) (keyL : Int) : Except Fault (List (List Char)) :=
  if keyL < 0 then
    Except.error Fault.lengthError
  else
    text.enum.foldlM (subStringStep keyL) (List.replicate keyL.toNat [])

/-- The letters of `text` whose position is congruent to `r` modulo `k`, in their original
relative order. -/
def column (text : List Char) (k r : Nat) : List Char :=
  (text.enum.filter (fun ic => decide (ic.1 % k = r))).map Prod.snd

/-- The length of the longest of the subsequences. -/
def maxLength (subs : List (List Char)) : Nat :=
  subs.foldl (fun m s => max m s.length) 0

/-- Round-robin interleaving: for `q = 0, 1, ...` element `q` of subsequence `0`, of
subsequence `1`, ..., of the last subsequence, a subsequence without an element `q` being
skipped. -/
def roundRobin (subs : List (List Char)) : List Char :=
  (List.range (maxLength subs)).flatMap fun q => subs.filterMap fun s => s[q]?

/-! ## Machine arithmetic: 32-bit `int` products and `double` values

A `double` is the rational number it denotes. Every arithmetic operation of the source on
`double`s, and every conversion of a decimal constant or of a quotient to a `double`, is the
exact operation followed by `fl`, the rounding to the nearest number with a 53-bit
significand, ties to the even significand (IEEE 754 binary64, the default rounding mode).
The exponent range is not modelled: the values that occur lie between `10⁻⁴ / n` and `n`
for a text of length `n`, far from the overflow and underflow thresholds. Comparisons of
`double`s are comparisons of the rationals. -/

/-- The value left in a 32-bit `int` by an arithmetic result `x`: the representative of
`x` modulo `2³²` in the range `-2³¹ .. 2³¹ - 1` (two-complement wrap-around). -/
def wrap32 (x : Int) : Int := (x + 2147483648) % 4294967296 - 2147483648

/-- Rounding of a rational to the nearest integer, a tie going to the even neighbour. -/
def roundHalfEven (y : ℚ) : Int :=
  let f := ⌊y⌋
  let r := y - (f : ℚ)
  if r < 1 / 2 then f
  else if 1 / 2 < r then f + 1
  else if f % 2 = 0 then f else f + 1

/-- Rounding of a rational `x` to the nearest `double`: with `2^e ≤ |x| < 2^(e+1)`, the
significand `|x| · 2^(52 - e)`, which lies in `[2⁵², 2⁵³)`, is rounded to the nearest
integer, ties to even. -/
def fl (x : ℚ) : ℚ :=
  if x = 0 then 0
  else
    let e := Int.log 2 |x|
    let m := roundHalfEven (|x| * (2 : ℚ) ^ (52 - e))
    if 0 < x then (m : ℚ) * (2 : ℚ) ^ (e - 52) else -((m : ℚ) * (2 : ℚ) ^ (e - 52))

/-! ## Letter tables

An `unordered_map<char, T>` is an association list with one entry per key; the order in
which the source iterates over such a map is unspecified, and the map built by
`getLetterFrequencies` is independent of that order. In `calculateIOC` the entries are
summed into a `double`; the terms are integers below `2³¹` in magnitude, one per distinct
`char`, so the partial sums are integers below `2⁵³` in magnitude, every addition is exact
and the sum is independent of the order as well. -/

/-- The lookup `m.find(k)` on an `unordered_map<char, T>`. -/
def cmFind {α : Type} : List (Char × α) → Char → Option α
  | [], _ => none
  | (k, v) :: rest, c => if k = c then some v else cmFind rest c

/-- The assignment `m[k] = v`: the entry of `k` is replaced, or created when absent. -/
def cmSet {α : Type} : List (Char × α) → Char → α → List (Char × α)
  | [], c, x => [(c, x)]
  | (k, v) :: rest, c, x => if k = c then (k, x) :: rest else (k, v) :: cmSet rest c x

/-- The checked lookup `m.at(c)`, which throws `out_of_range` when `c` has no entry. -/
def cmAt (m : List (Char × ℚ)) (c : Char) : Except Fault ℚ :=
  match cmFind m c with
  | some v => Except.ok v
  | none => Except.error Fault.outOfRange

/-- The table `EN_REL_FREQ_VIG` (Q2.cpp lines 18-26): each decimal constant is the `double`
nearest to it. -/
def EN_REL_FREQ_VIG : List (Char × ℚ) :=
  [('A', fl (812 / 10000)), ('B', fl (149 / 10000)), ('C', fl (271 / 10000)),
   ('D', fl (432 / 10000)), ('E', fl (1202 / 10000)), ('F', fl (230 / 10000)),
   ('G', fl (203 / 10000)), ('H', fl (592 / 10000)), ('I', fl (731 / 10000)),
   ('J', fl (10 / 10000)), ('K', fl (69 / 10000)), ('L', fl (398 / 10000)),
   ('M', fl (261 / 10000)), ('N', fl (695 / 10000)), ('O', fl (768 / 10000)),
   ('P', fl (182 / 10000)), ('Q', fl (11 / 10000)), ('R', fl (602 / 10000)),
   ('S', fl (628 / 10000)), ('T', fl (910 / 10000)), ('U', fl (288 / 10000)),
   ('V', fl (111 / 10000)), ('W', fl (209 / 10000)), ('X', fl (17 / 10000)),
   ('Y', fl (211 / 10000)), ('Z', fl (7 / 10000))]

/-- The 26 letters `A`..`Z`. -/
def alphabet : List Char := "ABCDEFGHIJKLMNOPQRSTUVWXYZ".toList

/-- Division of two `double`s: the rounded quotient; with a zero divisor the result is not
a number (the IEEE result is a NaN or an infinity) and is `none`. -/
def fdiv (x y : ℚ) : Option ℚ := if y = 0 then none else some (fl (x / y))

/-! ## `calculateIOC` (Q2.cpp lines 38-59) -/

/-- One iteration of the counting loop of `calculateIOC`: `letters[c]++; total++;`
(`operator[]` creates the entry with value `0` when absent); the state is
`(letters, total)`. -/
def iocCount (st : List (Char × Nat) × Nat) (c : Char) : List (Char × Nat) × Nat :=
  (cmSet st.1 c ((cmFind st.1 c).getD 0 + 1), st.2 + 1)

/-- The function `calculateIOC(text)`: the counting loop, the loop
`sum += val * (val - 1)` over the entries of `letters`, and the final division
`sum / (total * (total - 1))`. The products `val * (val - 1)` and `total * (total - 1)`
are computed in 32-bit `int` and converted to `double` afterwards. -/
def calculateIOC (text : List Char) : Option ℚ :=
  let st := text.foldl iocCount ([], 0)
  let sum : ℚ :=
    st.1.foldl
      (fun sum entry => sum + ((wrap32 ((entry.2 : Int) * ((entry.2 : Int) - 1)) : Int) : ℚ)) 0
  fdiv sum ((wrap32 ((st.2 : Int) * ((st.2 : Int) - 1)) : Int) : ℚ)

/-! ## `getLetterFrequencies`, `shift`, `corr`, `findLetter`, `getKey` (Q2.cpp lines 121-179) -/

/-- The function `getLetterFrequencies(text)`: the loop `count[c]++` over the text, then
`frequencies[pair.first] = pair.second / text.length()` for every entry of `count`, a
division of `double`s (the loop body runs only for a non-empty text, so the divisor is not
zero). -/
def getLetterFrequencies (text : List Char) : List (Char × ℚ) :=
  let count : List (Char × Nat) :=
    text.foldl (fun count c => cmSet count c ((cmFind count c).getD 0 + 1)) []
  count.foldl
    (fun frequencies pair =>
      cmSet frequencies pair.1 (fl ((pair.2 : ℚ) / (text.length : ℚ)))) []

/-- The function `shift(text, amount)`. -/
def shift (text : List Char) (amount : Int) : List Char :=
  text.foldl
    (fun shifted c =>
      shifted ++ [toChar (ord 'A' + Int.tmod (ord c - ord 'A' - amount + 26) 26)]) []

/-- One iteration of the loop of `corr`: `sum += letterF.at(c) * EN_REL_FREQ_VIG.at(c)`,
a rounded product added to `sum` by a rounded addition. -/
def corrStep (letterF : List (Char × ℚ)) (sum : ℚ) (c : Char) : Except Fault ℚ :=
  match cmAt letterF c with
  | Except.error e => Except.error e
  | Except.ok f =>
    match cmAt EN_REL_FREQ_VIG c with
    | Except.error e => Except.error e
    | Except.ok r => Except.ok (fl (sum + fl (f * r)))

/-- The function `corr(text, letterF)`. -/
def corr (text : List Char) (letterF : List (Char × ℚ)) : Except Fault ℚ :=
  text.foldlM (corrStep letterF) 0

/-- One iteration of the loop of `findLetter` for the trial shift `count`; the state is the
pair `(keyLetter, max)`. -/
def findLetterStep (text : List Char) (letterF : List (Char × ℚ)) (st : Char × ℚ)
    (count : Nat) : Except Fault (Char × ℚ) :=
  match corr (shift text (count : Int)) letterF with
  | Except.error e => Except.error e
  | Except.ok correlation =>
    if correlation > st.2 then
      Except.ok (toChar (ord 'A' + (count : Int)), correlation)
    else
      Except.ok st

/-- The function `findLetter(text, letterF)`. -/
def findLetter (text : List Char) (letterF : List (Char × ℚ)) : Except Fault Char :=
  match (List.range 26).foldlM (findLetterStep text letterF) (' ', 0) with
  | Except.error e => Except.error e
  | Except.ok st => Except.ok st.1

/-- The inner loop of `getKey`, `for (j = ..; j < text.length(); j += keyLen) c += text[j];`,
from the current `j` and `c`. It is entered only with `keyLen ≥ 1`, which makes it
terminate. -/
def getKeyColumn (text : List Char) (keyLen : Nat) (hk : 0 < keyLen) (j : Nat)
    (c : List Char) : List Char :=
  if h : j < text.length then
    getKeyColumn text keyLen hk (j + keyLen) (c ++ [text.get ⟨j, h⟩])
  else
    c
termination_by text.length - j

/-- One iteration of the outer loop of `getKey` for the key position `i`. -/
def getKeyStep (text : List Char) (keyLen : Nat) (hk : 0 < keyLen)
    (frequencies : List (Char × ℚ)) (key : List Char) (i : Nat) : Except Fault (List Char) :=
  match findLetter (getKeyColumn text keyLen hk i []) frequencies with
  | Except.error e => Except.error e
  | Except.ok letter => Except.ok (key ++ [letter])

/-- The function `getKey(text, keyLen)`. For `keyLen ≤ 0` the outer loop
`for (i = 0; i < keyLen; i++)` does not run and the empty key is returned. -/
def getKey (text : List Char) (keyLen : Int) : Except Fault (List Char) :=
  if hk : 0 < keyLen.toNat then
    (List.range keyLen.toNat).foldlM
      (getKeyStep text keyLen.toNat hk (getLetterFrequencies text)) []
  else
    Except.ok []

/-- The correlation as the specification words it, an exact value: the sum, over the
letters `c` of the text, of `F[c] · Reference[c]`. -/
def corrSum (text : List Char) (F : List (Char × ℚ)) : ℚ :=
  (text.map (fun c => (cmFind F c).getD 0 * (cmFind EN_REL_FREQ_VIG c).getD 0)).sum

/-- The correlation as `corr` computes it when every lookup succeeds: the products
`F[c] · Reference[c]` are rounded and accumulated in text order by rounded additions. -/
def corrVal (text : List Char) (F : List (Char × ℚ)) : ℚ :=
  text.foldl
    (fun sum c => fl (sum + fl ((cmFind F c).getD 0 * (cmFind EN_REL_FREQ_VIG c).getD 0))) 0

/-- The step `key += r` for the outcome `r` of a fallible computation: a fault is passed on
and a result is appended. -/
def appendResult {β : Type} (r : Except Fault β) (key : List β) : Except Fault (List β) :=
  match r with
  | Except.error e => Except.error e
  | Except.ok y => Except.ok (key ++ [y])

/-! ## Theorems: `decryptVig` -/

theorem toNat_ofNat_small (n : Nat) (h : n < 256) : (Char.ofNat n).toNat = n := by
  have hv : n.isValidChar := Or.inl (by omega)
  simp [Char.ofNat, hv, Char.toNat, Char.ofNatAux, UInt32.toNat]

theorem ord_toChar (x : Int) (h0 : 0 ≤ x) (h1 : x < 256) : ord (toChar x) = x := by
  unfold ord toChar
  have h2 : (x % 256).toNat < 256 := by omega
  rw [toNat_ofNat_small _ h2]
  omega

theorem ord_A : ord 'A' = 65 := by decide

theorem ord_inj {a b : Char} (h : ord a = ord b) : a = b := by
  unfold ord at h
  have h2 : a.toNat = b.toNat := by exact_mod_cast h
  rw [← Char.ofNat_toNat a, ← Char.ofNat_toNat b, h2]

theorem isAZ_ord {c : Char} (h : isAZ c) : 65 ≤ ord c ∧ ord c ≤ 90 := by
  unfold isAZ at h
  unfold ord
  omega

theorem isAZ_of_ord {c : Char} (h0 : 65 ≤ ord c) (h1 : ord c ≤ 90) : isAZ c := by
  unfold ord at h0 h1
  unfold isAZ
  omega

/-- A fold whose step always appends one computed element is a `map`. -/
theorem foldlM_append_map {α β : Type} (f : List β → α → Except Fault (List β)) (g : α → β)
    (l : List α) (hf : ∀ acc x, x ∈ l → f acc x = Except.ok (acc ++ [g x])) (acc : List β) :
    l.foldlM f acc = Except.ok (acc ++ l.map g) := by
  induction l generalizing acc with
  | nil => simp [pure, Except.pure]
  | cons x xs ih =>
    rw [List.foldlM_cons, hf acc x (List.mem_cons_self _ _)]
    have := ih (fun a y hy => hf a y (List.mem_cons_of_mem _ hy)) (acc ++ [g x])
    simp [bind, Except.bind, this]

theorem decryptVig_eq_map (cipher key : List Char) (hne : key ≠ []) :
    decryptVig cipher key
      = Except.ok (cipher.enum.map (fun ic => decLetter ic.2 (keyAt key hne ic.1))) := by
  unfold decryptVig
  rw [foldlM_append_map (decryptStep key) (fun ic => decLetter ic.2 (keyAt key hne ic.1))]
  · simp
  · intro acc x _
    have h : ¬ key.length = 0 := by simpa using hne
    simp [decryptStep, h, decLetter, keyAt]

theorem encryptVig_eq_map (text key : List Char) (hne : key ≠ []) :
    encryptVig text key
      = Except.ok (text.enum.map (fun ic => encLetter ic.2 (keyAt key hne ic.1))) := by
  unfold encryptVig
  rw [foldlM_append_map (encryptStep key) (fun ic => encLetter ic.2 (keyAt key hne ic.1))]
  · simp
  · intro acc x _
    have h : ¬ key.length = 0 := by simpa using hne
    simp [encryptStep, h, encLetter, keyAt]

theorem decLetter_ord (c k : Char) (hc : isAZ c) (hk : isAZ k) :
    ord (decLetter c k) = ord 'A' + ((ord c - ord 'A') - (ord k - ord 'A') + 26) % 26 := by
  have h1 := isAZ_ord hc
  have h2 := isAZ_ord hk
  unfold decLetter
  rw [ord_A] at *
  rw [Int.tmod_eq_emod (by omega) (by omega), ord_toChar _ (by omega) (by omega)]
  omega

theorem encLetter_ord (c k : Char) (hc : isAZ c) (hk : isAZ k) :
    ord (encLetter c k) = ord 'A' + ((ord c - ord 'A') + (ord k - ord 'A')) % 26 := by
  have h1 := isAZ_ord hc
  have h2 := isAZ_ord hk
  unfold encLetter
  rw [ord_A] at *
  rw [Int.tmod_eq_emod (by omega) (by omega), ord_toChar _ (by omega) (by omega)]

theorem decLetter_isAZ (c k : Char) (hc : isAZ c) (hk : isAZ k) : isAZ (decLetter c k) := by
  have h := decLetter_ord c k hc hk
  rw [ord_A] at h
  apply isAZ_of_ord <;> omega

theorem encLetter_isAZ (c k : Char) (hc : isAZ c) (hk : isAZ k) : isAZ (encLetter c k) := by
  have h := encLetter_ord c k hc hk
  rw [ord_A] at h
  apply isAZ_of_ord <;> omega

theorem dec_enc_letter (c k : Char) (hc : isAZ c) (hk : isAZ k) :
    decLetter (encLetter c k) k = c := by
  apply ord_inj
  rw [decLetter_ord _ _ (encLetter_isAZ c k hc hk) hk, encLetter_ord c k hc hk, ord_A]
  have h1 := isAZ_ord hc
  have h2 := isAZ_ord hk
  omega

theorem keyAt_isAZ (key : List Char) (hne : key ≠ []) (hk : ∀ c ∈ key, isAZ c) (i : Nat) :
    isAZ (keyAt key hne i) := by
  unfold keyAt
  exact hk _ (List.get_mem _ _ _)

/-- C2: for a text and a non-empty key over A-Z, `decryptVig` returns a text of the same
length whose letter at position `i` is `'A' + ((cipher[i]-'A') - (key[i mod |key|]-'A') + 26) mod 26`,
again a letter A-Z. -/
theorem decryptVig_letters (cipher key : List Char) (hc : ∀ c ∈ cipher, isAZ c)
    (hk : ∀ c ∈ key, isAZ c) (hne : key ≠ []) :
    ∃ plain, decryptVig cipher key = Except.ok plain ∧ plain.length = cipher.length ∧
      ∀ (i : Nat) (hi : i < cipher.length) (hp : i < plain.length),
        ord (plain.get ⟨i, hp⟩)
            = ord 'A' + ((ord (cipher.get ⟨i, hi⟩) - ord 'A')
                          - (ord (keyAt key hne i) - ord 'A') + 26) % 26
          ∧ isAZ (plain.get ⟨i, hp⟩) := by
  have hd := decryptVig_eq_map cipher key hne
  refine Exists.intro _ (And.intro hd (And.intro ?_ ?_))
  · rw [List.length_map, List.enum_length]
  intro i hi hp
  have hci : isAZ cipher[i] := hc _ (List.getElem_mem hi)
  have hki := keyAt_isAZ key hne hk i
  simp only [List.get_eq_getElem, List.getElem_map, List.getElem_enum]
  exact And.intro (decLetter_ord _ _ hci hki) (decLetter_isAZ _ _ hci hki)

/-- Witness of C2 on the ciphertext `LXFOPVEFRNHR` and the key `LEMON`. -/
theorem decryptVig_letters_witness :
    ∃ plain, decryptVig "LXFOPVEFRNHR".toList "LEMON".toList = Except.ok plain ∧
      plain.length = "LXFOPVEFRNHR".toList.length ∧
      ∀ (i : Nat) (hi : i < "LXFOPVEFRNHR".toList.length) (hp : i < plain.length),
        ord (plain.get ⟨i, hp⟩)
            = ord 'A' + ((ord ("LXFOPVEFRNHR".toList.get ⟨i, hi⟩) - ord 'A')
                          - (ord (keyAt "LEMON".toList (by decide) i) - ord 'A') + 26) % 26
          ∧ isAZ (plain.get ⟨i, hp⟩) :=
  decryptVig_letters "LXFOPVEFRNHR".toList "LEMON".toList (by decide) (by decide) (by decide)

/-- The encryption transform returns, at position `i`, the letter
`'A' + ((C[i]-'A') + (K[i mod |K|]-'A')) mod 26`. -/
theorem encryptVig_letters (text key : List Char) (hc : ∀ c ∈ text, isAZ c)
    (hk : ∀ c ∈ key, isAZ c) (hne : key ≠ []) :
    ∃ out, encryptVig text key = Except.ok out ∧ out.length = text.length ∧
      ∀ (i : Nat) (hi : i < text.length) (hp : i < out.length),
        ord (out.get ⟨i, hp⟩)
            = ord 'A' + ((ord (text.get ⟨i, hi⟩) - ord 'A')
                          + (ord (keyAt key hne i) - ord 'A')) % 26
          ∧ isAZ (out.get ⟨i, hp⟩) := by
  have hd := encryptVig_eq_map text key hne
  refine Exists.intro _ (And.intro hd (And.intro ?_ ?_))
  · rw [List.length_map, List.enum_length]
  intro i hi hp
  have hci : isAZ text[i] := hc _ (List.getElem_mem hi)
  have hki := keyAt_isAZ key hne hk i
  simp only [List.get_eq_getElem, List.getElem_map, List.getElem_enum]
  exact And.intro (encLetter_ord _ _ hci hki) (encLetter_isAZ _ _ hci hki)

/-- C1: round trip. For a text `C` over A-Z and a non-empty key `K` over A-Z, encrypting
`C` under `K` succeeds and `decryptVig` of the result under `K` returns `C`. -/
theorem decryptVig_encryptVig (C K : List Char) (hC : ∀ c ∈ C, isAZ c)
    (hK : ∀ c ∈ K, isAZ c) (hne : K ≠ []) :
    ∃ E, encryptVig C K = Except.ok E ∧ decryptVig E K = Except.ok C := by
  refine ⟨_, encryptVig_eq_map C K hne, ?_⟩
  rw [decryptVig_eq_map _ K hne]
  congr 1
  apply List.ext_getElem
  · simp [List.enum_length]
  · intro i h1 h2
    have hi : i < C.length := h2
    have hci : isAZ C[i] := hC _ (List.getElem_mem hi)
    simp only [List.getElem_map, List.getElem_enum]
    exact dec_enc_letter _ _ hci (keyAt_isAZ K hne hK i)

/-- Witness of C1 on the text `ATTACKATDAWN` and the key `LEMON`. -/
theorem decryptVig_encryptVig_witness :
    ∃ E, encryptVig "ATTACKATDAWN".toList "LEMON".toList = Except.ok E ∧
      decryptVig E "LEMON".toList = Except.ok "ATTACKATDAWN".toList :=
  decryptVig_encryptVig "ATTACKATDAWN".toList "LEMON".toList (by decide) (by decide) (by decide)

/-- C3: `decryptVig("LXFOPVEFRNHR", "LEMON") = "ATTACKATDAWN"`. -/
theorem decryptVig_lemon :
    decryptVig "LXFOPVEFRNHR".toList "LEMON".toList = Except.ok "ATTACKATDAWN".toList := by
  rfl

/-! ## Theorems: `kasiski` -/

theorem mapFind_assign_same (m : List (List Char × Nat)) (s : List Char) (i : Nat) :
    mapFind (mapAssign m s i) s = some i := by
  simp [mapAssign, mapFind]

theorem mapFind_filter_ne (m : List (List Char × Nat)) (s t : List Char) (h : s ≠ t) :
    mapFind (m.filter (fun p => !decide (p.1 = s))) t = mapFind m t := by
  induction m with
  | nil => rfl
  | cons p rest ih =>
    obtain ⟨k, v⟩ := p
    by_cases hk : k = s
    · subst hk
      simp [List.filter, mapFind, h, ih]
    · simp [List.filter, hk, mapFind, ih]

theorem mapFind_assign_ne (m : List (List Char × Nat)) (s t : List Char) (i : Nat) (h : s ≠ t) :
    mapFind (mapAssign m s i) t = mapFind m t := by
  simp [mapAssign, mapFind, h, mapFind_filter_ne m s t h]

theorem length_substr (text : List Char) (i L : Nat) (h : i + L ≤ text.length) :
    (substr text i L).length = L := by
  simp [substr]
  omega

theorem substr_length_lt (text : List Char) (i L : Nat) (h : ¬ i + L ≤ text.length)
    (hL : 0 < L) :
    (substr text i L).length < L := by
  simp [substr]
  omega

theorem kasiskiInner_fold (text : List Char) (i : Nat) (Ls : List Nat) (hnd : Ls.Nodup)
    (d : List Int) (m0 m : List (List Char × Nat))
    (hm : ∀ s : List Char, s.length ∈ Ls → mapFind m s = mapFind m0 s)
    (h0 : ∀ s : List Char, 3 ≤ s.length ∧ s.length ≤ 8 → mapFind m0 s = prevOcc text s i) 
    (hLs : ∀ L ∈ Ls, 3 ≤ L ∧ L ≤ 8) :
    (Ls.foldl (kasiskiInner text i) (d, m)).1 = d ++ Ls.flatMap (kasiskiEmit text i) ∧
    ∀ s : List Char, mapFind (Ls.foldl (kasiskiInner text i) (d, m)).2 s =
      if s.length ∈ Ls ∧ substr text i s.length = s then some i else mapFind m s := by
  induction Ls generalizing d m with
  | nil => simp
  | cons L rest ih =>
    have hLnot : L ∉ rest := (List.nodup_cons.1 hnd).1
    have hnd2 : rest.Nodup := (List.nodup_cons.1 hnd).2
    rw [List.foldl_cons]
    by_cases hle : i + L ≤ text.length
    · have hlen := length_substr text i L hle
      have hfind : mapFind m (substr text i L) = prevOcc text (substr text i L) i := by
        rw [hm _ (by rw [hlen]; exact List.mem_cons_self _ _)]
        exact h0 _ (by rw [hlen]; exact hLs L (List.mem_cons_self _ _))
      have hstep : kasiskiInner text i (d, m) L
          = (d ++ kasiskiEmit text i L, mapAssign m (substr text i L) i) := by
        simp only [kasiskiInner, kasiskiEmit, hle, if_true, hfind]
        cases prevOcc text (substr text i L) i <;> simp
      rw [hstep]
      have hm2 : ∀ s : List Char, s.length ∈ rest →
          mapFind (mapAssign m (substr text i L) i) s = mapFind m0 s := by
        intro s hs
        have hne : substr text i L ≠ s := by
          intro he
          rw [← he, hlen] at hs
          exact hLnot hs
        rw [mapFind_assign_ne _ _ _ _ hne]
        exact hm s (List.mem_cons_of_mem _ hs)
      obtain ⟨ih1, ih2⟩ := ih hnd2 (d ++ kasiskiEmit text i L) _ hm2
        (fun L2 h2 => hLs L2 (List.mem_cons_of_mem _ h2))
      refine ⟨by rw [ih1]; simp, ?_⟩
      intro s
      rw [ih2 s]
      by_cases hs1 : s.length ∈ rest ∧ substr text i s.length = s
      · have : s.length ∈ L :: rest ∧ substr text i s.length = s :=
          ⟨List.mem_cons_of_mem _ hs1.1, hs1.2⟩
        rw [if_pos hs1, if_pos this]
      · rw [if_neg hs1]
        by_cases hs2 : substr text i L = s
        · have hsl : s.length = L := by rw [← hs2, hlen]
          have : s.length ∈ L :: rest ∧ substr text i s.length = s := by
            rw [hsl]
            exact ⟨List.mem_cons_self _ _, hs2⟩
          rw [if_pos this, ← hs2, mapFind_assign_same]
        · have : ¬ (s.length ∈ L :: rest ∧ substr text i s.length = s) := by
            rintro ⟨h1, h2⟩
            rcases List.mem_cons.1 h1 with h | h
            · rw [h] at h2
              exact hs2 h2
            · exact hs1 ⟨h, h2⟩
          rw [if_neg this, mapFind_assign_ne _ _ _ _ hs2]
    · have hstep : kasiskiInner text i (d, m) L = (d, m) := by
        simp [kasiskiInner, hle]
      have hemit : kasiskiEmit text i L = [] := by
        simp [kasiskiEmit, hle]
      rw [hstep]
      obtain ⟨ih1, ih2⟩ := ih hnd2 d m (fun s hs => hm s (List.mem_cons_of_mem _ hs))
        (fun L2 h2 => hLs L2 (List.mem_cons_of_mem _ h2))
      refine ⟨by rw [ih1, List.flatMap_cons, hemit]; simp, ?_⟩
      intro s
      rw [ih2 s]
      by_cases hs1 : s.length ∈ rest ∧ substr text i s.length = s
      · have : s.length ∈ L :: rest ∧ substr text i s.length = s :=
          ⟨List.mem_cons_of_mem _ hs1.1, hs1.2⟩
        rw [if_pos hs1, if_pos this]
      · have : ¬ (s.length ∈ L :: rest ∧ substr text i s.length = s) := by
          rintro ⟨h1, h2⟩
          rcases List.mem_cons.1 h1 with h | h
          · have := substr_length_lt text i L hle (by have := (hLs L (List.mem_cons_self _ _)).1; omega)
            rw [h] at h2
            rw [h2] at this
            omega
          · exact hs1 ⟨h, h2⟩
        rw [if_neg hs1, if_neg this]

theorem mem_lengths_iff (L : Nat) : L ∈ [3, 4, 5, 6, 7, 8] ↔ 3 ≤ L ∧ L ≤ 8 := by
  simp only [List.mem_cons, List.mem_singleton, List.not_mem_nil, or_false]
  omega

theorem kasiskiOuter_fold (text : List Char) (k : Nat) :
    ((List.range k).foldl (kasiskiOuter text) ([], [])).1
        = (List.range k).flatMap
            (fun i => [3, 4, 5, 6, 7, 8].flatMap fun L => kasiskiEmit text i L) ∧
      LastPosInv text k ((List.range k).foldl (kasiskiOuter text) ([], [])).2 := by
  induction k with
  | zero =>
    refine ⟨by simp, ?_⟩
    intro s
    simp [mapFind, prevOcc]
  | succ k ih =>
    obtain ⟨ih1, ih2⟩ := ih
    rw [List.range_succ, List.foldl_append, List.flatMap_append]
    generalize (List.range k).foldl (kasiskiOuter text) ([], []) = st at ih1 ih2
    obtain ⟨d, m⟩ := st
    have hk : List.foldl (kasiskiOuter text) (d, m) [k]
        = List.foldl (kasiskiInner text k) (d, m) [3, 4, 5, 6, 7, 8] := rfl
    rw [hk]
    simp only at ih1 ih2
    have hin := kasiskiInner_fold text k [3, 4, 5, 6, 7, 8] (by decide) d m m
      (fun _ _ => rfl)
      (fun s hs => by rw [ih2 s, if_pos hs])
      (fun L hL => (mem_lengths_iff L).1 hL)
    obtain ⟨h1, h2⟩ := hin
    refine ⟨?_, ?_⟩
    · rw [h1, ih1]
      simp
    · intro s
      rw [h2 s, ih2 s]
      by_cases hs : 3 ≤ s.length ∧ s.length ≤ 8
      · have hmem := (mem_lengths_iff s.length).2 hs
        by_cases he : substr text k s.length = s
        · simp [prevOcc, hs, he, hmem]
        · simp [prevOcc, hs, he]
      · have hmem : ¬ s.length ∈ [3, 4, 5, 6, 7, 8] := fun h => hs ((mem_lengths_iff _).1 h)
        rw [if_neg hs, if_neg (fun h => hmem h.1), if_neg hs]

theorem kasiski_eq_spec (text : List Char) : kasiski text = kasiskiSpec text :=
  (kasiskiOuter_fold text text.length).1

theorem prevOcc_eq_none (text s : List Char) (i : Nat) :
    prevOcc text s i = none ↔ ∀ j, j < i → substr text j s.length ≠ s := by
  induction i with
  | zero => simp [prevOcc]
  | succ i ih =>
    by_cases he : substr text i s.length = s
    · simp only [prevOcc, he, if_true]
      constructor
      · intro h
        cases h
      · intro h
        exact absurd he (h i (Nat.lt_succ_self i))
    · simp only [prevOcc, he, if_false, ih]
      constructor
      · intro h j hj
        rcases Nat.lt_succ_iff_lt_or_eq.1 hj with h1 | h1
        · exact h j h1
        · rw [h1]
          exact he
      · intro h j hj
        exact h j (Nat.lt_succ_of_lt hj)

theorem prevOcc_eq_some (text s : List Char) (i j : Nat) :
    prevOcc text s i = some j ↔
      j < i ∧ substr text j s.length = s ∧
        ∀ j2, j < j2 → j2 < i → substr text j2 s.length ≠ s := by
  induction i with
  | zero => simp [prevOcc]
  | succ i ih =>
    by_cases he : substr text i s.length = s
    · simp only [prevOcc, he, if_true, Option.some.injEq]
      constructor
      · intro h
        subst h
        exact ⟨Nat.lt_succ_self _, he, fun j2 h1 h2 => by omega⟩
      · rintro ⟨h1, _, h3⟩
        by_contra hne
        exact h3 i (by omega) (Nat.lt_succ_self _) he
    · simp only [prevOcc, he, if_false, ih]
      constructor
      · rintro ⟨h1, h2, h3⟩
        refine ⟨by omega, h2, ?_⟩
        intro j2 hj hj2
        rcases Nat.lt_succ_iff_lt_or_eq.1 hj2 with h | h
        · exact h3 j2 hj h
        · rw [h]
          exact he
      · rintro ⟨h1, h2, h3⟩
        have hji : j ≠ i := by
          intro h
          rw [h] at h2
          exact he h2
        exact ⟨by omega, h2, fun j2 hj hj2 => h3 j2 hj (by omega)⟩

/-- C4: `kasiski(text)` is the list obtained by visiting the offsets `i = 0..n-1` in
increasing order and, for each, the lengths `L = 3..8` in increasing order with `i + L ≤ n`,
emitting `i - j` for the largest earlier offset `j < i` at which the window `text[i..i+L)`
also starts, and nothing for a first occurrence. -/
theorem kasiski_chained (text : List Char) :
    kasiski text
        = (List.range text.length).flatMap
            (fun i => [3, 4, 5, 6, 7, 8].flatMap fun L => kasiskiEmit text i L) ∧
      (∀ i L, kasiskiEmit text i L =
        if i + L ≤ text.length then
          match prevOcc text (substr text i L) i with
          | some j => [(i : Int) - (j : Int)]
          | none => []
        else []) ∧
      (∀ i L j, i + L ≤ text.length →
        (prevOcc text (substr text i L) i = some j ↔
          j < i ∧ substr text j L = substr text i L ∧
            ∀ j2, j < j2 → j2 < i → substr text j2 L ≠ substr text i L)) ∧
      (∀ i L, i + L ≤ text.length →
        (prevOcc text (substr text i L) i = none ↔
          ∀ j, j < i → substr text j L ≠ substr text i L)) := by
  refine ⟨kasiski_eq_spec text, fun i L => rfl, ?_, ?_⟩
  · intro i L j h
    have := prevOcc_eq_some text (substr text i L) i j
    rw [length_substr text i L h] at this
    exact this
  · intro i L h
    have := prevOcc_eq_none text (substr text i L) i
    rw [length_substr text i L h] at this
    exact this

/-- C5: `kasiski(text)` is empty when no substring of length at least 3 starts at two
different offsets, and it is non-empty as soon as some substring of length 3 starts at two
different offsets (overlapping occurrences included). -/
theorem kasiski_empty_and_nonempty (text : List Char) :
    ((∀ L j i, 3 ≤ L → j < i → i + L ≤ text.length →
        substr text j L ≠ substr text i L) → kasiski text = []) ∧
    ((∃ j i, j < i ∧ i + 3 ≤ text.length ∧ substr text j 3 = substr text i 3) →
        kasiski text ≠ []) := by
  rw [kasiski_eq_spec]
  constructor
  · intro h
    unfold kasiskiSpec
    rw [List.flatMap_eq_nil_iff]
    intro i _
    rw [List.flatMap_eq_nil_iff]
    intro L hL
    have hL3 := ((mem_lengths_iff L).1 hL).1
    unfold kasiskiEmit
    by_cases hle : i + L ≤ text.length
    · have hnone : prevOcc text (substr text i L) i = none := by
        rw [prevOcc_eq_none, length_substr text i L hle]
        intro j hj
        exact h L j i hL3 hj hle
      rw [if_pos hle, hnone]
    · rw [if_neg hle]
  · rintro ⟨j, i, hji, hle, heq⟩ hnil
    unfold kasiskiSpec at hnil
    rw [List.flatMap_eq_nil_iff] at hnil
    have h1 := hnil i (List.mem_range.2 (by omega))
    rw [List.flatMap_eq_nil_iff] at h1
    have h2 := h1 3 (by decide)
    unfold kasiskiEmit at h2
    rw [if_pos hle] at h2
    cases hp : prevOcc text (substr text i 3) i with
    | none =>
      rw [prevOcc_eq_none, length_substr text i 3 hle] at hp
      exact hp j hji heq
    | some j2 =>
      rw [hp] at h2
      cases h2

/-- Witness of C5: `ABCD` has no repeated substring of length at least 3 and yields no
distance; in `ABCABC` the substring `ABC` starts at offsets 0 and 3 and a distance is found. -/
theorem kasiski_empty_and_nonempty_witness :
    kasiski "ABCD".toList = [] ∧ kasiski "ABCABC".toList ≠ [] :=
  ⟨(kasiski_empty_and_nonempty "ABCD".toList).1 (by
      intro L j i hL hji hle
      have hlen : "ABCD".toList.length = 4 := rfl
      rw [hlen] at hle
      have hi : i = 1 := by omega
      have hj : j = 0 := by omega
      have hL3 : L = 3 := by omega
      subst hi hj hL3
      decide),
   (kasiski_empty_and_nonempty "ABCABC".toList).2 ⟨0, 3, by decide, by decide, by decide⟩⟩

/-! ## Theorems: `gcd` and `findProbableKeyLength` -/

theorem gcd_natCast (m n : Nat) : gcd (m : Int) (n : Int) = ((Nat.gcd m n : Nat) : Int) := by
  induction n using Nat.strong_induction_on generalizing m with
  | _ n ih =>
    rw [gcd]
    by_cases hn : n = 0
    · subst hn
      simp
    · have h0 : ¬ ((n : Int) = 0) := by exact_mod_cast hn
      rw [if_neg h0, ← Int.ofNat_tmod, ih (m % n) (Nat.mod_lt m (Nat.pos_of_ne_zero hn)) n]
      rw [Nat.gcd_comm m n, Nat.gcd_rec n m, Nat.gcd_comm]

theorem gcd_eq_intGcd (a b : Int) (ha : 0 ≤ a) (hb : 0 ≤ b) :
    gcd a b = ((Int.gcd a b : Nat) : Int) := by
  obtain ⟨m, rfl⟩ := Int.eq_ofNat_of_zero_le ha
  obtain ⟨n, rfl⟩ := Int.eq_ofNat_of_zero_le hb
  rw [gcd_natCast, Int.gcd_natCast_natCast]

theorem foldl_push_map {α : Type} (f : α → Int) (l : List α) (acc : List Int) :
    l.foldl (fun cd b => cd ++ [f b]) acc = acc ++ l.map f := by
  induction l generalizing acc with
  | nil => simp
  | cons x xs ih => simp [ih]

theorem commonDen_aux (suf pre : List Int) (acc : List Int) :
    (List.enumFrom pre.length suf).foldl
        (fun cd ia => ((pre ++ suf).drop (ia.1 + 1)).foldl (fun cd b => cd ++ [gcd ia.2 b]) cd)
        acc
      = acc ++ pairsRec gcd suf := by
  induction suf generalizing pre acc with
  | nil => simp [pairsRec]
  | cons a rest ih =>
    have hdrop : (pre ++ a :: rest).drop (pre.length + 1) = rest := by
      rw [show pre ++ a :: rest = (pre ++ [a]) ++ rest by simp]
      rw [List.drop_append_of_le_length (by simp)]
      simp
    have hih := ih (pre ++ [a]) (acc ++ rest.map (gcd a))
    simp only [List.length_append, List.length_singleton, List.append_assoc,
      List.singleton_append, foldl_push_map] at hih
    simp only [List.enumFrom_cons, List.foldl_cons, hdrop, foldl_push_map, pairsRec]
    exact hih

theorem commonDen_eq_pairsRec (d : List Int) : commonDen d = pairsRec gcd d := by
  have := commonDen_aux d [] []
  simpa [commonDen, List.enum] using this

theorem map_range'_getD (g : Int → Int) (rest pre : List Int) :
    (List.range' pre.length rest.length).map (fun j => g ((pre ++ rest).getD j 0))
      = rest.map g := by
  apply List.ext_getElem
  · simp
  · intro i h1 h2
    have hi : i < rest.length := by simpa using h2
    simp only [List.getElem_map, List.getElem_range', one_mul]
    rw [List.getD_eq_getElem?_getD, List.getElem?_append_right (by omega)]
    simp [hi]

theorem pairGcds_aux (F : Int → Int → Int) (suf pre : List Int) :
    (List.range' pre.length suf.length).flatMap
        (fun i => (List.range' (i + 1) ((pre ++ suf).length - (i + 1))).map
          fun j => F ((pre ++ suf).getD i 0) ((pre ++ suf).getD j 0))
      = pairsRec F suf := by
  induction suf generalizing pre with
  | nil => simp [pairsRec]
  | cons a rest ih =>
    have hih := ih (pre ++ [a])
    simp only [List.length_append, List.length_singleton, List.append_assoc,
      List.singleton_append, List.length_cons, List.length_nil, Nat.zero_add] at hih
    simp only [List.length_cons, List.range'_succ, List.flatMap_cons, pairsRec,
      List.length_append]
    rw [hih]
    congr 1
    have hget : (pre ++ a :: rest).getD pre.length 0 = a := by
      rw [List.getD_eq_getElem?_getD, List.getElem?_append_right (le_refl _)]
      simp
    rw [hget]
    have hm := map_range'_getD (F a) rest (pre ++ [a])
    simp only [List.length_append, List.length_singleton, List.append_assoc,
      List.singleton_append] at hm
    rw [show pre.length + (rest.length + 1) - (pre.length + 1) = rest.length by omega]
    exact hm

theorem pairGcds_eq_pairsRec (d : List Int) :
    pairGcds d = pairsRec (fun a b => ((Int.gcd a b : Nat) : Int)) d := by
  have := pairGcds_aux (fun a b => ((Int.gcd a b : Nat) : Int)) d []
  simpa [pairGcds, List.range_eq_range'] using this

theorem pairsRec_congr (f g : Int → Int → Int) (d : List Int)
    (h : ∀ a ∈ d, ∀ b ∈ d, f a b = g a b) : pairsRec f d = pairsRec g d := by
  induction d with
  | nil => rfl
  | cons a rest ih =>
    simp only [pairsRec]
    rw [ih (fun x hx y hy => h x (List.mem_cons_of_mem _ hx) y (List.mem_cons_of_mem _ hy))]
    congr 1
    apply List.map_congr_left
    intro b hb
    exact h a (List.mem_cons_self _ _) b (List.mem_cons_of_mem _ hb)

/-- On non-negative distances the first loop nest builds the list of pairwise greatest
common divisors. -/
theorem commonDen_eq_pairGcds (d : List Int) (hpos : ∀ x ∈ d, 0 ≤ x) :
    commonDen d = pairGcds d := by
  rw [commonDen_eq_pairsRec, pairGcds_eq_pairsRec]
  exact pairsRec_congr _ _ d (fun a ha b hb => gcd_eq_intGcd a b (hpos a ha) (hpos b hb))

theorem countEq_eq_count (cd : List Int) (x : Int) : countEq cd x = List.count x cd := by
  have h : ∀ (l : List Int) (n : Nat),
      l.foldl (fun count y => if y = x then count + 1 else count) n = n + List.count x l := by
    intro l
    induction l with
    | nil => simp
    | cons y ys ih =>
      intro n
      rw [List.foldl_cons, ih, List.count_cons]
      by_cases hy : y = x
      · simp [hy]; omega
      · simp [hy]
  simpa [countEq] using h cd 0

/-- Invariant of the selection loop after the prefix `done` of `commonDen`. -/
theorem select_fold (cd : List Int) (done : List Int) (hsub : ∀ x ∈ done, x ∈ cd) :
    (done = [] ∧ done.foldl (selectStep cd) (0, 0) = (0, 0)) ∨
    (∃ a b, done = a ++ (done.foldl (selectStep cd) (0, 0)).1 :: b ∧
      (∀ y ∈ a, List.count y cd < (done.foldl (selectStep cd) (0, 0)).2) ∧
      List.count (done.foldl (selectStep cd) (0, 0)).1 cd
        = (done.foldl (selectStep cd) (0, 0)).2 ∧
      (∀ y ∈ b, List.count y cd ≤ (done.foldl (selectStep cd) (0, 0)).2)) := by
  induction done using List.reverseRecOn with
  | nil => exact Or.inl ⟨rfl, rfl⟩
  | append_singleton done x ih =>
    right
    have hx : x ∈ cd := hsub x (by simp)
    have hxpos : 0 < List.count x cd := List.count_pos_iff.2 hx
    have ih2 := ih (fun y hy => hsub y (by simp [hy]))
    rw [List.foldl_append]
    generalize done.foldl (selectStep cd) (0, 0) = st at ih2
    obtain ⟨p, mx⟩ := st
    simp only [List.foldl_cons, List.foldl_nil, selectStep, countEq_eq_count]
    by_cases hgt : List.count x cd > mx
    · simp only [hgt, if_true]
      refine ⟨done, [], rfl, ?_, trivial, by simp⟩
      intro y hy
      rcases ih2 with ⟨hnil, _⟩ | ⟨a, b, hd, ha, hp, hb⟩
      · rw [hnil] at hy
        cases hy
      · simp only at hd ha hp hb
        rw [hd] at hy
        rcases List.mem_append.1 hy with h | h
        · exact lt_trans (ha y h) hgt
        · rcases List.mem_cons.1 h with h | h
          · rw [h, hp]
            exact hgt
          · exact lt_of_le_of_lt (hb y h) hgt
    · simp only [hgt, if_false]
      rcases ih2 with ⟨_, hst⟩ | ⟨a, b, hd, ha, hp, hb⟩
      · simp only [Prod.mk.injEq] at hst
        omega
      · simp only at hd ha hp hb
        refine ⟨a, b ++ [x], ?_, ha, hp, ?_⟩
        · rw [hd]
          simp
        · intro y hy
          rcases List.mem_append.1 hy with h | h
          · exact hb y h
          · rw [List.mem_singleton.1 h]
            omega

theorem select_result (cd : List Int) (hne : cd ≠ []) :
    ∃ a b, cd = a ++ (cd.foldl (selectStep cd) (0, 0)).1 :: b ∧
      (∀ y ∈ a, List.count y cd < List.count (cd.foldl (selectStep cd) (0, 0)).1 cd) ∧
      (∀ y ∈ b, List.count y cd ≤ List.count (cd.foldl (selectStep cd) (0, 0)).1 cd) := by
  rcases select_fold cd cd (fun _ h => h) with ⟨h, _⟩ | ⟨a, b, hd, ha, hp, hb⟩
  · exact absurd h hne
  · rw [hp]
    exact ⟨a, b, hd, ha, hb⟩

/-- C6: for positive distances `d`, let `G` be the list of `gcd(d[i], d[j])` for `i < j`
(`i` ascending, then `j` ascending). When `G` has a value at all, `findProbableKeyLength(d)`
is a value of `G` with the highest number of occurrences in `G`, and among the values with
that highest count it is the one whose first occurrence in `G` comes first: `G` splits as
`a ++ r :: b` with every value of `a` occurring strictly less often than `r`, so no value
that ties with `r` starts before `r` does, whatever its numerical size. -/
theorem findProbableKeyLength_mode (d : List Int) (hpos : ∀ x ∈ d, 0 < x) :
    pairGcds d ≠ [] →
      findProbableKeyLength d ∈ pairGcds d ∧
      (∀ g ∈ pairGcds d,
        List.count g (pairGcds d) ≤ List.count (findProbableKeyLength d) (pairGcds d)) ∧
      (∀ g ∈ pairGcds d,
        List.count g (pairGcds d) = List.count (findProbableKeyLength d) (pairGcds d) →
          List.indexOf (findProbableKeyLength d) (pairGcds d) ≤ List.indexOf g (pairGcds d)) ∧
      (∃ a b, pairGcds d = a ++ findProbableKeyLength d :: b ∧
        ∀ y ∈ a,
          List.count y (pairGcds d) < List.count (findProbableKeyLength d) (pairGcds d)) := by
  intro hne
  have hcd : commonDen d = pairGcds d :=
    commonDen_eq_pairGcds d (fun x hx => le_of_lt (hpos x hx))
  have hr : findProbableKeyLength d
      = ((pairGcds d).foldl (selectStep (pairGcds d)) (0, 0)).1 := by
    unfold findProbableKeyLength
    rw [hcd]
  obtain ⟨a, b, hd, ha, hb⟩ := select_result (pairGcds d) hne
  rw [← hr] at hd ha hb
  have hra : findProbableKeyLength d ∉ a := fun h => lt_irrefl _ (ha _ h)
  have hle : ∀ g ∈ pairGcds d,
      List.count g (pairGcds d) ≤ List.count (findProbableKeyLength d) (pairGcds d) := by
    intro g hg
    rw [hd] at hg
    rcases List.mem_append.1 hg with h | h
    · exact le_of_lt (ha g h)
    · rcases List.mem_cons.1 h with h | h
      · rw [h]
      · exact hb g h
  refine ⟨?_, hle, ?_, a, b, hd, ha⟩
  · rw [hd]
    simp
  · intro g _ hgc
    have hga : g ∉ a := fun h => by
      have := ha g h
      omega
    have h1 : List.indexOf (findProbableKeyLength d) (pairGcds d) = a.length := by
      conv_lhs => rw [hd]
      rw [List.indexOf_append_of_not_mem hra, List.indexOf_cons_self]
      rfl
    have h2 : a.length ≤ List.indexOf g (pairGcds d) := by
      conv_rhs => rw [hd]
      rw [List.indexOf_append_of_not_mem hga]
      exact Nat.le_add_right _ _
    rw [h1]
    exact h2

/-- C7: `findProbableKeyLength` of the empty distance sequence is `0`. -/
theorem findProbableKeyLength_nil : findProbableKeyLength [] = 0 := by
  rfl

/-- On `[4, 6, 9]` the three pairwise divisors `2, 1, 3` tie and the first one, `2`, is
returned: neither the smallest nor the largest. -/
theorem findProbableKeyLength_tie : findProbableKeyLength [4, 6, 9] = 2 := by
  unfold findProbableKeyLength
  rw [commonDen_eq_pairGcds _ (by decide)]
  decide

/-- Witness of C6 on the distances `[4, 6, 9]`, where `G = [2, 1, 3]` is a three-way tie. -/
theorem findProbableKeyLength_mode_witness :
    findProbableKeyLength [4, 6, 9] ∈ pairGcds [4, 6, 9] ∧
    (∀ g ∈ pairGcds [4, 6, 9],
      List.count g (pairGcds [4, 6, 9])
        ≤ List.count (findProbableKeyLength [4, 6, 9]) (pairGcds [4, 6, 9])) ∧
    (∀ g ∈ pairGcds [4, 6, 9],
      List.count g (pairGcds [4, 6, 9])
          = List.count (findProbableKeyLength [4, 6, 9]) (pairGcds [4, 6, 9]) →
        List.indexOf (findProbableKeyLength [4, 6, 9]) (pairGcds [4, 6, 9])
          ≤ List.indexOf g (pairGcds [4, 6, 9])) ∧
    (∃ a b, pairGcds [4, 6, 9] = a ++ findProbableKeyLength [4, 6, 9] :: b ∧
      ∀ y ∈ a,
        List.count y (pairGcds [4, 6, 9])
          < List.count (findProbableKeyLength [4, 6, 9]) (pairGcds [4, 6, 9])) :=
  findProbableKeyLength_mode [4, 6, 9] (by decide) (by decide)

/-! ## Theorems: `subString` -/

theorem column_snoc (C : List Char) (c : Char) (k r : Nat) :
    column (C ++ [c]) k r = column C k r ++ (if C.length % k = r then [c] else []) := by
  unfold column
  rw [List.enum_append]
  simp only [List.enumFrom_singleton, List.filter_append, List.map_append]
  congr 1
  by_cases h : C.length % k = r
  · simp [List.filter, h]
  · simp [List.filter, h]

theorem subStringStep_ok (k : Nat) (hk : 1 ≤ k) (subs : List (List Char)) (i : Nat) (c : Char) :
    subStringStep (k : Int) subs (i, c)
      = Except.ok (subs.modify (fun s => s ++ [c]) (i % k)) := by
  have h0 : ¬ ((k : Int) = 0) := by omega
  simp only [subStringStep, if_neg h0, ← Int.ofNat_tmod, Int.toNat_ofNat]

theorem subString_eq_columns (C : List Char) (k : Nat) (hk : 1 ≤ k) :
    subString C (k : Int) = Except.ok ((List.range k).map (column C k)) := by
  have hneg : ¬ ((k : Int) < 0) := by omega
  unfold subString
  rw [if_neg hneg, Int.toNat_ofNat]
  induction C using List.reverseRecOn with
  | nil =>
    simp only [List.enum_nil, List.foldlM_nil, pure, Except.pure]
    congr 1
    apply List.ext_getElem
    · simp
    · intro i h1 h2
      simp [column]
  | append_singleton C c ih =>
    rw [List.enum_append, List.foldlM_append, ih]
    simp only [List.enumFrom_singleton, bind, Except.bind, List.foldlM_cons, List.foldlM_nil,
      subStringStep_ok k hk, pure, Except.pure]
    congr 1
    apply List.ext_getElem
    · simp
    · intro r h1 h2
      have hr : r < k := by simpa using h2
      rw [List.getElem_modify]
      simp only [List.getElem_map, List.getElem_range, column_snoc]
      by_cases h : C.length % k = r
      · simp [h]
      · simp [h]

theorem succ_div_mod (n k : Nat) (hk : 1 ≤ k) :
    (n % k + 1 < k ∧ (n + 1) / k = n / k ∧ (n + 1) % k = n % k + 1) ∨
    (n % k + 1 = k ∧ (n + 1) / k = n / k + 1 ∧ (n + 1) % k = 0) := by
  have hlt : n % k < k := Nat.mod_lt n (by omega)
  have hdm : n % k + k * (n / k) = n := Nat.mod_add_div n k
  by_cases h : n % k + 1 < k
  · left
    have := (Nat.div_mod_unique (show 0 < k by omega)).2
      (show n % k + 1 + k * (n / k) = n + 1 ∧ n % k + 1 < k from ⟨by omega, h⟩)
    exact ⟨h, this.1, this.2⟩
  · right
    have hk2 : n % k + 1 = k := by omega
    have := (Nat.div_mod_unique (show 0 < k by omega)).2
      (show 0 + k * (n / k + 1) = n + 1 ∧ 0 < k from ⟨by rw [Nat.mul_succ]; omega, by omega⟩)
    exact ⟨hk2, this.1, this.2⟩

theorem column_length (C : List Char) (k r : Nat) (hk : 1 ≤ k) (hr : r < k) :
    (column C k r).length = C.length / k + (if r < C.length % k then 1 else 0) := by
  induction C using List.reverseRecOn with
  | nil => simp [column]
  | append_singleton C c ih =>
    rw [column_snoc, List.length_append, ih, List.length_append, List.length_singleton]
    rcases succ_div_mod C.length k hk with ⟨h1, h2, h3⟩ | ⟨h1, h2, h3⟩
    · rw [h2, h3]
      by_cases ha : C.length % k = r
      · have hb : ¬ r < C.length % k := by omega
        have hc : r < C.length % k + 1 := by omega
        simp [ha, hb, hc]
      · by_cases hb : r < C.length % k
        · have hc : r < C.length % k + 1 := by omega
          simp [ha, hb, hc]
        · have hc : ¬ r < C.length % k + 1 := by omega
          simp [ha, hb, hc]
    · rw [h2, h3]
      by_cases ha : C.length % k = r
      · have hb : ¬ r < C.length % k := by omega
        simp [ha, hb]
      · have hb : r < C.length % k := by omega
        simp [ha, hb]

theorem column_getElem? (C : List Char) (k r q : Nat) (hk : 1 ≤ k) (hr : r < k) :
    (column C k r)[q]? = C[q * k + r]? := by
  induction C using List.reverseRecOn with
  | nil => simp [column]
  | append_singleton C c ih =>
    have hlen := column_length C k r hk hr
    have hdm : C.length % k + k * (C.length / k) = C.length := Nat.mod_add_div _ k
    have hlt : C.length % k < k := Nat.mod_lt _ (by omega)
    rw [column_snoc]
    by_cases ha : C.length % k = r
    · have hb : ¬ r < C.length % k := by omega
      rw [if_pos ha]
      rw [if_neg hb, Nat.add_zero] at hlen
      rcases Nat.lt_trichotomy q (C.length / k) with hq | hq | hq
      · have h1 : q * k + r < C.length := by
          have : (q + 1) * k ≤ (C.length / k) * k := Nat.mul_le_mul_right k hq
          rw [Nat.succ_mul, Nat.mul_comm (C.length / k) k] at this
          omega
        rw [List.getElem?_append_left (by omega), List.getElem?_append_left h1]
        exact ih
      · have h1 : q * k + r = C.length := by
          rw [hq, Nat.mul_comm]
          omega
        rw [List.getElem?_append_right (by omega), List.getElem?_append_right (by omega)]
        rw [hlen, h1, hq, Nat.sub_self, Nat.sub_self]
      · have h1 : C.length < q * k + r := by
          have : (C.length / k + 1) * k ≤ q * k := Nat.mul_le_mul_right k hq
          rw [Nat.succ_mul, Nat.mul_comm (C.length / k) k] at this
          omega
        rw [List.getElem?_eq_none (by simp; omega), List.getElem?_eq_none (by simp; omega)]
    · rw [if_neg ha, List.append_nil, ih]
      have hne : q * k + r ≠ C.length := by
        intro h
        apply ha
        rw [← h, Nat.mul_comm, Nat.mul_add_mod]
        exact Nat.mod_eq_of_lt hr
      rcases Nat.lt_or_gt_of_ne hne with h | h
      · rw [List.getElem?_append_left h]
      · rw [List.getElem?_eq_none (by omega), List.getElem?_eq_none (by simp; omega)]

theorem filterMap_range_getElem? (C : List Char) (m k : Nat) :
    (List.range k).filterMap (fun r => C[m + r]?) = (C.drop m).take k := by
  induction k with
  | zero => simp
  | succ k ih =>
    rw [List.range_succ, List.filterMap_append, ih, List.take_succ, List.getElem?_drop]
    cases h : C[m + k]? <;> simp [List.filterMap_cons, h]

theorem flatMap_chunks (C : List Char) (k M : Nat) :
    (List.range M).flatMap (fun q => (C.drop (q * k)).take k) = C.take (M * k) := by
  induction M with
  | zero => simp
  | succ M ih =>
    rw [List.range_succ, List.flatMap_append, ih, List.flatMap_singleton, Nat.succ_mul,
      List.take_add]

theorem foldl_max_ge (subs : List (List Char)) (m : Nat) :
    m ≤ subs.foldl (fun m s => max m s.length) m ∧
      ∀ s ∈ subs, s.length ≤ subs.foldl (fun m s => max m s.length) m := by
  induction subs generalizing m with
  | nil => simp
  | cons t rest ih =>
    obtain ⟨h1, h2⟩ := ih (max m t.length)
    rw [List.foldl_cons]
    refine ⟨le_trans (le_max_left _ _) h1, ?_⟩
    intro s hs
    rcases List.mem_cons.1 hs with h | h
    · rw [h]
      exact le_trans (le_max_right _ _) h1
    · exact h2 s h

theorem le_maxLength (subs : List (List Char)) (s : List Char) (hs : s ∈ subs) :
    s.length ≤ maxLength subs :=
  (foldl_max_ge subs 0).2 s hs

theorem roundRobin_columns (C : List Char) (k : Nat) (hk : 1 ≤ k) :
    roundRobin ((List.range k).map (column C k)) = C := by
  unfold roundRobin
  have hrow : ∀ q, ((List.range k).map (column C k)).filterMap (fun s => s[q]?)
      = (C.drop (q * k)).take k := by
    intro q
    rw [List.filterMap_map, ← filterMap_range_getElem?]
    apply List.filterMap_congr
    intro r hr
    exact column_getElem? C k r q hk (List.mem_range.1 hr)
  simp only [hrow]
  rw [flatMap_chunks]
  apply List.take_of_length_le
  have h0 : (column C k 0).length ≤ maxLength ((List.range k).map (column C k)) :=
    le_maxLength _ _ (List.mem_map.2 ⟨0, List.mem_range.2 (by omega), rfl⟩)
  rw [column_length C k 0 hk (by omega)] at h0
  have hdm : C.length % k + k * (C.length / k) = C.length := Nat.mod_add_div _ k
  have hlt : C.length % k < k := Nat.mod_lt _ (by omega)
  by_cases hz : 0 < C.length % k
  · rw [if_pos hz] at h0
    have := Nat.mul_le_mul_right k h0
    rw [Nat.succ_mul, Nat.mul_comm (C.length / k) k] at this
    omega
  · rw [if_neg hz, Nat.add_zero] at h0
    have := Nat.mul_le_mul_right k h0
    rw [Nat.mul_comm (C.length / k) k] at this
    omega

/-- C8: for a key length `k ≥ 1`, `subString(C, k)` returns exactly `k` subsequences; the
subsequence of index `r` holds the letters of `C` at the positions `i` with `i mod k = r`, in
their original order, and the round-robin interleaving of the subsequences is `C`. -/
theorem subString_roundRobin (C : List Char) (k : Nat) (hk : 1 ≤ k) :
    ∃ subs, subString C (k : Int) = Except.ok subs ∧ subs.length = k ∧
      (∀ (r : Nat) (hr : r < subs.length),
        subs.get ⟨r, hr⟩ = (C.enum.filter (fun ic => decide (ic.1 % k = r))).map Prod.snd) ∧
      (∀ (i : Nat) (hi : i < C.length),
        (subs.getD (i % k) []).getD (i / k) ' ' = C.get ⟨i, hi⟩) ∧
      roundRobin subs = C := by
  refine Exists.intro ((List.range k).map (column C k))
    (And.intro (subString_eq_columns C k hk) (And.intro ?_ (And.intro ?_ (And.intro ?_ ?_))))
  · simp
  · intro r hr
    simp only [List.get_eq_getElem, List.getElem_map, List.getElem_range]
    rfl
  · intro i hi
    have hlt : i % k < k := Nat.mod_lt _ (by omega)
    have h1 : ((List.range k).map (column C k)).getD (i % k) [] = column C k (i % k) := by
      rw [List.getD_eq_getElem?_getD, List.getElem?_map, List.getElem?_range hlt]
      rfl
    rw [h1, List.getD_eq_getElem?_getD, column_getElem? C k (i % k) (i / k) hk hlt]
    have h2 : i / k * k + i % k = i := Nat.div_add_mod' i k
    rw [h2, List.getElem?_eq_getElem hi]
    rfl
  · exact roundRobin_columns C k hk

/-- Witness of C8 on the text `ABCDEFG` and the key length `3`. -/
theorem subString_roundRobin_witness :
    ∃ subs, subString "ABCDEFG".toList ((3 : Nat) : Int) = Except.ok subs ∧ subs.length = 3 ∧
      (∀ (r : Nat) (hr : r < subs.length),
        subs.get ⟨r, hr⟩
          = ("ABCDEFG".toList.enum.filter (fun ic => decide (ic.1 % 3 = r))).map Prod.snd) ∧
      (∀ (i : Nat) (hi : i < "ABCDEFG".toList.length),
        (subs.getD (i % 3) []).getD (i / 3) ' ' = "ABCDEFG".toList.get ⟨i, hi⟩) ∧
      roundRobin subs = "ABCDEFG".toList :=
  subString_roundRobin "ABCDEFG".toList 3 (by decide)

/-- C9: for a text of length `n` and a key length `k ≥ 1`, every subsequence returned by
`subString` has length `floor(n/k)` or `ceil(n/k)`. -/
theorem subString_lengths (C : List Char) (k : Nat) (hk : 1 ≤ k) :
    ∃ subs, subString C (k : Int) = Except.ok subs ∧ subs.length = k ∧
      ∀ s ∈ subs, s.length = C.length / k ∨ s.length = (C.length + k - 1) / k := by
  refine Exists.intro ((List.range k).map (column C k))
    (And.intro (subString_eq_columns C k hk) (And.intro ?_ ?_))
  · simp
  · intro s hs
    obtain ⟨r, hr, rfl⟩ := List.mem_map.1 hs
    have hr2 : r < k := List.mem_range.1 hr
    rw [column_length C k r hk hr2]
    by_cases hlt : r < C.length % k
    · right
      rw [if_pos hlt]
      have hdm : C.length % k + k * (C.length / k) = C.length := Nat.mod_add_div _ k
      have hmod : C.length % k < k := Nat.mod_lt _ (by omega)
      symm
      apply (Nat.div_mod_unique (show 0 < k by omega)).2
        (show C.length % k - 1 + k * (C.length / k + 1) = C.length + k - 1 ∧
          C.length % k - 1 < k from ⟨by rw [Nat.mul_succ]; omega, by omega⟩) |>.1
    · left
      rw [if_neg hlt, Nat.add_zero]

/-- Witness of C9 on the text `ABCDEFG` and the key length `3`. -/
theorem subString_lengths_witness :
    ∃ subs, subString "ABCDEFG".toList ((3 : Nat) : Int) = Except.ok subs ∧ subs.length = 3 ∧
      ∀ s ∈ subs, s.length = "ABCDEFG".toList.length / 3
        ∨ s.length = ("ABCDEFG".toList.length + 3 - 1) / 3 :=
  subString_lengths "ABCDEFG".toList 3 (by decide)

/-- C10 fails on the code: `subString` has no key-length guard. With key length `0` the
empty ciphertext is not rejected (the call returns an empty vector), and on the ciphertext
`A` the first iteration evaluates `0 % 0`: the outcome is the division fault, not a
rejection. -/
theorem subString_zero_not_rejected :
    subString [] 0 = Except.ok [] ∧ subString ['A'] 0 = Except.error Fault.divByZero := by
  constructor <;> rfl

/-- C10 as amended: with key length `0`, `subString` returns the empty vector of
subsequences on the empty ciphertext, and on every non-empty ciphertext the loop reaches
`i % keyL` with `keyL = 0` and the call ends in the division fault. -/
theorem subString_zero (text : List Char) :
    subString text 0 =
      match text with
      | [] => Except.ok []
      | _ :: _ => Except.error Fault.divByZero := by
  cases text with
  | nil => rfl
  | cons c rest =>
    simp only [subString, List.enum, List.enumFrom_cons, List.foldlM_cons]
    rfl

/-! ## Theorems: the rounding `fl` -/

theorem fl_zero : fl 0 = 0 := by
  unfold fl
  rw [if_pos rfl]

theorem roundHalfEven_ge_floor (y : ℚ) : ⌊y⌋ ≤ roundHalfEven y := by
  unfold roundHalfEven
  simp only
  split_ifs <;> omega

/-- A rational strictly within one half of the integer `m` rounds to `m`. -/
theorem roundHalfEven_near (y : ℚ) (m : Int) (h1 : (m : ℚ) - 1 / 2 < y)
    (h2 : y < (m : ℚ) + 1 / 2) : roundHalfEven y = m := by
  unfold roundHalfEven
  simp only
  rcases le_or_lt (m : ℚ) y with hle | hlt
  · have hf : ⌊y⌋ = m := Int.floor_eq_iff.2 ⟨hle, by linarith⟩
    rw [hf, if_pos (by linarith)]
  · have hf : ⌊y⌋ = m - 1 := Int.floor_eq_iff.2 ⟨by push_cast; linarith, by push_cast; linarith⟩
    rw [hf]
    have hr : (1 : ℚ) / 2 < y - ((m - 1 : Int) : ℚ) := by push_cast; linarith
    rw [if_neg (not_lt.2 (le_of_lt hr)), if_pos hr]
    omega

/-- The rounding of a positive value is positive. -/
theorem fl_pos (x : ℚ) (hx : 0 < x) : 0 < fl x := by
  unfold fl
  rw [if_neg (ne_of_gt hx)]
  simp only [abs_of_pos hx, if_pos hx]
  have h2 : (0 : ℚ) < 2 := by norm_num
  have hlog : ((2 : ℕ) : ℚ) ^ Int.log 2 x ≤ x := Int.zpow_log_le_self (by norm_num) hx
  have hy : (1 : ℚ) ≤ x * 2 ^ (52 - Int.log 2 x) := by
    have h1 : (1 : ℚ) ≤ (2 : ℚ) ^ (52 : ℤ) := by norm_num
    have h3 : (2 : ℚ) ^ (52 : ℤ) = 2 ^ Int.log 2 x * 2 ^ (52 - Int.log 2 x) := by
      rw [← zpow_add₀ (by norm_num)]
      congr 1
      ring
    rw [h3] at h1
    refine le_trans h1 (mul_le_mul_of_nonneg_right ?_ (le_of_lt (zpow_pos h2 _)))
    exact_mod_cast hlog
  have hfloor : (1 : ℤ) ≤ ⌊x * 2 ^ (52 - Int.log 2 x)⌋ :=
    Int.le_floor.2 (by exact_mod_cast hy)
  have hm : (0 : ℚ) < (roundHalfEven (x * 2 ^ (52 - Int.log 2 x)) : ℚ) := by
    have := roundHalfEven_ge_floor (x * 2 ^ (52 - Int.log 2 x))
    exact_mod_cast (show (0 : ℤ) < roundHalfEven (x * 2 ^ (52 - Int.log 2 x)) by omega)
  exact mul_pos hm (zpow_pos h2 _)

/-- The rounding is an odd function. -/
theorem fl_neg (x : ℚ) : fl (-x) = -fl x := by
  unfold fl
  by_cases h0 : x = 0
  · subst h0
    simp
  · rw [if_neg (neg_ne_zero.2 h0), if_neg h0, abs_neg]
    rcases lt_or_gt_of_ne h0 with hneg | hpos
    · rw [if_pos (neg_pos.2 hneg), if_neg (not_lt.2 (le_of_lt hneg)), neg_neg]
    · rw [if_neg (not_lt.2 (le_of_lt (neg_neg_of_pos hpos))), if_pos hpos]

/-- A rational within one half of the even integer `m`, the bounds included, rounds to
`m`. -/
theorem roundHalfEven_near_even (y : ℚ) (m : Int) (hm : m % 2 = 0)
    (h1 : (m : ℚ) - 1 / 2 ≤ y) (h2 : y ≤ (m : ℚ) + 1 / 2) : roundHalfEven y = m := by
  rcases eq_or_lt_of_le h1 with he1 | hl1
  · unfold roundHalfEven
    simp only
    have hf : ⌊y⌋ = m - 1 :=
      Int.floor_eq_iff.2 ⟨by push_cast; linarith, by push_cast; linarith⟩
    rw [hf]
    have hr : y - ((m - 1 : Int) : ℚ) = 1 / 2 := by push_cast; linarith
    rw [hr, if_neg (lt_irrefl _), if_neg (lt_irrefl _), if_neg (by omega)]
    omega
  · rcases eq_or_lt_of_le h2 with he2 | hl2
    · unfold roundHalfEven
      simp only
      have hf : ⌊y⌋ = m := Int.floor_eq_iff.2 ⟨by linarith, by linarith⟩
      rw [hf]
      have hr : y - (m : ℚ) = 1 / 2 := by linarith
      rw [hr, if_neg (lt_irrefl _), if_neg (lt_irrefl _), if_pos hm]
    · exact roundHalfEven_near y m hl1 hl2

/-- The rounding of a positive `x` whose significand at the scale `2^k` lies in
`[2⁵², 2⁵³)` and rounds to the integer `n`: it is `n / 2^k`. -/
theorem fl_of_round (x y : ℚ) (k : Nat) (n : Int) (hx : 0 < x)
    (hlo : (2 : ℚ) ^ 52 ≤ x * 2 ^ k) (hhi : x * 2 ^ k < (2 : ℚ) ^ 53)
    (hy : y * 2 ^ k = (n : ℚ)) (hr : roundHalfEven (x * 2 ^ k) = n) : fl x = y := by
  have h2pos : (0 : ℚ) < 2 := by norm_num
  have hk : (0 : ℚ) < (2 : ℚ) ^ k := pow_pos h2pos k
  have hlog : Int.log 2 x = 52 - (k : ℤ) := by
    apply le_antisymm
    · have : Int.log 2 x < 53 - (k : ℤ) := by
        rw [← Int.lt_zpow_iff_log_lt (by norm_num) hx]
        have h3 : (((2 : ℕ) : ℚ)) ^ (53 - (k : ℤ)) = 2 ^ 53 / 2 ^ k := by
          rw [zpow_sub₀ (by norm_num)]
          norm_cast
        rw [h3, lt_div_iff₀ hk]
        exact hhi
      omega
    · rw [← Int.zpow_le_iff_le_log (by norm_num) hx]
      have h3 : (((2 : ℕ) : ℚ)) ^ (52 - (k : ℤ)) = 2 ^ 52 / 2 ^ k := by
        rw [zpow_sub₀ (by norm_num)]
        norm_cast
      rw [h3, div_le_iff₀ hk]
      exact hlo
  unfold fl
  rw [if_neg (ne_of_gt hx)]
  simp only [abs_of_pos hx, if_pos hx, hlog]
  have e1 : (52 : ℤ) - (52 - (k : ℤ)) = (k : ℤ) := by ring
  have e2 : (52 : ℤ) - (k : ℤ) - 52 = -(k : ℤ) := by ring
  rw [e1, e2, zpow_natCast, zpow_neg, zpow_natCast, hr, ← hy]
  field_simp

/-- A checkable certificate for one rounding of a positive value: `x` rounds to `y` when,
for some scale `2^k`, the scaled `x` lies in `[2⁵², 2⁵³)`, the scaled `y` is an integer,
and the two differ by less than one half. -/
theorem fl_cert (x y : ℚ) (k : Nat) (n : Int) (hx : 0 < x)
    (hlo : (2 : ℚ) ^ 52 ≤ x * 2 ^ k) (hhi : x * 2 ^ k < (2 : ℚ) ^ 53)
    (hy : y * 2 ^ k = (n : ℚ)) (h1 : y * 2 ^ k - 1 / 2 < x * 2 ^ k)
    (h2 : x * 2 ^ k < y * 2 ^ k + 1 / 2) : fl x = y :=
  fl_of_round x y k n hx hlo hhi hy
    (roundHalfEven_near (x * 2 ^ k) n (by rw [← hy]; exact h1) (by rw [← hy]; exact h2))

/-- The certificate of `fl_cert` for a value that may lie halfway between two `double`s:
the scaled `y` is then the even one of the two neighbouring integers. -/
theorem fl_cert_even (x y : ℚ) (k : Nat) (n : Int) (hx : 0 < x)
    (hlo : (2 : ℚ) ^ 52 ≤ x * 2 ^ k) (hhi : x * 2 ^ k < (2 : ℚ) ^ 53)
    (hy : y * 2 ^ k = (n : ℚ)) (hn : n % 2 = 0) (h1 : y * 2 ^ k - 1 / 2 ≤ x * 2 ^ k)
    (h2 : x * 2 ^ k ≤ y * 2 ^ k + 1 / 2) : fl x = y :=
  fl_of_round x y k n hx hlo hhi hy
    (roundHalfEven_near_even (x * 2 ^ k) n hn (by rw [← hy]; exact h1)
      (by rw [← hy]; exact h2))

/-! ## Theorems: the distances of `kasiski` -/

/-- C15: every distance `d` in `kasiski(text)` satisfies `1 ≤ d ≤ n - 3` and witnesses a
repeat: there are an offset `i` and a length `L` in `3..8` with `i + L ≤ n`, `i - d ≥ 0` and
`text[i-d..i-d+L) = text[i..i+L)`. -/
theorem kasiski_distance_bounds (text : List Char) (d : Int) (hd : d ∈ kasiski text) :
    1 ≤ d ∧ d ≤ (text.length : Int) - 3 ∧
      ∃ i L : Nat, 3 ≤ L ∧ L ≤ 8 ∧ i + L ≤ text.length ∧ 0 ≤ (i : Int) - d ∧
        substr text ((i : Int) - d).toNat L = substr text i L := by
  rw [kasiski_eq_spec] at hd
  unfold kasiskiSpec at hd
  obtain ⟨i, _, hi⟩ := List.mem_flatMap.1 hd
  obtain ⟨L, hL, hdL⟩ := List.mem_flatMap.1 hi
  have hL38 := (mem_lengths_iff L).1 hL
  unfold kasiskiEmit at hdL
  by_cases hle : i + L ≤ text.length
  · rw [if_pos hle] at hdL
    cases hp : prevOcc text (substr text i L) i with
    | none =>
      rw [hp] at hdL
      cases hdL
    | some j =>
      rw [hp] at hdL
      have hdj : d = (i : Int) - (j : Int) := by simpa using hdL
      rw [prevOcc_eq_some, length_substr text i L hle] at hp
      obtain ⟨hji, hsub, _⟩ := hp
      have hij : ((i : Int) - d).toNat = j := by
        rw [hdj]
        omega
      refine ⟨by omega, by omega, i, L, hL38.1, hL38.2, hle, by omega, ?_⟩
      rw [hij]
      exact hsub
  · rw [if_neg hle] at hdL
    cases hdL

/-- Witness of C15: the distance `3` found in `ABCABC`. -/
theorem kasiski_distance_bounds_witness :
    1 ≤ (3 : Int) ∧ (3 : Int) ≤ ("ABCABC".toList.length : Int) - 3 ∧
      ∃ i L : Nat, 3 ≤ L ∧ L ≤ 8 ∧ i + L ≤ "ABCABC".toList.length ∧ 0 ≤ (i : Int) - 3 ∧
        substr "ABCABC".toList ((i : Int) - 3).toNat L = substr "ABCABC".toList i L :=
  kasiski_distance_bounds "ABCABC".toList 3 (by decide)

/-! ## Theorems: the value of `findProbableKeyLength` -/

theorem pairsRec_eq_nil_iff (f : Int → Int → Int) (d : List Int) :
    pairsRec f d = [] ↔ d.length < 2 := by
  cases d with
  | nil => simp [pairsRec]
  | cons a rest =>
    cases rest with
    | nil => simp [pairsRec]
    | cons b rest2 => simp [pairsRec]

theorem mem_pairsRec (f : Int → Int → Int) (d : List Int) (x : Int)
    (hx : x ∈ pairsRec f d) : ∃ a ∈ d, ∃ b ∈ d, x = f a b := by
  induction d with
  | nil => simp [pairsRec] at hx
  | cons a rest ih =>
    simp only [pairsRec, List.mem_append, List.mem_map] at hx
    rcases hx with ⟨b, hb, hfx⟩ | h
    · exact ⟨a, List.mem_cons_self _ _, b, List.mem_cons_of_mem _ hb, hfx.symm⟩
    · obtain ⟨a2, ha2, b2, hb2, h2⟩ := ih h
      exact ⟨a2, List.mem_cons_of_mem _ ha2, b2, List.mem_cons_of_mem _ hb2, h2⟩

/-- With fewer than two distances no divisor is recorded and the initial `0` is returned. -/
theorem findProbableKeyLength_short (d : List Int) (h : d.length < 2) :
    findProbableKeyLength d = 0 := by
  have hcd : commonDen d = [] := by
    rw [commonDen_eq_pairsRec]
    exact (pairsRec_eq_nil_iff gcd d).2 h
  unfold findProbableKeyLength
  rw [hcd]
  rfl

/-- With two or more distances the result is `gcd(a, b)` for two of the distances. -/
theorem findProbableKeyLength_is_gcd (d : List Int) (h : 2 ≤ d.length) :
    ∃ a ∈ d, ∃ b ∈ d, findProbableKeyLength d = gcd a b := by
  have hne : commonDen d ≠ [] := by
    rw [commonDen_eq_pairsRec]
    intro h0
    have := (pairsRec_eq_nil_iff gcd d).1 h0
    omega
  obtain ⟨a, b, hsplit, _, _⟩ := select_result (commonDen d) hne
  have hmem : findProbableKeyLength d ∈ pairsRec gcd d := by
    rw [← commonDen_eq_pairsRec]
    unfold findProbableKeyLength
    generalize ((commonDen d).foldl (selectStep (commonDen d)) (0, 0)).1 = r at hsplit
    rw [hsplit]
    simp
  exact mem_pairsRec gcd d _ hmem

/-- C17: on positive distances `findProbableKeyLength` returns `0` exactly when there are
fewer than two distances; a single distance still yields `0`, and two or more distances
yield a value that is at least `1`. -/
theorem findProbableKeyLength_zero_iff (d : List Int) (hpos : ∀ x ∈ d, 0 < x) :
    (findProbableKeyLength d = 0 ↔ d.length < 2) ∧
    (d.length = 1 → findProbableKeyLength d = 0) ∧
    (2 ≤ d.length → 1 ≤ findProbableKeyLength d) := by
  have hge : 2 ≤ d.length → 1 ≤ findProbableKeyLength d := by
    intro h
    obtain ⟨a, ha, b, hb, hr⟩ := findProbableKeyLength_is_gcd d h
    rw [hr, gcd_eq_intGcd a b (le_of_lt (hpos a ha)) (le_of_lt (hpos b hb))]
    have : 0 < Int.gcd a b := Int.gcd_pos_of_ne_zero_left b (ne_of_gt (hpos a ha))
    omega
  refine ⟨⟨?_, findProbableKeyLength_short d⟩, ?_, hge⟩
  · intro h0
    by_contra hlen
    have := hge (by omega)
    omega
  · intro h1
    exact findProbableKeyLength_short d (by omega)

/-- Witness of C17 on the two distances `[6, 4]`. -/
theorem findProbableKeyLength_zero_iff_witness :
    (findProbableKeyLength [6, 4] = 0 ↔ [(6 : Int), 4].length < 2) ∧
    ([(6 : Int), 4].length = 1 → findProbableKeyLength [6, 4] = 0) ∧
    (2 ≤ [(6 : Int), 4].length → 1 ≤ findProbableKeyLength [6, 4]) :=
  findProbableKeyLength_zero_iff [6, 4] (by decide)

/-- C18: when there are at least two distances, all positive multiples of `k ≥ 1`, the
value of `findProbableKeyLength` is a positive multiple of `k`. -/
theorem findProbableKeyLength_multiple (k : Int) (d : List Int) (_hk : 1 ≤ k)
    (hlen : 2 ≤ d.length) (hpos : ∀ x ∈ d, 0 < x) (hmul : ∀ x ∈ d, k ∣ x) :
    0 < findProbableKeyLength d ∧ k ∣ findProbableKeyLength d := by
  obtain ⟨a, ha, b, hb, hr⟩ := findProbableKeyLength_is_gcd d hlen
  rw [hr, gcd_eq_intGcd a b (le_of_lt (hpos a ha)) (le_of_lt (hpos b hb))]
  have h1 : 0 < Int.gcd a b := Int.gcd_pos_of_ne_zero_left b (ne_of_gt (hpos a ha))
  exact ⟨by omega, Int.dvd_gcd (hmul a ha) (hmul b hb)⟩

/-- Witness of C18 on the distances `[6, 9, 12]`, multiples of `3`. -/
theorem findProbableKeyLength_multiple_witness :
    0 < findProbableKeyLength [6, 9, 12] ∧ (3 : Int) ∣ findProbableKeyLength [6, 9, 12] :=
  findProbableKeyLength_multiple 3 [6, 9, 12] (by decide) (by decide) (by decide) (by decide)

/-! ## Theorems: `shift` and the columns of the plaintext -/

/-- A fold that appends one computed element per step is a `map`. -/
theorem foldl_snoc_map {α β : Type} (f : α → β) (l : List α) (acc : List β) :
    l.foldl (fun s x => s ++ [f x]) acc = acc ++ l.map f := by
  induction l generalizing acc with
  | nil => simp
  | cons x xs ih => simp [ih]

theorem shift_eq_map (text : List Char) (amount : Int) :
    shift text amount
      = text.map (fun c => toChar (ord 'A' + Int.tmod (ord c - ord 'A' - amount + 26) 26)) := by
  unfold shift
  rw [foldl_snoc_map]
  rfl

theorem enum_map_enum {β : Type} (l : List Char) (g : Nat × Char → β) :
    (l.enum.map g).enum = l.enum.map (fun ic => (ic.1, g ic)) := by
  apply List.ext_getElem
  · simp [List.enum_length]
  · intro i h1 h2
    simp only [List.getElem_enum, List.getElem_map]

theorem decLetter_eq_shift (c k : Char) :
    decLetter c k = toChar (ord 'A' + Int.tmod (ord c - ord 'A' - (ord k - ord 'A') + 26) 26) := by
  unfold decLetter
  rw [Int.add_comm]

theorem column_decrypt (C K : List Char) (hne : K ≠ []) (r : Nat) (hr : r < K.length) :
    column (C.enum.map (fun ic => decLetter ic.2 (keyAt K hne ic.1))) K.length r
      = shift (column C K.length r) (ord (K.get ⟨r, hr⟩) - ord 'A') := by
  rw [shift_eq_map]
  unfold column
  rw [enum_map_enum, List.filter_map, List.map_map, List.map_map]
  apply List.map_congr_left
  intro ic hic
  have hmod : ic.1 % K.length = r := by
    have := (List.mem_filter.1 hic).2
    simpa using this
  have hkey : keyAt K hne ic.1 = K.get ⟨r, hr⟩ := by
    unfold keyAt
    congr 1
    exact Fin.ext hmod
  simp only [Function.comp]
  rw [hkey, decLetter_eq_shift]

/-- C19: for a ciphertext `C` and a non-empty key `K` over A-Z of length `k`, and every
column index `r < k`, column `r` of `decryptVig(C, K)` is column `r` of `C` shifted by the
`r`-th key letter: `subString(decryptVig(C, K), k)[r] = shift(subString(C, k)[r], K[r] - 'A')`. -/
theorem decryptVig_column_shift (C K : List Char) (_hC : ∀ c ∈ C, isAZ c)
    (_hK : ∀ c ∈ K, isAZ c) (hne : K ≠ []) (r : Nat) (hr : r < K.length) :
    ∃ P subsP subsC, decryptVig C K = Except.ok P ∧
      subString P (K.length : Int) = Except.ok subsP ∧
      subString C (K.length : Int) = Except.ok subsC ∧
      subsP.length = K.length ∧ subsC.length = K.length ∧
      subsP.getD r [] = shift (subsC.getD r []) (ord (K.get ⟨r, hr⟩) - ord 'A') := by
  have hk : 1 ≤ K.length := List.length_pos.2 hne
  have hget : ∀ T : List Char,
      ((List.range K.length).map (column T K.length)).getD r [] = column T K.length r := by
    intro T
    rw [List.getD_eq_getElem?_getD, List.getElem?_map, List.getElem?_range hr]
    rfl
  refine Exists.intro _ (Exists.intro _ (Exists.intro _
    (And.intro (decryptVig_eq_map C K hne)
      (And.intro (subString_eq_columns _ K.length hk)
        (And.intro (subString_eq_columns C K.length hk)
          (And.intro (by simp) (And.intro (by simp) ?_)))))))
  rw [hget, hget]
  exact column_decrypt C K hne r hr

/-- Witness of C19 on the ciphertext `LXFOPVEFRNHR`, the key `LEMON` and the column `1`. -/
theorem decryptVig_column_shift_witness :
    ∃ P subsP subsC, decryptVig "LXFOPVEFRNHR".toList "LEMON".toList = Except.ok P ∧
      subString P ("LEMON".toList.length : Int) = Except.ok subsP ∧
      subString "LXFOPVEFRNHR".toList ("LEMON".toList.length : Int) = Except.ok subsC ∧
      subsP.length = "LEMON".toList.length ∧ subsC.length = "LEMON".toList.length ∧
      subsP.getD 1 []
        = shift (subsC.getD 1 []) (ord ("LEMON".toList.get ⟨1, by decide⟩) - ord 'A') :=
  decryptVig_column_shift "LXFOPVEFRNHR".toList "LEMON".toList (by decide) (by decide)
    (by decide) 1 (by decide)

/-! ## Theorems: letter maps and `calculateIOC` -/

theorem cmFind_cmSet {α : Type} (m : List (Char × α)) (k x : Char) (v : α) :
    cmFind (cmSet m k v) x = if k = x then some v else cmFind m x := by
  induction m with
  | nil => simp [cmSet, cmFind]
  | cons p rest ih =>
    obtain ⟨k2, v2⟩ := p
    by_cases h2 : k2 = k
    · subst h2
      by_cases hx : k2 = x
      · simp [cmSet, cmFind, hx]
      · simp [cmSet, cmFind, hx]
    · by_cases hx : k2 = x
      · subst hx
        have hne : ¬ k = k2 := fun h => h2 h.symm
        simp [cmSet, cmFind, h2, hne]
      · simp [cmSet, cmFind, h2, hx, ih]

theorem cmFind_eq_none {α : Type} (m : List (Char × α)) (x : Char) :
    cmFind m x = none ↔ x ∉ m.map Prod.fst := by
  induction m with
  | nil => simp [cmFind]
  | cons p rest ih =>
    obtain ⟨k, v⟩ := p
    by_cases h : k = x
    · simp [cmFind, h]
    · have hne : ¬ x = k := fun e => h e.symm
      simp [cmFind, h, hne, ih]

theorem keys_cmSet {α : Type} (m : List (Char × α)) (k : Char) (v : α) :
    (cmSet m k v).map Prod.fst
      = if k ∈ m.map Prod.fst then m.map Prod.fst else m.map Prod.fst ++ [k] := by
  induction m with
  | nil => simp [cmSet]
  | cons p rest ih =>
    obtain ⟨k2, v2⟩ := p
    by_cases h : k2 = k
    · subst h
      simp [cmSet]
    · have hne : ¬ k = k2 := fun e => h e.symm
      by_cases hmem : k ∈ rest.map Prod.fst
      · simp only [cmSet, if_neg h, List.map_cons, ih, if_pos hmem, List.mem_cons, hmem,
          or_true, if_true]
      · simp only [cmSet, if_neg h, List.map_cons, ih, if_neg hmem, List.mem_cons, hne, hmem,
          or_self, if_false, List.cons_append]

/-- A map with distinct keys is the list of its keys paired with their looked-up values. -/
theorem entries_of_nodup {α : Type} (d : α) (m : List (Char × α))
    (hnd : (m.map Prod.fst).Nodup) :
    m = (m.map Prod.fst).map (fun k => (k, (cmFind m k).getD d)) := by
  induction m with
  | nil => rfl
  | cons p rest ih =>
    obtain ⟨k, v⟩ := p
    have hk : k ∉ rest.map Prod.fst := (List.nodup_cons.1 hnd).1
    have hrest := ih (List.nodup_cons.1 hnd).2
    simp only [List.map_cons, cmFind, if_true, Option.getD_some]
    congr 1
    conv_lhs => rw [hrest]
    apply List.map_congr_left
    intro x hx
    have hne : ¬ k = x := fun e => hk (e ▸ hx)
    simp only [List.map_map] at hx
    rw [if_neg hne]

/-- The loop `count[c]++` over a text: the map built from the empty map. -/
theorem countFold_spec (p : List Char) :
    (∀ x, cmFind (p.foldl (fun count c => cmSet count c ((cmFind count c).getD 0 + 1)) []) x
        = if x ∈ p then some (p.count x) else none) ∧
    ((p.foldl (fun count c => cmSet count c ((cmFind count c).getD 0 + 1)) []).map
        Prod.fst).Nodup := by
  induction p using List.reverseRecOn with
  | nil => exact ⟨fun x => by simp [cmFind], by simp⟩
  | append_singleton p c ih =>
    obtain ⟨ih1, ih2⟩ := ih
    rw [List.foldl_append]
    simp only [List.foldl_cons, List.foldl_nil]
    generalize p.foldl (fun count c => cmSet count c ((cmFind count c).getD 0 + 1)) [] = m
      at ih1 ih2
    constructor
    · intro x
      rw [cmFind_cmSet]
      by_cases hx : c = x
      · subst hx
        rw [if_pos rfl, ih1 c]
        by_cases hc : c ∈ p
        · simp [hc]
        · simp [hc, List.count_eq_zero_of_not_mem hc]
      · have hx2 : ¬ x = c := fun e => hx e.symm
        rw [if_neg hx, ih1 x]
        by_cases hp : x ∈ p
        · have hc0 : List.count x [c] = 0 :=
            List.count_eq_zero_of_not_mem (by simp [hx2])
          simp [hp, List.count_append, hc0]
        · simp [hp, hx2]
    · rw [keys_cmSet]
      by_cases hmem : c ∈ m.map Prod.fst
      · rw [if_pos hmem]
        exact ih2
      · rw [if_neg hmem]
        exact List.Nodup.append ih2 (List.nodup_singleton c)
          (by
            intro a ha hb
            rw [List.mem_singleton] at hb
            exact hmem (hb ▸ ha))

theorem countFold_keys (p : List Char) :
    ((p.foldl (fun count c => cmSet count c ((cmFind count c).getD 0 + 1)) []).map
        Prod.fst).toFinset = p.toFinset := by
  ext x
  rw [List.mem_toFinset, List.mem_toFinset]
  have h1 := (countFold_spec p).1 x
  have h2 := cmFind_eq_none
    (p.foldl (fun count c => cmSet count c ((cmFind count c).getD 0 + 1)) []) x
  by_cases hx : x ∈ p
  · rw [if_pos hx] at h1
    rw [h1] at h2
    simp only [reduceCtorEq, false_iff, not_not] at h2
    exact ⟨fun _ => hx, fun _ => h2⟩
  · rw [if_neg hx] at h1
    exact ⟨fun h => absurd h (h2.1 h1), fun h => absurd h hx⟩

/-- The entries of the map built by `count[c]++` are the distinct letters with their
numbers of occurrences. -/
theorem countFold_entries (p : List Char) :
    p.foldl (fun count c => cmSet count c ((cmFind count c).getD 0 + 1)) []
      = ((p.foldl (fun count c => cmSet count c ((cmFind count c).getD 0 + 1)) []).map
          Prod.fst).map (fun k => (k, p.count k)) := by
  have h1 := (countFold_spec p).1
  have h2 := (countFold_spec p).2
  have hkeys := countFold_keys p
  generalize p.foldl (fun count c => cmSet count c ((cmFind count c).getD 0 + 1)) [] = m
    at h1 h2 hkeys
  conv_lhs => rw [entries_of_nodup 0 m h2]
  apply List.map_congr_left
  intro k hk
  have hkp : k ∈ p := by
    rw [← List.mem_toFinset, ← hkeys, List.mem_toFinset]
    exact hk
  rw [h1 k, if_pos hkp]
  rfl

theorem iocCount_fold (text : List Char) (m : List (Char × Nat)) (t : Nat) :
    text.foldl iocCount (m, t)
      = (text.foldl (fun count c => cmSet count c ((cmFind count c).getD 0 + 1)) m,
          t + text.length) := by
  induction text generalizing m t with
  | nil => rfl
  | cons c rest ih =>
    rw [List.foldl_cons, List.foldl_cons]
    simp only [iocCount]
    rw [ih, List.length_cons]
    congr 1
    omega

theorem foldl_add_map {α : Type} (g : α → ℚ) (l : List α) (a : ℚ) :
    l.foldl (fun sum e => sum + g e) a = a + (l.map g).sum := by
  induction l generalizing a with
  | nil => simp
  | cons x xs ih =>
    rw [List.foldl_cons, ih, List.map_cons, List.sum_cons, add_assoc]

/-- The value of `calculateIOC` for every text, in closed form. -/
theorem calculateIOC_eq (text : List Char) :
    calculateIOC text
      = fdiv
          (Finset.sum text.toFinset
            (fun x => ((wrap32 ((text.count x : Int) * ((text.count x : Int) - 1)) : Int) : ℚ)))
          ((wrap32 ((text.length : Int) * ((text.length : Int) - 1)) : Int) : ℚ) := by
  unfold calculateIOC
  simp only [iocCount_fold, Nat.zero_add]
  rw [foldl_add_map (fun entry : Char × Nat =>
    ((wrap32 ((entry.2 : Int) * ((entry.2 : Int) - 1)) : Int) : ℚ))]
  have hnd := (countFold_spec text).2
  have hkeys := countFold_keys text
  have hent := countFold_entries text
  generalize text.foldl (fun count c => cmSet count c ((cmFind count c).getD 0 + 1)) [] = m
    at hnd hkeys hent
  have hsum : (m.map (fun entry : Char × Nat =>
      ((wrap32 ((entry.2 : Int) * ((entry.2 : Int) - 1)) : Int) : ℚ))).sum
      = Finset.sum text.toFinset
          (fun x =>
            ((wrap32 ((text.count x : Int) * ((text.count x : Int) - 1)) : Int) : ℚ)) := by
    rw [← hkeys, List.sum_toFinset _ hnd]
    conv_lhs => rw [hent]
    rw [List.map_map]
    congr 1
  rw [hsum, zero_add]

/-- A product `c * (c - 1)` with `0 ≤ c ≤ 46341` fits a 32-bit `int`: it is not changed by
the wrap-around. -/
theorem wrap32_small (c : Nat) (hc : c ≤ 46341) :
    wrap32 ((c : Int) * ((c : Int) - 1)) = (c : Int) * ((c : Int) - 1) := by
  unfold wrap32
  have h0 : (0 : Int) ≤ (c : Int) * ((c : Int) - 1) := by
    rcases Nat.eq_zero_or_pos c with h | h
    · subst h
      simp
    · exact mul_nonneg (by omega) (by omega)
  have h1 : (c : Int) * ((c : Int) - 1) ≤ 46341 * 46340 := by
    have hc2 : (c : Int) ≤ 46341 := by exact_mod_cast hc
    rcases Nat.eq_zero_or_pos c with h | h
    · subst h
      simp
    · exact mul_le_mul hc2 (by omega) (by omega) (by norm_num)
  omega

/-- Within the range of a 32-bit `int`, that is for a text of length `2 ≤ n ≤ 46341`,
`calculateIOC` returns the `double` nearest to `(Σ c·(c−1)) / (n·(n−1))`, the sum running
over the distinct letters and `c` being the number of occurrences of the letter. -/
theorem calculateIOC_in_range (text : List Char) (hn : 2 ≤ text.length)
    (hmax : text.length ≤ 46341) :
    calculateIOC text
      = some (fl (Finset.sum text.toFinset
                (fun x => (text.count x : ℚ) * ((text.count x : ℚ) - 1))
              / ((text.length : ℚ) * ((text.length : ℚ) - 1)))) := by
  rw [calculateIOC_eq, wrap32_small _ hmax]
  have hs : Finset.sum text.toFinset
      (fun x => ((wrap32 ((text.count x : Int) * ((text.count x : Int) - 1)) : Int) : ℚ))
      = Finset.sum text.toFinset
          (fun x => (text.count x : ℚ) * ((text.count x : ℚ) - 1)) := by
    apply Finset.sum_congr rfl
    intro x _
    rw [wrap32_small _ (le_trans (List.count_le_length x text) hmax)]
    push_cast
    ring
  rw [hs]
  unfold fdiv
  have h1 : (text.length : ℚ) ≠ 0 := by
    have : (0 : ℚ) < (text.length : ℚ) := by exact_mod_cast (show 0 < text.length by omega)
    exact ne_of_gt this
  have h2 : (text.length : ℚ) - 1 ≠ 0 := by
    have : (1 : ℚ) < (text.length : ℚ) := by exact_mod_cast (show 1 < text.length by omega)
    intro h
    rw [sub_eq_zero] at h
    rw [h] at this
    exact lt_irrefl _ this
  have h3 : (((text.length : Int) * ((text.length : Int) - 1) : Int) : ℚ)
      = (text.length : ℚ) * ((text.length : ℚ) - 1) := by
    push_cast
    ring
  rw [h3, if_neg (mul_ne_zero h1 h2)]

/-- C14: `calculateIOC` is invariant under every permutation of the characters of a
non-empty text. -/
theorem calculateIOC_perm (T T2 : List Char) (_hne : T ≠ []) (hperm : T2.Perm T) :
    calculateIOC T2 = calculateIOC T := by
  rw [calculateIOC_eq, calculateIOC_eq, List.toFinset_eq_of_perm _ _ hperm,
    hperm.length_eq]
  congr 1
  apply Finset.sum_congr rfl
  intro x _
  rw [hperm.count_eq x]

/-- Witness of C14 on the text `AAB` and its permutation `ABA`. -/
theorem calculateIOC_perm_witness :
    calculateIOC "ABA".toList = calculateIOC "AAB".toList :=
  calculateIOC_perm "AAB".toList "ABA".toList (by decide) (by decide)

/-! ## Theorems: `corr` and `findLetter` -/

theorem isAZ_iff_mem_alphabet (c : Char) : isAZ c ↔ c ∈ alphabet := by
  constructor
  · intro h
    unfold isAZ at h
    rw [← Char.ofNat_toNat c]
    generalize c.toNat = n at h
    obtain ⟨h1, h2⟩ := h
    interval_cases n <;> decide
  · intro h
    have hall : ∀ x ∈ alphabet, isAZ x := by decide
    exact hall c h

theorem reference_has_letters : ∀ c ∈ alphabet, (cmFind EN_REL_FREQ_VIG c).isSome = true := by
  decide

theorem shift_isAZ (S : List Char) (a : Nat) (ha : a < 26) (hS : ∀ c ∈ S, isAZ c) :
    ∀ c ∈ shift S (a : Int), isAZ c := by
  intro c hc
  rw [shift_eq_map] at hc
  obtain ⟨x, hx, rfl⟩ := List.mem_map.1 hc
  have h1 := isAZ_ord (hS x hx)
  apply isAZ_of_ord
  · rw [ord_A, Int.tmod_eq_emod (by omega) (by omega), ord_toChar _ (by omega) (by omega)]
    omega
  · rw [ord_A, Int.tmod_eq_emod (by omega) (by omega), ord_toChar _ (by omega) (by omega)]
    omega

theorem corr_fold_ok (text : List Char) (F : List (Char × ℚ)) (s : ℚ)
    (hF : ∀ c ∈ text, (cmFind F c).isSome = true)
    (hE : ∀ c ∈ text, (cmFind EN_REL_FREQ_VIG c).isSome = true) :
    text.foldlM (corrStep F) s
      = Except.ok (text.foldl
          (fun sum c =>
            fl (sum + fl ((cmFind F c).getD 0 * (cmFind EN_REL_FREQ_VIG c).getD 0))) s) := by
  induction text generalizing s with
  | nil => simp [pure, Except.pure]
  | cons c rest ih =>
    obtain ⟨f, hf⟩ := Option.isSome_iff_exists.1 (hF c (List.mem_cons_self _ _))
    obtain ⟨r, hr⟩ := Option.isSome_iff_exists.1 (hE c (List.mem_cons_self _ _))
    have hstep : corrStep F s c = Except.ok (fl (s + fl (f * r))) := by
      simp only [corrStep, cmAt, hf, hr]
    rw [List.foldlM_cons, hstep]
    simp only [bind, Except.bind]
    rw [ih _ (fun x hx => hF x (List.mem_cons_of_mem _ hx))
      (fun x hx => hE x (List.mem_cons_of_mem _ hx))]
    simp only [List.foldl_cons, hf, hr, Option.getD_some]

/-- On a text over A-Z and a profile with an entry for each letter, `corr` returns the
correlation accumulated in `double` arithmetic. -/
theorem corr_ok (text : List Char) (F : List (Char × ℚ)) (hT : ∀ c ∈ text, isAZ c)
    (hF : ∀ c ∈ alphabet, (cmFind F c).isSome = true) :
    corr text F = Except.ok (corrVal text F) := by
  unfold corr corrVal
  rw [corr_fold_ok text F 0
    (fun c hc => hF c ((isAZ_iff_mem_alphabet c).1 (hT c hc)))
    (fun c hc => reference_has_letters c ((isAZ_iff_mem_alphabet c).1 (hT c hc)))]

/-- The loop of `findLetter` after the trial shifts `0..m-1`, when the correlation of the
shift `a` is `cv a`: either no shift so far has a positive correlation and the state is the
initial one, or the state holds the first shift of maximal correlation. -/
theorem findLetter_fold (S : List Char) (F : List (Char × ℚ)) (cv : Nat → ℚ) (n : Nat)
    (hcv : ∀ a : Nat, a < n → corr (shift S (a : Int)) F = Except.ok (cv a)) (m : Nat) (hm : m ≤ n) :
    ∃ st, (List.range m).foldlM (findLetterStep S F) (' ', 0) = Except.ok st ∧
      (((∀ a : Nat, a < m → cv a ≤ 0) ∧ st = (' ', 0)) ∨
       (∃ a0 : Nat, a0 < m ∧ st = (toChar (ord 'A' + (a0 : Int)), cv a0) ∧ 0 < cv a0 ∧
          (∀ b : Nat, b < m → cv b ≤ cv a0) ∧ (∀ b : Nat, b < a0 → cv b < cv a0))) := by
  induction m with
  | zero =>
    exact ⟨(' ', 0), rfl, Or.inl ⟨fun a ha => absurd ha (Nat.not_lt_zero a), rfl⟩⟩
  | succ m ih =>
    obtain ⟨st, hst, hinv⟩ := ih (by omega)
    rw [List.range_succ, List.foldlM_append, hst]
    simp only [bind, Except.bind, List.foldlM_cons, List.foldlM_nil, pure, Except.pure]
    have hstep : findLetterStep S F st m
        = Except.ok (if cv m > st.2 then (toChar (ord 'A' + (m : Int)), cv m) else st) := by
      simp only [findLetterStep, hcv m (by omega)]
      by_cases hgt : cv m > st.2
      · rw [if_pos hgt, if_pos hgt]
      · rw [if_neg hgt, if_neg hgt]
    rw [hstep]
    refine ⟨_, rfl, ?_⟩
    rcases hinv with ⟨hle, hst0⟩ | ⟨a0, ha0, hst0, hpos, hmax, hfirst⟩
    · subst hst0
      by_cases hgt : cv m > 0
      · right
        refine ⟨m, Nat.lt_succ_self m, by simp only [hgt, if_true], hgt, ?_, ?_⟩
        · intro b hb
          rcases Nat.lt_succ_iff_lt_or_eq.1 hb with h | h
          · exact le_trans (hle b h) (le_of_lt hgt)
          · rw [h]
        · intro b hb
          exact lt_of_le_of_lt (hle b hb) hgt
      · left
        refine ⟨?_, by simp only [hgt, if_false]⟩
        intro b hb
        rcases Nat.lt_succ_iff_lt_or_eq.1 hb with h | h
        · exact hle b h
        · rw [h]
          exact not_lt.1 hgt
    · subst hst0
      right
      by_cases hgt : cv m > cv a0
      · refine ⟨m, Nat.lt_succ_self m, by simp only [hgt, if_true], lt_trans hpos hgt, ?_, ?_⟩
        · intro b hb
          rcases Nat.lt_succ_iff_lt_or_eq.1 hb with h | h
          · exact le_trans (hmax b h) (le_of_lt hgt)
          · rw [h]
        · intro b hb
          exact lt_of_le_of_lt (hmax b hb) hgt
      · refine ⟨a0, Nat.lt_succ_of_lt ha0, by simp only [hgt, if_false], hpos, ?_, hfirst⟩
        intro b hb
        rcases Nat.lt_succ_iff_lt_or_eq.1 hb with h | h
        · exact hmax b h
        · rw [h]
          exact not_lt.1 hgt

/-- The result of `findLetter` when the correlation of every trial shift `a < 26` is
`cv a`. -/
theorem findLetter_result (S : List Char) (F : List (Char × ℚ)) (cv : Nat → ℚ)
    (hcv : ∀ a : Nat, a < 26 → corr (shift S (a : Int)) F = Except.ok (cv a)) :
    ∃ r, findLetter S F = Except.ok r ∧
      (((∀ a : Nat, a < 26 → cv a ≤ 0) ∧ r = ' ') ∨
       (∃ a0 : Nat, a0 < 26 ∧ r = toChar (ord 'A' + (a0 : Int)) ∧ 0 < cv a0 ∧
          (∀ b : Nat, b < 26 → cv b ≤ cv a0) ∧ (∀ b : Nat, b < a0 → cv b < cv a0))) := by
  obtain ⟨st, hst, hinv⟩ := findLetter_fold S F cv 26 hcv 26 (le_refl _)
  refine ⟨st.1, by simp only [findLetter, hst], ?_⟩
  rcases hinv with ⟨hle, hst0⟩ | ⟨a0, ha0, hst0, hrest⟩
  · left
    exact ⟨hle, by rw [hst0]⟩
  · right
    exact ⟨a0, ha0, by rw [hst0], hrest⟩

theorem shift_nil (a : Int) : shift [] a = [] := rfl

/-- C11, amended: for a column `S` over A-Z and a profile `F` with an entry for each letter
A-Z, `corr` returns for every trial shift `a` the correlation as it is accumulated in
`double` arithmetic (`corrVal`: the rounded products `F[c] · Reference[c]` over the letters
of `shift(S, a)`, added in text order with a rounding after each addition), and
`findLetter(S, F)` returns `'A' + a*` for the smallest shift `a*` that maximises this
computed correlation when that maximum is positive, and the blank `' '` when no shift has a
positive computed correlation, in particular for the empty column. -/
theorem findLetter_argmax (S : List Char) (F : List (Char × ℚ)) (hS : ∀ c ∈ S, isAZ c)
    (hF : ∀ c ∈ alphabet, (cmFind F c).isSome = true) :
    (∀ a : Nat, a < 26 → corr (shift S (a : Int)) F = Except.ok (corrVal (shift S (a : Int)) F)) ∧
    ∃ r, findLetter S F = Except.ok r ∧
      ((∀ a : Nat, a < 26 → corrVal (shift S (a : Int)) F ≤ 0) → r = ' ') ∧
      ((∃ a : Nat, a < 26 ∧ 0 < corrVal (shift S (a : Int)) F) →
        ∃ m : Nat, m < 26 ∧ r = toChar (ord 'A' + (m : Int)) ∧
          0 < corrVal (shift S (m : Int)) F ∧
          (∀ b : Nat, b < 26 → corrVal (shift S (b : Int)) F ≤ corrVal (shift S (m : Int)) F) ∧
          (∀ b : Nat, b < m → corrVal (shift S (b : Int)) F < corrVal (shift S (m : Int)) F)) ∧
      (S = [] → r = ' ') := by
  have hcv : ∀ a : Nat, a < 26 →
      corr (shift S (a : Int)) F = Except.ok (corrVal (shift S (a : Int)) F) :=
    fun a ha => corr_ok _ F (shift_isAZ S a ha hS) hF
  refine ⟨hcv, ?_⟩
  obtain ⟨r, hr, hcases⟩ := findLetter_result S F (fun a => corrVal (shift S (a : Int)) F) hcv
  have hnone : (∀ a : Nat, a < 26 → corrVal (shift S (a : Int)) F ≤ 0) → r = ' ' := by
    intro hle
    rcases hcases with ⟨_, h⟩ | ⟨a0, ha0, _, hpos, _⟩
    · exact h
    · exact absurd (hle a0 ha0) (not_le.2 hpos)
  refine ⟨r, hr, hnone, ?_, ?_⟩
  · rintro ⟨a, ha, hpos⟩
    rcases hcases with ⟨hle, _⟩ | h
    · exact absurd (hle a ha) (not_le.2 hpos)
    · exact h
  · intro hnil
    apply hnone
    intro a _
    rw [hnil, shift_nil]
    rfl

/-- Witness of the amended C11 on the column `KHOOR`, the reference table taken as the
profile. -/
theorem findLetter_argmax_witness :
    (∀ a : Nat, a < 26 → corr (shift "KHOOR".toList (a : Int)) EN_REL_FREQ_VIG
        = Except.ok (corrVal (shift "KHOOR".toList (a : Int)) EN_REL_FREQ_VIG)) ∧
    ∃ r, findLetter "KHOOR".toList EN_REL_FREQ_VIG = Except.ok r ∧
      ((∀ a : Nat, a < 26 →
          corrVal (shift "KHOOR".toList (a : Int)) EN_REL_FREQ_VIG ≤ 0) → r = ' ') ∧
      ((∃ a : Nat, a < 26 ∧ 0 < corrVal (shift "KHOOR".toList (a : Int)) EN_REL_FREQ_VIG) →
        ∃ m : Nat, m < 26 ∧ r = toChar (ord 'A' + (m : Int)) ∧
          0 < corrVal (shift "KHOOR".toList (m : Int)) EN_REL_FREQ_VIG ∧
          (∀ b : Nat, b < 26 → corrVal (shift "KHOOR".toList (b : Int)) EN_REL_FREQ_VIG
              ≤ corrVal (shift "KHOOR".toList (m : Int)) EN_REL_FREQ_VIG) ∧
          (∀ b : Nat, b < m → corrVal (shift "KHOOR".toList (b : Int)) EN_REL_FREQ_VIG
              < corrVal (shift "KHOOR".toList (m : Int)) EN_REL_FREQ_VIG)) ∧
      ("KHOOR".toList = [] → r = ' ') :=
  findLetter_argmax "KHOOR".toList EN_REL_FREQ_VIG (by decide) (by decide)

/-! ## Theorems: `getKey` -/

/-- The inner loop of `getKey`, started at `j = q·k + r` with `r < k`, appends the elements
of column `r` from index `q` on. -/
theorem getKeyColumn_drop (text : List Char) (k : Nat) (hk : 0 < k) (r : Nat) (hr : r < k)
    (q : Nat) (acc : List Char) :
    getKeyColumn text k hk (q * k + r) acc = acc ++ (column text k r).drop q := by
  suffices H : ∀ (d q : Nat) (acc : List Char), text.length - (q * k + r) = d →
      getKeyColumn text k hk (q * k + r) acc = acc ++ (column text k r).drop q from
    H _ q acc rfl
  intro d
  induction d using Nat.strong_induction_on with
  | _ d ih =>
    intro q acc hd
    have hcol := column_getElem? text k r q (by omega) hr
    rw [getKeyColumn]
    by_cases hj : q * k + r < text.length
    · rw [dif_pos hj]
      have hnext : q * k + r + k = (q + 1) * k + r := by rw [Nat.succ_mul]; omega
      rw [hnext, ih (text.length - ((q + 1) * k + r)) (by rw [Nat.succ_mul]; omega) (q + 1) _ rfl]
      rw [List.getElem?_eq_getElem hj] at hcol
      have hq : q < (column text k r).length := by
        by_contra hge
        rw [List.getElem?_eq_none (show (column text k r).length ≤ q by omega)] at hcol
        cases hcol
      rw [List.getElem?_eq_getElem hq] at hcol
      have hcq : (column text k r)[q] = text[q * k + r] := by
        simpa using hcol
      rw [List.drop_eq_getElem_cons hq, hcq]
      simp
    · rw [dif_neg hj]
      rw [List.getElem?_eq_none (show text.length ≤ q * k + r by omega)] at hcol
      have hq : (column text k r).length ≤ q := by
        by_contra hlt
        rw [List.getElem?_eq_getElem (show q < (column text k r).length by omega)] at hcol
        cases hcol
      rw [List.drop_eq_nil_of_le hq, List.append_nil]

theorem getKeyColumn_eq_column (text : List Char) (k : Nat) (hk : 0 < k) (r : Nat)
    (hr : r < k) : getKeyColumn text k hk r [] = column text k r := by
  have := getKeyColumn_drop text k hk r hr 0 []
  simpa using this

theorem foldlM_congr_mem {α σ : Type} (f g : σ → α → Except Fault σ) (l : List α)
    (h : ∀ x ∈ l, ∀ s, f s x = g s x) (s : σ) : l.foldlM f s = l.foldlM g s := by
  induction l generalizing s with
  | nil => rfl
  | cons x xs ih =>
    rw [List.foldlM_cons, List.foldlM_cons, h x (List.mem_cons_self _ _) s]
    cases g s x with
    | error e => rfl
    | ok s2 =>
      simp only [bind, Except.bind]
      exact ih (fun y hy => h y (List.mem_cons_of_mem _ hy)) s2

/-- For `k ≥ 1`, `getKey` runs `findLetter` on the columns `0, .., k-1` of the text, each with
the frequencies of the whole text. -/
theorem getKey_eq_fold (text : List Char) (k : Nat) (hk : 1 ≤ k) :
    getKey text (k : Int)
      = (List.range k).foldlM
          (fun key i =>
            appendResult (findLetter (column text k i) (getLetterFrequencies text)) key)
          [] := by
  unfold getKey
  have hpos : 0 < ((k : Int)).toNat := by
    rw [Int.toNat_ofNat]
    omega
  rw [dif_pos hpos]
  have hkk : ((k : Int)).toNat = k := Int.toNat_ofNat k
  generalize ((k : Int)).toNat = k2 at hpos hkk
  subst hkk
  apply foldlM_congr_mem
  intro i hi key
  simp only [getKeyStep]
  rw [getKeyColumn_eq_column text k2 hpos i (List.mem_range.1 hi)]
  cases findLetter (column text k2 i) (getLetterFrequencies text) <;> rfl

/-- A loop that appends the result of a fallible step: when it completes, every step
succeeded and the results were appended in order. -/
theorem foldlM_collect_ok {α β : Type} (g : α → Except Fault β) (l : List α)
    (acc out : List β)
    (h : l.foldlM
          (fun key x => appendResult (g x) key) acc = Except.ok out) :
    ∃ ys : List β, out = acc ++ ys ∧ ys.length = l.length ∧
      ∀ (i : Nat) (h1 : i < l.length) (h2 : i < ys.length),
        g (l.get ⟨i, h1⟩) = Except.ok (ys.get ⟨i, h2⟩) := by
  induction l generalizing acc with
  | nil =>
    simp only [List.foldlM_nil, pure, Except.pure, Except.ok.injEq] at h
    exact ⟨[], by simp [h], rfl, fun i h1 => absurd h1 (Nat.not_lt_zero i)⟩
  | cons x xs ih =>
    rw [List.foldlM_cons] at h
    cases hg : g x with
    | error e =>
      simp only [hg, appendResult, bind, Except.bind] at h
      cases h
    | ok y =>
      simp only [hg, appendResult, bind, Except.bind] at h
      obtain ⟨ys, hout, hlen, hall⟩ := ih (acc ++ [y]) h
      refine ⟨y :: ys, by simp [hout], by simp [hlen], ?_⟩
      intro i h1 h2
      cases i with
      | zero => exact hg
      | succ j =>
        exact hall j (by simpa using h1) (by simpa using h2)

/-- A loop that appends the result of a fallible step completes when every step
succeeds. -/
theorem foldlM_collect_of_ok {α β : Type} (g : α → Except Fault β) (l : List α)
    (acc : List β) (h : ∀ x ∈ l, ∃ y, g x = Except.ok y) :
    ∃ out, l.foldlM
          (fun key x => appendResult (g x) key) acc = Except.ok out := by
  induction l generalizing acc with
  | nil => exact ⟨acc, rfl⟩
  | cons x xs ih =>
    obtain ⟨y, hy⟩ := h x (List.mem_cons_self _ _)
    obtain ⟨out, hout⟩ := ih (acc ++ [y]) (fun z hz => h z (List.mem_cons_of_mem _ hz))
    refine ⟨out, ?_⟩
    rw [List.foldlM_cons]
    simp only [hy, appendResult, bind, Except.bind]
    exact hout

/-- C12: when `getKey(text, k)` completes for a text over A-Z and `k ≥ 1`, the key has
length `k` and its `i`-th character is `findLetter(subString(text, k)[i], F)` for the single
profile `F = getLetterFrequencies(text)` of the whole text. -/
theorem getKey_columns (text : List Char) (k : Nat) (key : List Char)
    (_hT : ∀ c ∈ text, isAZ c) (hk : 1 ≤ k) (hkey : getKey text (k : Int) = Except.ok key) :
    key.length = k ∧
      ∃ subs, subString text (k : Int) = Except.ok subs ∧ subs.length = k ∧
        ∀ i : Nat, i < k →
          findLetter (subs.getD i []) (getLetterFrequencies text)
            = Except.ok (key.getD i ' ') := by
  rw [getKey_eq_fold text k hk] at hkey
  obtain ⟨ys, hout, hlen, hall⟩ := foldlM_collect_ok
    (fun i => findLetter (column text k i) (getLetterFrequencies text)) (List.range k) [] key
    hkey
  rw [List.nil_append] at hout
  subst hout
  rw [List.length_range] at hlen
  refine ⟨hlen, (List.range k).map (column text k), subString_eq_columns text k hk,
    by simp, ?_⟩
  intro i hi
  have h := hall i (by simpa using hi) (by omega)
  simp only [List.get_eq_getElem, List.getElem_range] at h
  have hsub : ((List.range k).map (column text k)).getD i [] = column text k i := by
    rw [List.getD_eq_getElem?_getD, List.getElem?_map, List.getElem?_range hi]
    rfl
  have hkeyi : key.getD i ' ' = key[i] := by
    rw [List.getD_eq_getElem?_getD, List.getElem?_eq_getElem (by omega)]
    rfl
  rw [hsub, hkeyi]
  exact h

/-! ## Theorems: the frequency profile and the completion of `getKey` -/

theorem freqFold_find (n : ℚ) (cnt : Char → Nat) (ks : List Char) (m0 : List (Char × ℚ))
    (x : Char) :
    cmFind ((ks.map (fun k => (k, cnt k))).foldl
        (fun frequencies pair => cmSet frequencies pair.1 (fl ((pair.2 : ℚ) / n))) m0) x
      = if x ∈ ks then some (fl ((cnt x : ℚ) / n)) else cmFind m0 x := by
  induction ks generalizing m0 with
  | nil => simp
  | cons k rest ih =>
    rw [List.map_cons, List.foldl_cons, ih, cmFind_cmSet]
    by_cases hx : x ∈ rest
    · have : x ∈ k :: rest := List.mem_cons_of_mem _ hx
      rw [if_pos hx, if_pos this]
    · rw [if_neg hx]
      by_cases hk : k = x
      · subst hk
        rw [if_pos rfl, if_pos (List.mem_cons_self _ _)]
      · have : ¬ x ∈ k :: rest := by
          intro h
          rcases List.mem_cons.1 h with h | h
          · exact hk h.symm
          · exact hx h
        rw [if_neg hk, if_neg this]

/-- The profile of `getLetterFrequencies(text)` has an entry exactly for the letters of the
text, with value the `double` nearest to the number of occurrences over the length. -/
theorem getLetterFrequencies_find (text : List Char) (x : Char) :
    cmFind (getLetterFrequencies text) x
      = if x ∈ text then some (fl ((text.count x : ℚ) / (text.length : ℚ))) else none := by
  unfold getLetterFrequencies
  simp only
  have hkeys := countFold_keys text
  have hent := countFold_entries text
  generalize text.foldl (fun count c => cmSet count c ((cmFind count c).getD 0 + 1)) [] = m
    at hkeys hent
  rw [hent, freqFold_find]
  have hmem : x ∈ m.map Prod.fst ↔ x ∈ text := by
    rw [← List.mem_toFinset, hkeys, List.mem_toFinset]
  by_cases hx : x ∈ text
  · rw [if_pos (hmem.2 hx), if_pos hx]
  · rw [if_neg (fun h => hx (hmem.1 h)), if_neg hx]
    rfl

theorem corr_fold_imp (text : List Char) (F : List (Char × ℚ)) (s v : ℚ)
    (h : text.foldlM (corrStep F) s = Except.ok v) :
    ∀ c ∈ text, (cmFind F c).isSome = true := by
  induction text generalizing s with
  | nil => intro c hc; cases hc
  | cons x rest ih =>
    rw [List.foldlM_cons] at h
    cases hx : corrStep F s x with
    | error e =>
      simp only [hx, bind, Except.bind] at h
      cases h
    | ok s2 =>
      simp only [hx, bind, Except.bind] at h
      intro c hc
      rcases List.mem_cons.1 hc with hc | hc
      · subst hc
        cases hf : cmFind F c with
        | none =>
          simp only [corrStep, cmAt, hf] at hx
          cases hx
        | some f => rfl
      · exact ih s2 h c hc

/-- When `corr` returns, every letter of the text has an entry in the profile. -/
theorem corr_ok_imp (text : List Char) (F : List (Char × ℚ)) (v : ℚ)
    (h : corr text F = Except.ok v) : ∀ c ∈ text, (cmFind F c).isSome = true :=
  corr_fold_imp text F 0 v h

theorem foldlM_ok_step {α σ : Type} (f : σ → α → Except Fault σ) (l : List α) (s t : σ)
    (h : l.foldlM f s = Except.ok t) : ∀ x ∈ l, ∃ s1 t1, f s1 x = Except.ok t1 := by
  induction l generalizing s with
  | nil => intro x hx; cases hx
  | cons y rest ih =>
    rw [List.foldlM_cons] at h
    cases hy : f s y with
    | error e =>
      simp only [hy, bind, Except.bind] at h
      cases h
    | ok s2 =>
      simp only [hy, bind, Except.bind] at h
      intro x hx
      rcases List.mem_cons.1 hx with hx | hx
      · subst hx
        exact ⟨s, s2, hy⟩
      · exact ih s2 h x hx

/-- When `findLetter` returns, `corr` returned for each of the 26 trial shifts. -/
theorem findLetter_ok_imp (S : List Char) (F : List (Char × ℚ)) (r : Char)
    (h : findLetter S F = Except.ok r) :
    ∀ a : Nat, a < 26 → ∃ v, corr (shift S (a : Int)) F = Except.ok v := by
  intro a ha
  unfold findLetter at h
  cases hf : (List.range 26).foldlM (findLetterStep S F) (' ', 0) with
  | error e =>
    simp only [hf] at h
    cases h
  | ok st =>
    obtain ⟨s1, t1, hstep⟩ := foldlM_ok_step _ _ _ _ hf a (List.mem_range.2 ha)
    cases hc : corr (shift S (a : Int)) F with
    | error e =>
      simp only [findLetterStep, hc] at hstep
      cases hstep
    | ok v => exact ⟨v, rfl⟩

/-- Every letter is reached from a given letter by one of the 26 trial shifts. -/
theorem shift_reaches (c t : Char) (hc : isAZ c) (ht : isAZ t) :
    ∃ a : Nat, a < 26 ∧
      toChar (ord 'A' + Int.tmod (ord c - ord 'A' - (a : Int) + 26) 26) = t := by
  have h1 := isAZ_ord hc
  have h2 := isAZ_ord ht
  refine ⟨((ord c - ord t) % 26).toNat, by omega, ?_⟩
  apply ord_inj
  have hcast : ((((ord c - ord t) % 26).toNat : Nat) : Int) = (ord c - ord t) % 26 := by
    omega
  rw [hcast, ord_A]
  rw [Int.tmod_eq_emod (by omega) (by omega), ord_toChar _ (by omega) (by omega)]
  omega

theorem mem_of_mem_column (text : List Char) (k r : Nat) (c : Char)
    (hc : c ∈ column text k r) : c ∈ text := by
  unfold column at hc
  obtain ⟨ic, hic, rfl⟩ := List.mem_map.1 hc
  have hmem := (List.mem_filter.1 hic).1
  obtain ⟨i, x⟩ := ic
  have := List.mem_enum hmem
  rw [this.2]
  exact List.getElem_mem this.1

theorem column_zero_head (text : List Char) (k : Nat) (hk : 1 ≤ k) (hne : text ≠ []) :
    ∃ c, c ∈ column text k 0 ∧ c ∈ text := by
  have hlen : 0 < text.length := List.length_pos.2 hne
  have hcol := column_getElem? text k 0 0 hk (by omega)
  simp only [Nat.zero_mul, Nat.add_zero] at hcol
  rw [List.getElem?_eq_getElem hlen] at hcol
  have hmem : text[0] ∈ column text k 0 := List.getElem?_mem hcol
  exact ⟨text[0], hmem, List.getElem_mem hlen⟩

/-- The profile of a text in which every letter occurs has an entry for each letter. -/
theorem profile_total (text : List Char) (hall : ∀ c ∈ alphabet, c ∈ text) :
    ∀ c ∈ alphabet, (cmFind (getLetterFrequencies text) c).isSome = true := by
  intro c hc
  rw [getLetterFrequencies_find, if_pos (hall c hc)]
  rfl

theorem foldlM_error_step {α σ : Type} (f : σ → α → Except Fault σ) (l : List α) (s : σ)
    (e : Fault) (h : l.foldlM f s = Except.error e) :
    ∃ x ∈ l, ∃ s1, f s1 x = Except.error e := by
  induction l generalizing s with
  | nil =>
    simp only [List.foldlM_nil, pure, Except.pure] at h
    cases h
  | cons y rest ih =>
    rw [List.foldlM_cons] at h
    cases hy : f s y with
    | error e2 =>
      simp only [hy, bind, Except.bind] at h
      cases h
      exact ⟨y, List.mem_cons_self _ _, s, hy⟩
    | ok s2 =>
      simp only [hy, bind, Except.bind] at h
      obtain ⟨x, hx, s1, h1⟩ := ih s2 h
      exact ⟨x, List.mem_cons_of_mem _ hx, s1, h1⟩

/-- The only fault of `corr` is the failed lookup. -/
theorem corr_error (text : List Char) (F : List (Char × ℚ)) (e : Fault)
    (h : corr text F = Except.error e) : e = Fault.outOfRange := by
  obtain ⟨c, _, s, hstep⟩ := foldlM_error_step _ _ _ _ h
  simp only [corrStep, cmAt] at hstep
  cases hf : cmFind F c with
  | none =>
    simp only [hf] at hstep
    cases hstep
    rfl
  | some f =>
    simp only [hf] at hstep
    cases hr : cmFind EN_REL_FREQ_VIG c with
    | none =>
      simp only [hr] at hstep
      cases hstep
      rfl
    | some r =>
      simp only [hr] at hstep
      cases hstep

/-- The only fault of `findLetter` is the failed lookup. -/
theorem findLetter_error (S : List Char) (F : List (Char × ℚ)) (e : Fault)
    (h : findLetter S F = Except.error e) : e = Fault.outOfRange := by
  unfold findLetter at h
  cases hf : (List.range 26).foldlM (findLetterStep S F) (' ', 0) with
  | ok st =>
    simp only [hf] at h
    cases h
  | error e2 =>
    simp only [hf] at h
    cases h
    obtain ⟨a, _, s1, hstep⟩ := foldlM_error_step _ _ _ _ hf
    cases hc : corr (shift S (a : Int)) F with
    | error e3 =>
      simp only [findLetterStep, hc] at hstep
      cases hstep
      exact corr_error _ _ _ hc
    | ok v =>
      simp only [findLetterStep, hc] at hstep
      split at hstep <;> cases hstep

/-- For `k ≥ 1` the only fault of `getKey` is the failed lookup. -/
theorem getKey_error (text : List Char) (k : Nat) (hk : 1 ≤ k) (e : Fault)
    (h : getKey text (k : Int) = Except.error e) : e = Fault.outOfRange := by
  rw [getKey_eq_fold text k hk] at h
  obtain ⟨i, _, key, hstep⟩ := foldlM_error_step _ _ _ _ h
  cases hf : findLetter (column text k i) (getLetterFrequencies text) with
  | error e2 =>
    simp only [hf, appendResult] at hstep
    cases hstep
    exact findLetter_error _ _ _ hf
  | ok r =>
    simp only [hf, appendResult] at hstep
    cases hstep

/-- Every column is scored without fault when each letter occurs in the text. -/
theorem getKey_complete_of_all (text : List Char) (k : Nat) (hT : ∀ c ∈ text, isAZ c)
    (hk : 1 ≤ k) (hall : ∀ c ∈ alphabet, c ∈ text) :
    ∃ key, getKey text (k : Int) = Except.ok key := by
  rw [getKey_eq_fold text k hk]
  apply foldlM_collect_of_ok
    (fun i => findLetter (column text k i) (getLetterFrequencies text))
  intro i _
  have hcol : ∀ c ∈ column text k i, isAZ c :=
    fun c hc => hT c (mem_of_mem_column text k i c hc)
  obtain ⟨r, hr, _⟩ := findLetter_result (column text k i) (getLetterFrequencies text)
    (fun a => corrVal (shift (column text k i) (a : Int)) (getLetterFrequencies text))
    (fun a ha => corr_ok _ _ (shift_isAZ _ a ha hcol) (profile_total text hall))
  exact ⟨r, hr⟩

/-- When `getKey` completes on a non-empty text over A-Z, each letter occurs in the text. -/
theorem all_of_getKey_complete (text : List Char) (k : Nat) (key : List Char)
    (hne : text ≠ []) (hT : ∀ c ∈ text, isAZ c) (hk : 1 ≤ k)
    (hkey : getKey text (k : Int) = Except.ok key) : ∀ c ∈ alphabet, c ∈ text := by
  rw [getKey_eq_fold text k hk] at hkey
  obtain ⟨ys, _, hlen, hsteps⟩ := foldlM_collect_ok
    (fun i => findLetter (column text k i) (getLetterFrequencies text)) (List.range k) [] key
    hkey
  have h0 := hsteps 0 (by simpa using hk) (by rw [hlen]; simpa using hk)
  simp only [List.get_eq_getElem, List.getElem_range] at h0
  intro t ht
  obtain ⟨c0, hc0, hc0t⟩ := column_zero_head text k hk hne
  obtain ⟨a, ha, hreach⟩ :=
    shift_reaches c0 t (hT c0 hc0t) ((isAZ_iff_mem_alphabet t).2 ht)
  obtain ⟨v, hv⟩ := findLetter_ok_imp _ _ _ h0 a ha
  have hmem : t ∈ shift (column text k 0) (a : Int) := by
    rw [shift_eq_map]
    exact List.mem_map.2 ⟨c0, hc0, hreach⟩
  have hsome := corr_ok_imp _ _ _ hv t hmem
  rw [getLetterFrequencies_find] at hsome
  by_contra hnot
  rw [if_neg hnot] at hsome
  cases hsome

/-- C16: for a non-empty text over A-Z and `k ≥ 1`, `getKey(text, k)` completes exactly when
each of the 26 letters A-Z occurs in the text; otherwise it ends in the failed lookup
`letterF.at` of `corr`, which is its only possible fault. -/
theorem getKey_completes_iff (text : List Char) (k : Nat) (hne : text ≠ [])
    (hT : ∀ c ∈ text, isAZ c) (hk : 1 ≤ k) :
    ((∃ key, getKey text (k : Int) = Except.ok key) ↔ ∀ c ∈ alphabet, c ∈ text) ∧
    (getKey text (k : Int) ≠ Except.error Fault.outOfRange ↔ ∀ c ∈ alphabet, c ∈ text) := by
  have hiff : (∃ key, getKey text (k : Int) = Except.ok key) ↔ ∀ c ∈ alphabet, c ∈ text :=
    ⟨fun ⟨key, hkey⟩ => all_of_getKey_complete text k key hne hT hk hkey,
      fun hall => getKey_complete_of_all text k hT hk hall⟩
  refine ⟨hiff, ?_⟩
  constructor
  · intro hno
    cases hg : getKey text (k : Int) with
    | error e =>
      have := getKey_error text k hk e hg
      rw [this] at hg
      exact absurd hg hno
    | ok key => exact hiff.1 ⟨key, hg⟩
  · intro hall herr
    obtain ⟨key, hkey⟩ := hiff.2 hall
    rw [hkey] at herr
    cases herr

/-- Witness of C16 on the text `AB` and the key length `1`. -/
theorem getKey_completes_iff_witness :
    ((∃ key, getKey "AB".toList ((1 : Nat) : Int) = Except.ok key)
        ↔ ∀ c ∈ alphabet, c ∈ "AB".toList) ∧
    (getKey "AB".toList ((1 : Nat) : Int) ≠ Except.error Fault.outOfRange
        ↔ ∀ c ∈ alphabet, c ∈ "AB".toList) :=
  getKey_completes_iff "AB".toList 1 (by decide) (by decide) (by decide)

/-- Witness of C12 on the 26-letter text `A..Z` and the key length `2`. -/
theorem getKey_columns_witness :
    ∃ key, getKey alphabet ((2 : Nat) : Int) = Except.ok key ∧ key.length = 2 ∧
      ∃ subs, subString alphabet ((2 : Nat) : Int) = Except.ok subs ∧ subs.length = 2 ∧
        ∀ i : Nat, i < 2 →
          findLetter (subs.getD i []) (getLetterFrequencies alphabet)
            = Except.ok (key.getD i ' ') :=
  Exists.elim (getKey_complete_of_all alphabet 2 (by decide) (by decide) (fun _ h => h))
    (fun key hkey =>
      ⟨key, hkey, getKey_columns alphabet 2 key (by decide) (by decide) hkey⟩)

/-! ## Theorems: the blank sentinel in the key -/

theorem getKey_get (text : List Char) (k : Nat) (key : List Char) (hk : 1 ≤ k)
    (hkey : getKey text (k : Int) = Except.ok key) :
    key.length = k ∧
      ∀ i : Nat, i < k →
        findLetter (column text k i) (getLetterFrequencies text)
          = Except.ok (key.getD i ' ') := by
  rw [getKey_eq_fold text k hk] at hkey
  obtain ⟨ys, hout, hlen, hall⟩ := foldlM_collect_ok
    (fun i => findLetter (column text k i) (getLetterFrequencies text)) (List.range k) [] key
    hkey
  rw [List.nil_append] at hout
  subst hout
  rw [List.length_range] at hlen
  refine ⟨hlen, ?_⟩
  intro i hi
  have h := hall i (by simpa using hi) (by omega)
  simp only [List.get_eq_getElem, List.getElem_range] at h
  have hkeyi : key.getD i ' ' = key[i] := by
    rw [List.getD_eq_getElem?_getD, List.getElem?_eq_getElem (by omega)]
    rfl
  rw [hkeyi]
  exact h

theorem cmFind_mem {α : Type} (m : List (Char × α)) (c : Char) (v : α)
    (h : cmFind m c = some v) : (c, v) ∈ m := by
  induction m with
  | nil => simp [cmFind] at h
  | cons p rest ih =>
    obtain ⟨k, w⟩ := p
    by_cases hk : k = c
    · subst hk
      simp only [cmFind, if_true, Option.some.injEq] at h
      subst h
      exact List.mem_cons_self _ _
    · simp only [cmFind, if_neg hk] at h
      exact List.mem_cons_of_mem _ (ih h)

theorem reference_values_pos : ∀ p ∈ EN_REL_FREQ_VIG, 0 < p.2 := by
  intro p hp
  simp only [EN_REL_FREQ_VIG, List.mem_cons, List.mem_singleton, List.not_mem_nil,
    or_false] at hp
  rcases hp with h | h | h | h | h | h | h | h | h | h | h | h | h | h | h | h | h | h | h | h
    | h | h | h | h | h | h <;> subst h <;> exact fl_pos _ (by norm_num)

theorem reference_pos : ∀ c ∈ alphabet, 0 < (cmFind EN_REL_FREQ_VIG c).getD 0 := by
  intro c hc
  obtain ⟨v, hv⟩ := Option.isSome_iff_exists.1 (reference_has_letters c hc)
  rw [hv, Option.getD_some]
  exact reference_values_pos (c, v) (cmFind_mem _ _ _ hv)

theorem profile_pos (text : List Char) (c : Char) (hc : c ∈ text) :
    0 < (cmFind (getLetterFrequencies text) c).getD 0 := by
  rw [getLetterFrequencies_find, if_pos hc, Option.getD_some]
  have h1 : 0 < text.count c := List.count_pos_iff.2 hc
  have h2 : 0 < text.length := List.length_pos_of_mem hc
  have h3 : (0 : ℚ) < (text.count c : ℚ) := by exact_mod_cast h1
  have h4 : (0 : ℚ) < (text.length : ℚ) := by exact_mod_cast h2
  exact fl_pos _ (div_pos h3 h4)

theorem sum_pos_of_pos (l : List ℚ) (hne : l ≠ []) (h : ∀ x ∈ l, 0 < x) : 0 < l.sum := by
  induction l with
  | nil => exact absurd rfl hne
  | cons x rest ih =>
    rw [List.sum_cons]
    by_cases hr : rest = []
    · subst hr
      simpa using h x (List.mem_cons_self _ _)
    · exact add_pos (h x (List.mem_cons_self _ _))
        (ih hr (fun y hy => h y (List.mem_cons_of_mem _ hy)))

/-- The correlation of a non-empty text over A-Z against the profile of a text in which
every letter occurs is strictly positive. -/
theorem corrSum_pos (text T : List Char) (hall : ∀ c ∈ alphabet, c ∈ text)
    (hT : ∀ c ∈ T, isAZ c) (hne : T ≠ []) : 0 < corrSum T (getLetterFrequencies text) := by
  unfold corrSum
  apply sum_pos_of_pos
  · simpa using hne
  · intro x hx
    obtain ⟨c, hc, rfl⟩ := List.mem_map.1 hx
    have hca := (isAZ_iff_mem_alphabet c).1 (hT c hc)
    exact mul_pos (profile_pos text c (hall c hca)) (reference_pos c hca)

theorem foldl_fl_pos (g : Char → ℚ) (T : List Char) (s : ℚ) (hs : 0 ≤ s) (hne : T ≠ [])
    (hg : ∀ c ∈ T, 0 < g c) : 0 < T.foldl (fun sum c => fl (sum + fl (g c))) s := by
  induction T generalizing s with
  | nil => exact absurd rfl hne
  | cons c rest ih =>
    rw [List.foldl_cons]
    have hstep : 0 < fl (s + fl (g c)) :=
      fl_pos _ (add_pos_of_nonneg_of_pos hs (fl_pos _ (hg c (List.mem_cons_self _ _))))
    by_cases hr : rest = []
    · subst hr
      exact hstep
    · exact ih _ (le_of_lt hstep) hr (fun y hy => hg y (List.mem_cons_of_mem _ hy))

/-- The correlation that `corr` computes in `double` arithmetic for a non-empty text over
A-Z, against the profile of a text in which every letter occurs, is strictly positive. -/
theorem corrVal_pos (text T : List Char) (hall : ∀ c ∈ alphabet, c ∈ text)
    (hT : ∀ c ∈ T, isAZ c) (hne : T ≠ []) : 0 < corrVal T (getLetterFrequencies text) := by
  unfold corrVal
  apply foldl_fl_pos
    (fun c => (cmFind (getLetterFrequencies text) c).getD 0 * (cmFind EN_REL_FREQ_VIG c).getD 0)
    T 0 (le_refl 0) hne
  intro c hc
  have hca := (isAZ_iff_mem_alphabet c).1 (hT c hc)
  exact mul_pos (profile_pos text c (hall c hca)) (reference_pos c hca)

theorem column_eq_nil_iff (text : List Char) (k i : Nat) (hk : 1 ≤ k) (hi : i < k) :
    column text k i = [] ↔ text.length ≤ i := by
  have hcol := column_getElem? text k i 0 hk hi
  simp only [Nat.zero_mul, Nat.zero_add] at hcol
  constructor
  · intro h
    rw [h] at hcol
    by_contra hlt
    rw [List.getElem?_eq_getElem (show i < text.length by omega)] at hcol
    simp at hcol
  · intro h
    rw [List.getElem?_eq_none h] at hcol
    cases hc : column text k i with
    | nil => rfl
    | cons x rest =>
      rw [hc] at hcol
      simp at hcol

theorem shift_ne_nil (S : List Char) (a : Int) (h : S ≠ []) : shift S a ≠ [] := by
  rw [shift_eq_map]
  simpa using h

theorem letter_of_shift_isAZ (a : Nat) (ha : a < 26) : isAZ (toChar (ord 'A' + (a : Int))) := by
  apply isAZ_of_ord
  · rw [ord_A, ord_toChar _ (by omega) (by omega)]
    omega
  · rw [ord_A, ord_toChar _ (by omega) (by omega)]
    omega

/-- The letter found for one column of a text in which every letter occurs: the blank for
the empty column, a letter A-Z for a non-empty one. -/
theorem findLetter_column (text S : List Char) (r : Char)
    (hall : ∀ c ∈ alphabet, c ∈ text) (hS : ∀ c ∈ S, isAZ c)
    (hr : findLetter S (getLetterFrequencies text) = Except.ok r) :
    (S = [] → r = ' ') ∧ (S ≠ [] → isAZ r) := by
  obtain ⟨r2, hr2, hcases⟩ := findLetter_result S (getLetterFrequencies text)
    (fun a => corrVal (shift S (a : Int)) (getLetterFrequencies text))
    (fun a ha => corr_ok _ _ (shift_isAZ _ a ha hS) (profile_total text hall))
  rw [hr] at hr2
  cases hr2
  constructor
  · intro hnil
    rcases hcases with ⟨_, h⟩ | ⟨a0, _, _, hpos, _⟩
    · exact h
    · rw [hnil, shift_nil] at hpos
      exact absurd hpos (lt_irrefl _)
  · intro hne
    rcases hcases with ⟨hle, _⟩ | ⟨a0, ha0, h, _⟩
    · have hpos := corrVal_pos text (shift S ((0 : Nat) : Int)) hall
        (shift_isAZ S 0 (by omega) hS) (shift_ne_nil S _ hne)
      exact absurd (hle 0 (by omega)) (not_le.2 hpos)
    · rw [h]
      exact letter_of_shift_isAZ a0 ha0

/-- C20: for a text over A-Z in which all 26 letters occur and a key length `k ≥ 1`,
`getKey` completes, and the `i`-th character of the key is the blank `' '` exactly when
column `i` is empty, that is when `i` is at least the length of the text; every non-empty
column has strictly positive trial correlations and yields a letter A-Z. -/
theorem getKey_blank_iff (text : List Char) (k : Nat) (hT : ∀ c ∈ text, isAZ c)
    (hall : ∀ c ∈ alphabet, c ∈ text) (hk : 1 ≤ k) :
    ∃ key subs, getKey text (k : Int) = Except.ok key ∧ key.length = k ∧
      subString text (k : Int) = Except.ok subs ∧ subs.length = k ∧
      ∀ i : Nat, i < k →
        (key.getD i ' ' = ' ' ↔ subs.getD i [] = []) ∧
        (subs.getD i [] = [] ↔ text.length ≤ i) ∧
        (subs.getD i [] ≠ [] →
          isAZ (key.getD i ' ') ∧
          ∀ a : Nat, a < 26 →
            0 < corrSum (shift (subs.getD i []) (a : Int)) (getLetterFrequencies text)) := by
  obtain ⟨key, hkey⟩ := getKey_complete_of_all text k hT hk hall
  obtain ⟨hlen, hget⟩ := getKey_get text k key hk hkey
  refine ⟨key, (List.range k).map (column text k), hkey, hlen,
    subString_eq_columns text k hk, by simp, ?_⟩
  intro i hi
  have hsub : ((List.range k).map (column text k)).getD i [] = column text k i := by
    rw [List.getD_eq_getElem?_getD, List.getElem?_map, List.getElem?_range hi]
    rfl
  rw [hsub]
  have hS : ∀ c ∈ column text k i, isAZ c :=
    fun c hc => hT c (mem_of_mem_column text k i c hc)
  obtain ⟨hnil, hletter⟩ := findLetter_column text (column text k i) _ hall hS (hget i hi)
  have hblank : ¬ isAZ ' ' := by decide
  refine ⟨⟨?_, hnil⟩, column_eq_nil_iff text k i hk hi, ?_⟩
  · intro hsp
    by_contra hne
    have := hletter hne
    rw [hsp] at this
    exact hblank this
  · intro hne
    refine ⟨hletter hne, ?_⟩
    intro a ha
    exact corrSum_pos text _ hall (shift_isAZ _ a ha hS) (shift_ne_nil _ _ hne)

/-- Witness of C20 on the 26-letter text `A..Z` and the key length `30`, where the columns
`26..29` are empty. -/
theorem getKey_blank_iff_witness :
    ∃ key subs, getKey alphabet ((30 : Nat) : Int) = Except.ok key ∧ key.length = 30 ∧
      subString alphabet ((30 : Nat) : Int) = Except.ok subs ∧ subs.length = 30 ∧
      ∀ i : Nat, i < 30 →
        (key.getD i ' ' = ' ' ↔ subs.getD i [] = []) ∧
        (subs.getD i [] = [] ↔ alphabet.length ≤ i) ∧
        (subs.getD i [] ≠ [] →
          isAZ (key.getD i ' ') ∧
          ∀ a : Nat, a < 26 →
            0 < corrSum (shift (subs.getD i []) (a : Int)) (getLetterFrequencies alphabet)) :=
  getKey_blank_iff alphabet 30 (by decide) (fun _ h => h) (by decide)

/-! ## Theorems: a column on which the rounding decides the result of `findLetter`

The column `EERR` is searched against the profile of the text `A..Z`, in which every letter
has the frequency `1/26`. The trial shifts `0` and `13` turn the column into `EERR` and
`RREE`: their exact correlations are equal and are the largest of the 26, so the smallest
maximising shift is `0`. Accumulated in `double` arithmetic in text order, the correlation
of `RREE` exceeds that of `EERR` by one unit in the last place, and the loop of `findLetter`
ends on the shift `13`. Every rounding involved is checked by a certificate. -/

/-- The computed correlation of a four-letter text `l l m m`, from the values of the two
letters in the profile and in the reference table and from the roundings of the products
and of the partial sums. -/
theorem corrVal_pairs (T : List Char) (F : List (Char × ℚ)) (l m : Char)
    (u rl rm pl pm s2 s3 v : ℚ) (hT : T = [l, l, m, m])
    (hFl : (cmFind F l).getD 0 = u) (hFm : (cmFind F m).getD 0 = u)
    (hRl : (cmFind EN_REL_FREQ_VIG l).getD 0 = rl)
    (hRm : (cmFind EN_REL_FREQ_VIG m).getD 0 = rm)
    (hpl : fl (u * rl) = pl) (hpm : fl (u * rm) = pm) (h1 : fl pl = pl)
    (h2 : fl (pl + pl) = s2) (h3 : fl (s2 + pm) = s3) (h4 : fl (s3 + pm) = v) :
    corrVal T F = v := by
  subst hT
  simp only [corrVal, List.foldl_cons, List.foldl_nil, hFl, hFm, hRl, hRm, hpl, hpm, zero_add,
    h1, h2, h3, h4]

/-- The exact correlation of a four-letter text `l l m m`. -/
theorem corrSum_pairs (T : List Char) (F : List (Char × ℚ)) (l m : Char) (u rl rm : ℚ)
    (hT : T = [l, l, m, m])
    (hFl : (cmFind F l).getD 0 = u) (hFm : (cmFind F m).getD 0 = u)
    (hRl : (cmFind EN_REL_FREQ_VIG l).getD 0 = rl)
    (hRm : (cmFind EN_REL_FREQ_VIG m).getD 0 = rm) :
    corrSum T F = 2 * u * (rl + rm) := by
  subst hT
  simp only [corrSum, List.map_cons, List.map_nil, List.sum_cons, List.sum_nil, hFl, hFm, hRl,
    hRm]
  ring

/-! The entries of the reference table and of the profile. -/

theorem ref_A : (cmFind EN_REL_FREQ_VIG 'A').getD 0 = 5851076635879748 / 2 ^ 56 :=
  fl_cert (812 / 10000) _ 56 5851076635879748 (by norm_num) (by norm_num) (by norm_num)
    (by norm_num) (by norm_num) (by norm_num)

theorem ref_B : (cmFind EN_REL_FREQ_VIG 'B').getD 0 = 8589265209321010 / 2 ^ 59 :=
  fl_cert (149 / 10000) _ 59 8589265209321010 (by norm_num) (by norm_num) (by norm_num)
    (by norm_num) (by norm_num) (by norm_num)

theorem ref_C : (cmFind EN_REL_FREQ_VIG 'C').getD 0 = 7811043193711388 / 2 ^ 58 :=
  fl_cert (271 / 10000) _ 58 7811043193711388 (by norm_num) (by norm_num) (by norm_num)
    (by norm_num) (by norm_num) (by norm_num)

theorem ref_D : (cmFind EN_REL_FREQ_VIG 'D').getD 0 = 6225776124876974 / 2 ^ 57 :=
  fl_cert (432 / 10000) _ 57 6225776124876974 (by norm_num) (by norm_num) (by norm_num)
    (by norm_num) (by norm_num) (by norm_num)

theorem ref_E : (cmFind EN_REL_FREQ_VIG 'E').getD 0 = 8661322803358938 / 2 ^ 56 :=
  fl_cert (1202 / 10000) _ 56 8661322803358938 (by norm_num) (by norm_num) (by norm_num)
    (by norm_num) (by norm_num) (by norm_num)

theorem ref_F : (cmFind EN_REL_FREQ_VIG 'F').getD 0 = 6629298651489370 / 2 ^ 58 :=
  fl_cert (230 / 10000) _ 58 6629298651489370 (by norm_num) (by norm_num) (by norm_num)
    (by norm_num) (by norm_num) (by norm_num)

theorem ref_G : (cmFind EN_REL_FREQ_VIG 'G').getD 0 = 5851076635879748 / 2 ^ 58 :=
  fl_cert (203 / 10000) _ 58 5851076635879748 (by norm_num) (by norm_num) (by norm_num)
    (by norm_num) (by norm_num) (by norm_num)

theorem ref_H : (cmFind EN_REL_FREQ_VIG 'H').getD 0 = 8531619134090668 / 2 ^ 57 :=
  fl_cert (592 / 10000) _ 57 8531619134090668 (by norm_num) (by norm_num) (by norm_num)
    (by norm_num) (by norm_num) (by norm_num)

theorem ref_I : (cmFind EN_REL_FREQ_VIG 'I').getD 0 = 5267410124172532 / 2 ^ 56 :=
  fl_cert (731 / 10000) _ 56 5267410124172532 (by norm_num) (by norm_num) (by norm_num)
    (by norm_num) (by norm_num) (by norm_num)

theorem ref_J : (cmFind EN_REL_FREQ_VIG 'J').getD 0 = 4611686018427388 / 2 ^ 62 :=
  fl_cert (10 / 10000) _ 62 4611686018427388 (by norm_num) (by norm_num) (by norm_num)
    (by norm_num) (by norm_num) (by norm_num)

theorem ref_K : (cmFind EN_REL_FREQ_VIG 'K').getD 0 = 7955158381787244 / 2 ^ 60 :=
  fl_cert (69 / 10000) _ 60 7955158381787244 (by norm_num) (by norm_num) (by norm_num)
    (by norm_num) (by norm_num) (by norm_num)

theorem ref_L : (cmFind EN_REL_FREQ_VIG 'L').getD 0 = 5735784485419064 / 2 ^ 57 :=
  fl_cert (398 / 10000) _ 57 5735784485419064 (by norm_num) (by norm_num) (by norm_num)
    (by norm_num) (by norm_num) (by norm_num)

theorem ref_M : (cmFind EN_REL_FREQ_VIG 'M').getD 0 = 7522812817559677 / 2 ^ 58 :=
  fl_cert (261 / 10000) _ 58 7522812817559677 (by norm_num) (by norm_num) (by norm_num)
    (by norm_num) (by norm_num) (by norm_num)

theorem ref_N : (cmFind EN_REL_FREQ_VIG 'N').getD 0 = 5008002785635992 / 2 ^ 56 :=
  fl_cert (695 / 10000) _ 56 5008002785635992 (by norm_num) (by norm_num) (by norm_num)
    (by norm_num) (by norm_num) (by norm_num)

theorem ref_O : (cmFind EN_REL_FREQ_VIG 'O').getD 0 = 5534023222112865 / 2 ^ 56 :=
  fl_cert (768 / 10000) _ 56 5534023222112865 (by norm_num) (by norm_num) (by norm_num)
    (by norm_num) (by norm_num) (by norm_num)

theorem ref_P : (cmFind EN_REL_FREQ_VIG 'P').getD 0 = 5245792845961154 / 2 ^ 58 :=
  fl_cert (182 / 10000) _ 58 5245792845961154 (by norm_num) (by norm_num) (by norm_num)
    (by norm_num) (by norm_num) (by norm_num)

theorem ref_Q : (cmFind EN_REL_FREQ_VIG 'Q').getD 0 = 5072854620270127 / 2 ^ 62 :=
  fl_cert (11 / 10000) _ 62 5072854620270127 (by norm_num) (by norm_num) (by norm_num)
    (by norm_num) (by norm_num) (by norm_num)

theorem ref_R : (cmFind EN_REL_FREQ_VIG 'R').getD 0 = 8675734322166523 / 2 ^ 57 :=
  fl_cert (602 / 10000) _ 57 8675734322166523 (by norm_num) (by norm_num) (by norm_num)
    (by norm_num) (by norm_num) (by norm_num)

theorem ref_S : (cmFind EN_REL_FREQ_VIG 'S').getD 0 = 4525216905581874 / 2 ^ 56 :=
  fl_cert (628 / 10000) _ 56 4525216905581874 (by norm_num) (by norm_num) (by norm_num)
    (by norm_num) (by norm_num) (by norm_num)

theorem ref_T : (cmFind EN_REL_FREQ_VIG 'T').getD 0 = 6557241057451442 / 2 ^ 56 :=
  fl_cert (910 / 10000) _ 56 6557241057451442 (by norm_num) (by norm_num) (by norm_num)
    (by norm_num) (by norm_num) (by norm_num)

theorem ref_U : (cmFind EN_REL_FREQ_VIG 'U').getD 0 = 8301034833169298 / 2 ^ 58 :=
  fl_cert (288 / 10000) _ 58 8301034833169298 (by norm_num) (by norm_num) (by norm_num)
    (by norm_num) (by norm_num) (by norm_num)

theorem ref_V : (cmFind EN_REL_FREQ_VIG 'V').getD 0 = 6398714350568001 / 2 ^ 59 :=
  fl_cert (111 / 10000) _ 59 6398714350568001 (by norm_num) (by norm_num) (by norm_num)
    (by norm_num) (by norm_num) (by norm_num)

theorem ref_W : (cmFind EN_REL_FREQ_VIG 'W').getD 0 = 6024014861570775 / 2 ^ 58 :=
  fl_cert (209 / 10000) _ 58 6024014861570775 (by norm_num) (by norm_num) (by norm_num)
    (by norm_num) (by norm_num) (by norm_num)

theorem ref_X : (cmFind EN_REL_FREQ_VIG 'X').getD 0 = 7839866231326559 / 2 ^ 62 :=
  fl_cert (17 / 10000) _ 62 7839866231326559 (by norm_num) (by norm_num) (by norm_num)
    (by norm_num) (by norm_num) (by norm_num)

theorem ref_Y : (cmFind EN_REL_FREQ_VIG 'Y').getD 0 = 6081660936801118 / 2 ^ 58 :=
  fl_cert (211 / 10000) _ 58 6081660936801118 (by norm_num) (by norm_num) (by norm_num)
    (by norm_num) (by norm_num) (by norm_num)

theorem ref_Z : (cmFind EN_REL_FREQ_VIG 'Z').getD 0 = 6456360425798343 / 2 ^ 63 :=
  fl_cert (7 / 10000) _ 63 6456360425798343 (by norm_num) (by norm_num) (by norm_num)
    (by norm_num) (by norm_num) (by norm_num)

/-- In the profile of the text `A..Z` every letter has the `double` nearest to `1/26`. -/
theorem uniform_profile (c : Char) (hc : c ∈ alphabet) :
    (cmFind (getLetterFrequencies alphabet) c).getD 0 = 5542891849071380 / 2 ^ 57 := by
  rw [getLetterFrequencies_find, if_pos hc, Option.getD_some,
    List.count_eq_one_of_mem (by decide) hc]
  have hlen : alphabet.length = 26 := rfl
  rw [hlen]
  simp only [Nat.cast_one, Nat.cast_ofNat]
  exact fl_cert (1 / 26) _ 57 5542891849071380 (by norm_num) (by norm_num) (by norm_num)
    (by norm_num) (by norm_num) (by norm_num)

/-! The rounded products `F[c] · Reference[c]`, which are `double`s. -/

theorem fl_prod_A :
    fl (5542891849071380 / 2 ^ 57 * (5851076635879748 / 2 ^ 56))
      = 7201325090313536 / 2 ^ 61 :=
  fl_cert _ _ 61 7201325090313536 (by norm_num) (by norm_num) (by norm_num)
    (by norm_num) (by norm_num) (by norm_num)

theorem fl_prod_B :
    fl (5542891849071380 / 2 ^ 57 * (8589265209321010 / 2 ^ 59))
      = 5285701667274468 / 2 ^ 63 :=
  fl_cert _ _ 63 5285701667274468 (by norm_num) (by norm_num) (by norm_num)
    (by norm_num) (by norm_num) (by norm_num)

theorem fl_prod_C :
    fl (5542891849071380 / 2 ^ 57 * (7811043193711388 / 2 ^ 58))
      = 4806795811514701 / 2 ^ 62 :=
  fl_cert _ _ 62 4806795811514701 (by norm_num) (by norm_num) (by norm_num)
    (by norm_num) (by norm_num) (by norm_num)

theorem fl_prod_D :
    fl (5542891849071380 / 2 ^ 57 * (6225776124876974 / 2 ^ 57))
      = 7662493692156276 / 2 ^ 62 :=
  fl_cert _ _ 62 7662493692156276 (by norm_num) (by norm_num) (by norm_num)
    (by norm_num) (by norm_num) (by norm_num)

theorem fl_prod_E :
    fl (5542891849071380 / 2 ^ 57 * (8661322803358938 / 2 ^ 56))
      = 5330044802067039 / 2 ^ 60 :=
  fl_cert _ _ 60 5330044802067039 (by norm_num) (by norm_num) (by norm_num)
    (by norm_num) (by norm_num) (by norm_num)

theorem fl_prod_F :
    fl (5542891849071380 / 2 ^ 57 * (6629298651489370 / 2 ^ 58))
      = 8159136801833071 / 2 ^ 63 :=
  fl_cert _ _ 63 8159136801833071 (by norm_num) (by norm_num) (by norm_num)
    (by norm_num) (by norm_num) (by norm_num)

theorem fl_prod_G :
    fl (5542891849071380 / 2 ^ 57 * (5851076635879748 / 2 ^ 58))
      = 7201325090313536 / 2 ^ 63 :=
  fl_cert _ _ 63 7201325090313536 (by norm_num) (by norm_num) (by norm_num)
    (by norm_num) (by norm_num) (by norm_num)

theorem fl_prod_H :
    fl (5542891849071380 / 2 ^ 57 * (8531619134090668 / 2 ^ 57))
      = 5250227159440411 / 2 ^ 61 :=
  fl_cert _ _ 61 5250227159440411 (by norm_num) (by norm_num) (by norm_num)
    (by norm_num) (by norm_num) (by norm_num)

theorem fl_prod_I :
    fl (5542891849071380 / 2 ^ 57 * (5267410124172532 / 2 ^ 56))
      = 6482966306673886 / 2 ^ 61 :=
  fl_cert _ _ 61 6482966306673886 (by norm_num) (by norm_num) (by norm_num)
    (by norm_num) (by norm_num) (by norm_num)

theorem fl_prod_J :
    fl (5542891849071380 / 2 ^ 57 * (4611686018427388 / 2 ^ 62))
      = 5675921253449093 / 2 ^ 67 :=
  fl_cert _ _ 67 5675921253449093 (by norm_num) (by norm_num) (by norm_num)
    (by norm_num) (by norm_num) (by norm_num)

theorem fl_prod_K :
    fl (5542891849071380 / 2 ^ 57 * (7955158381787244 / 2 ^ 60))
      = 4895482081099843 / 2 ^ 64 :=
  fl_cert _ _ 64 4895482081099843 (by norm_num) (by norm_num) (by norm_num)
    (by norm_num) (by norm_num) (by norm_num)

theorem fl_prod_L :
    fl (5542891849071380 / 2 ^ 57 * (5735784485419064 / 2 ^ 57))
      = 7059427058977310 / 2 ^ 62 :=
  fl_cert _ _ 62 7059427058977310 (by norm_num) (by norm_num) (by norm_num)
    (by norm_num) (by norm_num) (by norm_num)

theorem fl_prod_M :
    fl (5542891849071380 / 2 ^ 57 * (7522812817559677 / 2 ^ 58))
      = 4629423272344417 / 2 ^ 62 :=
  fl_cert _ _ 62 4629423272344417 (by norm_num) (by norm_num) (by norm_num)
    (by norm_num) (by norm_num) (by norm_num)

theorem fl_prod_N :
    fl (5542891849071380 / 2 ^ 57 * (5008002785635992 / 2 ^ 56))
      = 6163695736167375 / 2 ^ 61 :=
  fl_cert _ _ 61 6163695736167375 (by norm_num) (by norm_num) (by norm_num)
    (by norm_num) (by norm_num) (by norm_num)

theorem fl_prod_O :
    fl (5542891849071380 / 2 ^ 57 * (5534023222112865 / 2 ^ 56))
      = 6811105504138911 / 2 ^ 61 :=
  fl_cert _ _ 61 6811105504138911 (by norm_num) (by norm_num) (by norm_num)
    (by norm_num) (by norm_num) (by norm_num)

theorem fl_prod_P :
    fl (5542891849071380 / 2 ^ 57 * (5245792845961154 / 2 ^ 58))
      = 6456360425798344 / 2 ^ 63 :=
  fl_cert _ _ 63 6456360425798344 (by norm_num) (by norm_num) (by norm_num)
    (by norm_num) (by norm_num) (by norm_num)

theorem fl_prod_Q :
    fl (5542891849071380 / 2 ^ 57 * (5072854620270127 / 2 ^ 62))
      = 6243513378794003 / 2 ^ 67 :=
  fl_cert _ _ 67 6243513378794003 (by norm_num) (by norm_num) (by norm_num)
    (by norm_num) (by norm_num) (by norm_num)

theorem fl_prod_R :
    fl (5542891849071380 / 2 ^ 57 * (8675734322166523 / 2 ^ 57))
      = 5338913429025553 / 2 ^ 61 :=
  fl_cert _ _ 61 5338913429025553 (by norm_num) (by norm_num) (by norm_num)
    (by norm_num) (by norm_num) (by norm_num)

theorem fl_prod_S :
    fl (5542891849071380 / 2 ^ 57 * (4525216905581874 / 2 ^ 56))
      = 5569497729946922 / 2 ^ 61 :=
  fl_cert _ _ 61 5569497729946922 (by norm_num) (by norm_num) (by norm_num)
    (by norm_num) (by norm_num) (by norm_num)

theorem fl_prod_T :
    fl (5542891849071380 / 2 ^ 57 * (6557241057451442 / 2 ^ 56))
      = 8070450532247929 / 2 ^ 61 :=
  fl_cert _ _ 61 8070450532247929 (by norm_num) (by norm_num) (by norm_num)
    (by norm_num) (by norm_num) (by norm_num)

theorem fl_prod_U :
    fl (5542891849071380 / 2 ^ 57 * (8301034833169298 / 2 ^ 58))
      = 5108329128104184 / 2 ^ 62 :=
  fl_cert _ _ 62 5108329128104184 (by norm_num) (by norm_num) (by norm_num)
    (by norm_num) (by norm_num) (by norm_num)

theorem fl_prod_V :
    fl (5542891849071380 / 2 ^ 57 * (6398714350568001 / 2 ^ 59))
      = 7875340739160617 / 2 ^ 64 :=
  fl_cert _ _ 64 7875340739160617 (by norm_num) (by norm_num) (by norm_num)
    (by norm_num) (by norm_num) (by norm_num)

theorem fl_prod_W :
    fl (5542891849071380 / 2 ^ 57 * (6024014861570775 / 2 ^ 58))
      = 7414172137317877 / 2 ^ 63 :=
  fl_cert _ _ 63 7414172137317877 (by norm_num) (by norm_num) (by norm_num)
    (by norm_num) (by norm_num) (by norm_num)

theorem fl_prod_X :
    fl (5542891849071380 / 2 ^ 57 * (7839866231326559 / 2 ^ 62))
      = 4824533065431729 / 2 ^ 66 :=
  fl_cert _ _ 66 4824533065431729 (by norm_num) (by norm_num) (by norm_num)
    (by norm_num) (by norm_num) (by norm_num)

theorem fl_prod_Y :
    fl (5542891849071380 / 2 ^ 57 * (6081660936801118 / 2 ^ 58))
      = 7485121152985992 / 2 ^ 63 :=
  fl_cert _ _ 63 7485121152985992 (by norm_num) (by norm_num) (by norm_num)
    (by norm_num) (by norm_num) (by norm_num)

theorem fl_prod_Z :
    fl (5542891849071380 / 2 ^ 57 * (6456360425798343 / 2 ^ 63))
      = 7946289754828730 / 2 ^ 68 :=
  fl_cert _ _ 68 7946289754828730 (by norm_num) (by norm_num) (by norm_num)
    (by norm_num) (by norm_num) (by norm_num)

theorem fl_self_A :
    fl (7201325090313536 / 2 ^ 61)
      = 7201325090313536 / 2 ^ 61 :=
  fl_cert _ _ 61 7201325090313536 (by norm_num) (by norm_num) (by norm_num)
    (by norm_num) (by norm_num) (by norm_num)

theorem fl_self_B :
    fl (5285701667274468 / 2 ^ 63)
      = 5285701667274468 / 2 ^ 63 :=
  fl_cert _ _ 63 5285701667274468 (by norm_num) (by norm_num) (by norm_num)
    (by norm_num) (by norm_num) (by norm_num)

theorem fl_self_C :
    fl (4806795811514701 / 2 ^ 62)
      = 4806795811514701 / 2 ^ 62 :=
  fl_cert _ _ 62 4806795811514701 (by norm_num) (by norm_num) (by norm_num)
    (by norm_num) (by norm_num) (by norm_num)

theorem fl_self_D :
    fl (7662493692156276 / 2 ^ 62)
      = 7662493692156276 / 2 ^ 62 :=
  fl_cert _ _ 62 7662493692156276 (by norm_num) (by norm_num) (by norm_num)
    (by norm_num) (by norm_num) (by norm_num)

theorem fl_self_E :
    fl (5330044802067039 / 2 ^ 60)
      = 5330044802067039 / 2 ^ 60 :=
  fl_cert _ _ 60 5330044802067039 (by norm_num) (by norm_num) (by norm_num)
    (by norm_num) (by norm_num) (by norm_num)

theorem fl_self_F :
    fl (8159136801833071 / 2 ^ 63)
      = 8159136801833071 / 2 ^ 63 :=
  fl_cert _ _ 63 8159136801833071 (by norm_num) (by norm_num) (by norm_num)
    (by norm_num) (by norm_num) (by norm_num)

theorem fl_self_G :
    fl (7201325090313536 / 2 ^ 63)
      = 7201325090313536 / 2 ^ 63 :=
  fl_cert _ _ 63 7201325090313536 (by norm_num) (by norm_num) (by norm_num)
    (by norm_num) (by norm_num) (by norm_num)

theorem fl_self_H :
    fl (5250227159440411 / 2 ^ 61)
      = 5250227159440411 / 2 ^ 61 :=
  fl_cert _ _ 61 5250227159440411 (by norm_num) (by norm_num) (by norm_num)
    (by norm_num) (by norm_num) (by norm_num)

theorem fl_self_I :
    fl (6482966306673886 / 2 ^ 61)
      = 6482966306673886 / 2 ^ 61 :=
  fl_cert _ _ 61 6482966306673886 (by norm_num) (by norm_num) (by norm_num)
    (by norm_num) (by norm_num) (by norm_num)

theorem fl_self_J :
    fl (5675921253449093 / 2 ^ 67)
      = 5675921253449093 / 2 ^ 67 :=
  fl_cert _ _ 67 5675921253449093 (by norm_num) (by norm_num) (by norm_num)
    (by norm_num) (by norm_num) (by norm_num)

theorem fl_self_K :
    fl (4895482081099843 / 2 ^ 64)
      = 4895482081099843 / 2 ^ 64 :=
  fl_cert _ _ 64 4895482081099843 (by norm_num) (by norm_num) (by norm_num)
    (by norm_num) (by norm_num) (by norm_num)

theorem fl_self_L :
    fl (7059427058977310 / 2 ^ 62)
      = 7059427058977310 / 2 ^ 62 :=
  fl_cert _ _ 62 7059427058977310 (by norm_num) (by norm_num) (by norm_num)
    (by norm_num) (by norm_num) (by norm_num)

theorem fl_self_M :
    fl (4629423272344417 / 2 ^ 62)
      = 4629423272344417 / 2 ^ 62 :=
  fl_cert _ _ 62 4629423272344417 (by norm_num) (by norm_num) (by norm_num)
    (by norm_num) (by norm_num) (by norm_num)

theorem fl_self_N :
    fl (6163695736167375 / 2 ^ 61)
      = 6163695736167375 / 2 ^ 61 :=
  fl_cert _ _ 61 6163695736167375 (by norm_num) (by norm_num) (by norm_num)
    (by norm_num) (by norm_num) (by norm_num)

theorem fl_self_O :
    fl (6811105504138911 / 2 ^ 61)
      = 6811105504138911 / 2 ^ 61 :=
  fl_cert _ _ 61 6811105504138911 (by norm_num) (by norm_num) (by norm_num)
    (by norm_num) (by norm_num) (by norm_num)

theorem fl_self_P :
    fl (6456360425798344 / 2 ^ 63)
      = 6456360425798344 / 2 ^ 63 :=
  fl_cert _ _ 63 6456360425798344 (by norm_num) (by norm_num) (by norm_num)
    (by norm_num) (by norm_num) (by norm_num)

theorem fl_self_Q :
    fl (6243513378794003 / 2 ^ 67)
      = 6243513378794003 / 2 ^ 67 :=
  fl_cert _ _ 67 6243513378794003 (by norm_num) (by norm_num) (by norm_num)
    (by norm_num) (by norm_num) (by norm_num)

theorem fl_self_R :
    fl (5338913429025553 / 2 ^ 61)
      = 5338913429025553 / 2 ^ 61 :=
  fl_cert _ _ 61 5338913429025553 (by norm_num) (by norm_num) (by norm_num)
    (by norm_num) (by norm_num) (by norm_num)

theorem fl_self_S :
    fl (5569497729946922 / 2 ^ 61)
      = 5569497729946922 / 2 ^ 61 :=
  fl_cert _ _ 61 5569497729946922 (by norm_num) (by norm_num) (by norm_num)
    (by norm_num) (by norm_num) (by norm_num)

theorem fl_self_T :
    fl (8070450532247929 / 2 ^ 61)
      = 8070450532247929 / 2 ^ 61 :=
  fl_cert _ _ 61 8070450532247929 (by norm_num) (by norm_num) (by norm_num)
    (by norm_num) (by norm_num) (by norm_num)

theorem fl_self_U :
    fl (5108329128104184 / 2 ^ 62)
      = 5108329128104184 / 2 ^ 62 :=
  fl_cert _ _ 62 5108329128104184 (by norm_num) (by norm_num) (by norm_num)
    (by norm_num) (by norm_num) (by norm_num)

theorem fl_self_V :
    fl (7875340739160617 / 2 ^ 64)
      = 7875340739160617 / 2 ^ 64 :=
  fl_cert _ _ 64 7875340739160617 (by norm_num) (by norm_num) (by norm_num)
    (by norm_num) (by norm_num) (by norm_num)

theorem fl_self_W :
    fl (7414172137317877 / 2 ^ 63)
      = 7414172137317877 / 2 ^ 63 :=
  fl_cert _ _ 63 7414172137317877 (by norm_num) (by norm_num) (by norm_num)
    (by norm_num) (by norm_num) (by norm_num)

theorem fl_self_X :
    fl (4824533065431729 / 2 ^ 66)
      = 4824533065431729 / 2 ^ 66 :=
  fl_cert _ _ 66 4824533065431729 (by norm_num) (by norm_num) (by norm_num)
    (by norm_num) (by norm_num) (by norm_num)

theorem fl_self_Y :
    fl (7485121152985992 / 2 ^ 63)
      = 7485121152985992 / 2 ^ 63 :=
  fl_cert _ _ 63 7485121152985992 (by norm_num) (by norm_num) (by norm_num)
    (by norm_num) (by norm_num) (by norm_num)

theorem fl_self_Z :
    fl (7946289754828730 / 2 ^ 68)
      = 7946289754828730 / 2 ^ 68 :=
  fl_cert _ _ 68 7946289754828730 (by norm_num) (by norm_num) (by norm_num)
    (by norm_num) (by norm_num) (by norm_num)

/-! The partial sums of the text `l l m m`, for every letter `l` and the letter `m` thirteen
places further. -/

theorem fl_sum2_A :
    fl (7201325090313536 / 2 ^ 61 + 7201325090313536 / 2 ^ 61)
      = 7201325090313536 / 2 ^ 60 :=
  fl_cert _ _ 60 7201325090313536 (by norm_num) (by norm_num) (by norm_num)
    (by norm_num) (by norm_num) (by norm_num)

theorem fl_sum3_A :
    fl (7201325090313536 / 2 ^ 60 + 6163695736167375 / 2 ^ 61)
      = 5141586479198612 / 2 ^ 59 :=
  fl_cert _ _ 59 5141586479198612 (by norm_num) (by norm_num) (by norm_num)
    (by norm_num) (by norm_num) (by norm_num)

theorem fl_sum4_A :
    fl (5141586479198612 / 2 ^ 59 + 6163695736167375 / 2 ^ 61)
      = 6682510413240456 / 2 ^ 59 :=
  fl_cert _ _ 59 6682510413240456 (by norm_num) (by norm_num) (by norm_num)
    (by norm_num) (by norm_num) (by norm_num)

theorem fl_sum2_B :
    fl (5285701667274468 / 2 ^ 63 + 5285701667274468 / 2 ^ 63)
      = 5285701667274468 / 2 ^ 62 :=
  fl_cert _ _ 62 5285701667274468 (by norm_num) (by norm_num) (by norm_num)
    (by norm_num) (by norm_num) (by norm_num)

theorem fl_sum3_B :
    fl (5285701667274468 / 2 ^ 62 + 6811105504138911 / 2 ^ 61)
      = 4726978168888072 / 2 ^ 60 :=
  fl_cert_even _ _ 60 4726978168888072 (by norm_num) (by norm_num) (by norm_num)
    (by norm_num) (by decide) (by norm_num) (by norm_num)

theorem fl_sum4_B :
    fl (4726978168888072 / 2 ^ 60 + 6811105504138911 / 2 ^ 61)
      = 8132530920957528 / 2 ^ 60 :=
  fl_cert_even _ _ 60 8132530920957528 (by norm_num) (by norm_num) (by norm_num)
    (by norm_num) (by decide) (by norm_num) (by norm_num)

theorem fl_sum2_C :
    fl (4806795811514701 / 2 ^ 62 + 4806795811514701 / 2 ^ 62)
      = 4806795811514701 / 2 ^ 61 :=
  fl_cert _ _ 61 4806795811514701 (by norm_num) (by norm_num) (by norm_num)
    (by norm_num) (by norm_num) (by norm_num)

theorem fl_sum3_C :
    fl (4806795811514701 / 2 ^ 61 + 6456360425798344 / 2 ^ 63)
      = 6420885917964287 / 2 ^ 61 :=
  fl_cert _ _ 61 6420885917964287 (by norm_num) (by norm_num) (by norm_num)
    (by norm_num) (by norm_num) (by norm_num)

theorem fl_sum4_C :
    fl (6420885917964287 / 2 ^ 61 + 6456360425798344 / 2 ^ 63)
      = 8034976024413873 / 2 ^ 61 :=
  fl_cert _ _ 61 8034976024413873 (by norm_num) (by norm_num) (by norm_num)
    (by norm_num) (by norm_num) (by norm_num)

theorem fl_sum2_D :
    fl (7662493692156276 / 2 ^ 62 + 7662493692156276 / 2 ^ 62)
      = 7662493692156276 / 2 ^ 61 :=
  fl_cert _ _ 61 7662493692156276 (by norm_num) (by norm_num) (by norm_num)
    (by norm_num) (by norm_num) (by norm_num)

theorem fl_sum3_D :
    fl (7662493692156276 / 2 ^ 61 + 6243513378794003 / 2 ^ 67)
      = 7760048588699932 / 2 ^ 61 :=
  fl_cert _ _ 61 7760048588699932 (by norm_num) (by norm_num) (by norm_num)
    (by norm_num) (by norm_num) (by norm_num)

theorem fl_sum4_D :
    fl (7760048588699932 / 2 ^ 61 + 6243513378794003 / 2 ^ 67)
      = 7857603485243588 / 2 ^ 61 :=
  fl_cert _ _ 61 7857603485243588 (by norm_num) (by norm_num) (by norm_num)
    (by norm_num) (by norm_num) (by norm_num)

theorem fl_sum2_E :
    fl (5330044802067039 / 2 ^ 60 + 5330044802067039 / 2 ^ 60)
      = 5330044802067039 / 2 ^ 59 :=
  fl_cert _ _ 59 5330044802067039 (by norm_num) (by norm_num) (by norm_num)
    (by norm_num) (by norm_num) (by norm_num)

theorem fl_sum3_E :
    fl (5330044802067039 / 2 ^ 59 + 5338913429025553 / 2 ^ 61)
      = 6664773159323427 / 2 ^ 59 :=
  fl_cert _ _ 59 6664773159323427 (by norm_num) (by norm_num) (by norm_num)
    (by norm_num) (by norm_num) (by norm_num)

theorem fl_sum4_E :
    fl (6664773159323427 / 2 ^ 59 + 5338913429025553 / 2 ^ 61)
      = 7999501516579815 / 2 ^ 59 :=
  fl_cert _ _ 59 7999501516579815 (by norm_num) (by norm_num) (by norm_num)
    (by norm_num) (by norm_num) (by norm_num)

theorem fl_sum2_F :
    fl (8159136801833071 / 2 ^ 63 + 8159136801833071 / 2 ^ 63)
      = 8159136801833071 / 2 ^ 62 :=
  fl_cert _ _ 62 8159136801833071 (by norm_num) (by norm_num) (by norm_num)
    (by norm_num) (by norm_num) (by norm_num)

theorem fl_sum3_F :
    fl (8159136801833071 / 2 ^ 62 + 5569497729946922 / 2 ^ 61)
      = 4824533065431729 / 2 ^ 60 :=
  fl_cert _ _ 60 4824533065431729 (by norm_num) (by norm_num) (by norm_num)
    (by norm_num) (by norm_num) (by norm_num)

theorem fl_sum4_F :
    fl (4824533065431729 / 2 ^ 60 + 5569497729946922 / 2 ^ 61)
      = 7609281930405190 / 2 ^ 60 :=
  fl_cert _ _ 60 7609281930405190 (by norm_num) (by norm_num) (by norm_num)
    (by norm_num) (by norm_num) (by norm_num)

theorem fl_sum2_G :
    fl (7201325090313536 / 2 ^ 63 + 7201325090313536 / 2 ^ 63)
      = 7201325090313536 / 2 ^ 62 :=
  fl_cert _ _ 62 7201325090313536 (by norm_num) (by norm_num) (by norm_num)
    (by norm_num) (by norm_num) (by norm_num)

theorem fl_sum3_G :
    fl (7201325090313536 / 2 ^ 62 + 8070450532247929 / 2 ^ 61)
      = 5835556538702348 / 2 ^ 60 :=
  fl_cert_even _ _ 60 5835556538702348 (by norm_num) (by norm_num) (by norm_num)
    (by norm_num) (by decide) (by norm_num) (by norm_num)

theorem fl_sum4_G :
    fl (5835556538702348 / 2 ^ 60 + 8070450532247929 / 2 ^ 61)
      = 4935390902413156 / 2 ^ 59 :=
  fl_cert _ _ 59 4935390902413156 (by norm_num) (by norm_num) (by norm_num)
    (by norm_num) (by norm_num) (by norm_num)

theorem fl_sum2_H :
    fl (5250227159440411 / 2 ^ 61 + 5250227159440411 / 2 ^ 61)
      = 5250227159440411 / 2 ^ 60 :=
  fl_cert _ _ 60 5250227159440411 (by norm_num) (by norm_num) (by norm_num)
    (by norm_num) (by norm_num) (by norm_num)

theorem fl_sum3_H :
    fl (5250227159440411 / 2 ^ 60 + 5108329128104184 / 2 ^ 62)
      = 6527309441466457 / 2 ^ 60 :=
  fl_cert _ _ 60 6527309441466457 (by norm_num) (by norm_num) (by norm_num)
    (by norm_num) (by norm_num) (by norm_num)

theorem fl_sum4_H :
    fl (6527309441466457 / 2 ^ 60 + 5108329128104184 / 2 ^ 62)
      = 7804391723492503 / 2 ^ 60 :=
  fl_cert _ _ 60 7804391723492503 (by norm_num) (by norm_num) (by norm_num)
    (by norm_num) (by norm_num) (by norm_num)

theorem fl_sum2_I :
    fl (6482966306673886 / 2 ^ 61 + 6482966306673886 / 2 ^ 61)
      = 6482966306673886 / 2 ^ 60 :=
  fl_cert _ _ 60 6482966306673886 (by norm_num) (by norm_num) (by norm_num)
    (by norm_num) (by norm_num) (by norm_num)

theorem fl_sum3_I :
    fl (6482966306673886 / 2 ^ 60 + 7875340739160617 / 2 ^ 64)
      = 6975175102871425 / 2 ^ 60 :=
  fl_cert _ _ 60 6975175102871425 (by norm_num) (by norm_num) (by norm_num)
    (by norm_num) (by norm_num) (by norm_num)

theorem fl_sum4_I :
    fl (6975175102871425 / 2 ^ 60 + 7875340739160617 / 2 ^ 64)
      = 7467383899068964 / 2 ^ 60 :=
  fl_cert _ _ 60 7467383899068964 (by norm_num) (by norm_num) (by norm_num)
    (by norm_num) (by norm_num) (by norm_num)

theorem fl_sum2_J :
    fl (5675921253449093 / 2 ^ 67 + 5675921253449093 / 2 ^ 67)
      = 5675921253449093 / 2 ^ 66 :=
  fl_cert _ _ 66 5675921253449093 (by norm_num) (by norm_num) (by norm_num)
    (by norm_num) (by norm_num) (by norm_num)

theorem fl_sum3_J :
    fl (5675921253449093 / 2 ^ 66 + 7414172137317877 / 2 ^ 63)
      = 8123662293999014 / 2 ^ 63 :=
  fl_cert _ _ 63 8123662293999014 (by norm_num) (by norm_num) (by norm_num)
    (by norm_num) (by norm_num) (by norm_num)

theorem fl_sum4_J :
    fl (8123662293999014 / 2 ^ 63 + 7414172137317877 / 2 ^ 63)
      = 7768917215658446 / 2 ^ 62 :=
  fl_cert_even _ _ 62 7768917215658446 (by norm_num) (by norm_num) (by norm_num)
    (by norm_num) (by decide) (by norm_num) (by norm_num)

theorem fl_sum2_K :
    fl (4895482081099843 / 2 ^ 64 + 4895482081099843 / 2 ^ 64)
      = 4895482081099843 / 2 ^ 63 :=
  fl_cert _ _ 63 4895482081099843 (by norm_num) (by norm_num) (by norm_num)
    (by norm_num) (by norm_num) (by norm_num)

theorem fl_sum3_K :
    fl (4895482081099843 / 2 ^ 63 + 4824533065431729 / 2 ^ 66)
      = 5498548714278809 / 2 ^ 63 :=
  fl_cert _ _ 63 5498548714278809 (by norm_num) (by norm_num) (by norm_num)
    (by norm_num) (by norm_num) (by norm_num)

theorem fl_sum4_K :
    fl (5498548714278809 / 2 ^ 63 + 4824533065431729 / 2 ^ 66)
      = 6101615347457775 / 2 ^ 63 :=
  fl_cert _ _ 63 6101615347457775 (by norm_num) (by norm_num) (by norm_num)
    (by norm_num) (by norm_num) (by norm_num)

theorem fl_sum2_L :
    fl (7059427058977310 / 2 ^ 62 + 7059427058977310 / 2 ^ 62)
      = 7059427058977310 / 2 ^ 61 :=
  fl_cert _ _ 61 7059427058977310 (by norm_num) (by norm_num) (by norm_num)
    (by norm_num) (by norm_num) (by norm_num)

theorem fl_sum3_L :
    fl (7059427058977310 / 2 ^ 61 + 7485121152985992 / 2 ^ 63)
      = 8930707347223808 / 2 ^ 61 :=
  fl_cert _ _ 61 8930707347223808 (by norm_num) (by norm_num) (by norm_num)
    (by norm_num) (by norm_num) (by norm_num)

theorem fl_sum4_L :
    fl (8930707347223808 / 2 ^ 61 + 7485121152985992 / 2 ^ 63)
      = 5400993817735153 / 2 ^ 60 :=
  fl_cert _ _ 60 5400993817735153 (by norm_num) (by norm_num) (by norm_num)
    (by norm_num) (by norm_num) (by norm_num)

theorem fl_sum2_M :
    fl (4629423272344417 / 2 ^ 62 + 4629423272344417 / 2 ^ 62)
      = 4629423272344417 / 2 ^ 61 :=
  fl_cert _ _ 61 4629423272344417 (by norm_num) (by norm_num) (by norm_num)
    (by norm_num) (by norm_num) (by norm_num)

theorem fl_sum3_M :
    fl (4629423272344417 / 2 ^ 61 + 7946289754828730 / 2 ^ 68)
      = 4691503661054016 / 2 ^ 61 :=
  fl_cert _ _ 61 4691503661054016 (by norm_num) (by norm_num) (by norm_num)
    (by norm_num) (by norm_num) (by norm_num)

theorem fl_sum4_M :
    fl (4691503661054016 / 2 ^ 61 + 7946289754828730 / 2 ^ 68)
      = 4753584049763615 / 2 ^ 61 :=
  fl_cert _ _ 61 4753584049763615 (by norm_num) (by norm_num) (by norm_num)
    (by norm_num) (by norm_num) (by norm_num)

theorem fl_sum2_N :
    fl (6163695736167375 / 2 ^ 61 + 6163695736167375 / 2 ^ 61)
      = 6163695736167375 / 2 ^ 60 :=
  fl_cert _ _ 60 6163695736167375 (by norm_num) (by norm_num) (by norm_num)
    (by norm_num) (by norm_num) (by norm_num)

theorem fl_sum3_N :
    fl (6163695736167375 / 2 ^ 60 + 7201325090313536 / 2 ^ 61)
      = 4882179140662072 / 2 ^ 59 :=
  fl_cert_even _ _ 59 4882179140662072 (by norm_num) (by norm_num) (by norm_num)
    (by norm_num) (by decide) (by norm_num) (by norm_num)

theorem fl_sum4_N :
    fl (4882179140662072 / 2 ^ 59 + 7201325090313536 / 2 ^ 61)
      = 6682510413240456 / 2 ^ 59 :=
  fl_cert _ _ 59 6682510413240456 (by norm_num) (by norm_num) (by norm_num)
    (by norm_num) (by norm_num) (by norm_num)

theorem fl_sum2_O :
    fl (6811105504138911 / 2 ^ 61 + 6811105504138911 / 2 ^ 61)
      = 6811105504138911 / 2 ^ 60 :=
  fl_cert _ _ 60 6811105504138911 (by norm_num) (by norm_num) (by norm_num)
    (by norm_num) (by norm_num) (by norm_num)

theorem fl_sum3_O :
    fl (6811105504138911 / 2 ^ 60 + 5285701667274468 / 2 ^ 63)
      = 7471818212548220 / 2 ^ 60 :=
  fl_cert_even _ _ 60 7471818212548220 (by norm_num) (by norm_num) (by norm_num)
    (by norm_num) (by decide) (by norm_num) (by norm_num)

theorem fl_sum4_O :
    fl (7471818212548220 / 2 ^ 60 + 5285701667274468 / 2 ^ 63)
      = 8132530920957528 / 2 ^ 60 :=
  fl_cert_even _ _ 60 8132530920957528 (by norm_num) (by norm_num) (by norm_num)
    (by norm_num) (by decide) (by norm_num) (by norm_num)

theorem fl_sum2_P :
    fl (6456360425798344 / 2 ^ 63 + 6456360425798344 / 2 ^ 63)
      = 6456360425798344 / 2 ^ 62 :=
  fl_cert _ _ 62 6456360425798344 (by norm_num) (by norm_num) (by norm_num)
    (by norm_num) (by norm_num) (by norm_num)

theorem fl_sum3_P :
    fl (6456360425798344 / 2 ^ 62 + 4806795811514701 / 2 ^ 62)
      = 5631578118656522 / 2 ^ 61 :=
  fl_cert_even _ _ 61 5631578118656522 (by norm_num) (by norm_num) (by norm_num)
    (by norm_num) (by decide) (by norm_num) (by norm_num)

theorem fl_sum4_P :
    fl (5631578118656522 / 2 ^ 61 + 4806795811514701 / 2 ^ 62)
      = 8034976024413872 / 2 ^ 61 :=
  fl_cert_even _ _ 61 8034976024413872 (by norm_num) (by norm_num) (by norm_num)
    (by norm_num) (by decide) (by norm_num) (by norm_num)

theorem fl_sum2_Q :
    fl (6243513378794003 / 2 ^ 67 + 6243513378794003 / 2 ^ 67)
      = 6243513378794003 / 2 ^ 66 :=
  fl_cert _ _ 66 6243513378794003 (by norm_num) (by norm_num) (by norm_num)
    (by norm_num) (by norm_num) (by norm_num)

theorem fl_sum3_Q :
    fl (6243513378794003 / 2 ^ 66 + 7662493692156276 / 2 ^ 62)
      = 8052713278330901 / 2 ^ 62 :=
  fl_cert _ _ 62 8052713278330901 (by norm_num) (by norm_num) (by norm_num)
    (by norm_num) (by norm_num) (by norm_num)

theorem fl_sum4_Q :
    fl (8052713278330901 / 2 ^ 62 + 7662493692156276 / 2 ^ 62)
      = 7857603485243588 / 2 ^ 61 :=
  fl_cert_even _ _ 61 7857603485243588 (by norm_num) (by norm_num) (by norm_num)
    (by norm_num) (by decide) (by norm_num) (by norm_num)

theorem fl_sum2_R :
    fl (5338913429025553 / 2 ^ 61 + 5338913429025553 / 2 ^ 61)
      = 5338913429025553 / 2 ^ 60 :=
  fl_cert _ _ 60 5338913429025553 (by norm_num) (by norm_num) (by norm_num)
    (by norm_num) (by norm_num) (by norm_num)

theorem fl_sum3_R :
    fl (5338913429025553 / 2 ^ 60 + 5330044802067039 / 2 ^ 60)
      = 5334479115546296 / 2 ^ 59 :=
  fl_cert _ _ 59 5334479115546296 (by norm_num) (by norm_num) (by norm_num)
    (by norm_num) (by norm_num) (by norm_num)

theorem fl_sum4_R :
    fl (5334479115546296 / 2 ^ 59 + 5330044802067039 / 2 ^ 60)
      = 7999501516579816 / 2 ^ 59 :=
  fl_cert_even _ _ 59 7999501516579816 (by norm_num) (by norm_num) (by norm_num)
    (by norm_num) (by decide) (by norm_num) (by norm_num)

theorem fl_sum2_S :
    fl (5569497729946922 / 2 ^ 61 + 5569497729946922 / 2 ^ 61)
      = 5569497729946922 / 2 ^ 60 :=
  fl_cert _ _ 60 5569497729946922 (by norm_num) (by norm_num) (by norm_num)
    (by norm_num) (by norm_num) (by norm_num)

theorem fl_sum3_S :
    fl (5569497729946922 / 2 ^ 60 + 8159136801833071 / 2 ^ 63)
      = 6589389830176056 / 2 ^ 60 :=
  fl_cert _ _ 60 6589389830176056 (by norm_num) (by norm_num) (by norm_num)
    (by norm_num) (by norm_num) (by norm_num)

theorem fl_sum4_S :
    fl (6589389830176056 / 2 ^ 60 + 8159136801833071 / 2 ^ 63)
      = 7609281930405190 / 2 ^ 60 :=
  fl_cert _ _ 60 7609281930405190 (by norm_num) (by norm_num) (by norm_num)
    (by norm_num) (by norm_num) (by norm_num)

theorem fl_sum2_T :
    fl (8070450532247929 / 2 ^ 61 + 8070450532247929 / 2 ^ 61)
      = 8070450532247929 / 2 ^ 60 :=
  fl_cert _ _ 60 8070450532247929 (by norm_num) (by norm_num) (by norm_num)
    (by norm_num) (by norm_num) (by norm_num)

theorem fl_sum3_T :
    fl (8070450532247929 / 2 ^ 60 + 7201325090313536 / 2 ^ 63)
      = 8970616168537121 / 2 ^ 60 :=
  fl_cert _ _ 60 8970616168537121 (by norm_num) (by norm_num) (by norm_num)
    (by norm_num) (by norm_num) (by norm_num)

theorem fl_sum4_T :
    fl (8970616168537121 / 2 ^ 60 + 7201325090313536 / 2 ^ 63)
      = 4935390902413156 / 2 ^ 59 :=
  fl_cert_even _ _ 59 4935390902413156 (by norm_num) (by norm_num) (by norm_num)
    (by norm_num) (by decide) (by norm_num) (by norm_num)

theorem fl_sum2_U :
    fl (5108329128104184 / 2 ^ 62 + 5108329128104184 / 2 ^ 62)
      = 5108329128104184 / 2 ^ 61 :=
  fl_cert _ _ 61 5108329128104184 (by norm_num) (by norm_num) (by norm_num)
    (by norm_num) (by norm_num) (by norm_num)

theorem fl_sum3_U :
    fl (5108329128104184 / 2 ^ 61 + 5250227159440411 / 2 ^ 61)
      = 5179278143772298 / 2 ^ 60 :=
  fl_cert_even _ _ 60 5179278143772298 (by norm_num) (by norm_num) (by norm_num)
    (by norm_num) (by decide) (by norm_num) (by norm_num)

theorem fl_sum4_U :
    fl (5179278143772298 / 2 ^ 60 + 5250227159440411 / 2 ^ 61)
      = 7804391723492504 / 2 ^ 60 :=
  fl_cert_even _ _ 60 7804391723492504 (by norm_num) (by norm_num) (by norm_num)
    (by norm_num) (by decide) (by norm_num) (by norm_num)

theorem fl_sum2_V :
    fl (7875340739160617 / 2 ^ 64 + 7875340739160617 / 2 ^ 64)
      = 7875340739160617 / 2 ^ 63 :=
  fl_cert _ _ 63 7875340739160617 (by norm_num) (by norm_num) (by norm_num)
    (by norm_num) (by norm_num) (by norm_num)

theorem fl_sum3_V :
    fl (7875340739160617 / 2 ^ 63 + 6482966306673886 / 2 ^ 61)
      = 8451801491464040 / 2 ^ 61 :=
  fl_cert _ _ 61 8451801491464040 (by norm_num) (by norm_num) (by norm_num)
    (by norm_num) (by norm_num) (by norm_num)

theorem fl_sum4_V :
    fl (8451801491464040 / 2 ^ 61 + 6482966306673886 / 2 ^ 61)
      = 7467383899068963 / 2 ^ 60 :=
  fl_cert _ _ 60 7467383899068963 (by norm_num) (by norm_num) (by norm_num)
    (by norm_num) (by norm_num) (by norm_num)

theorem fl_sum2_W :
    fl (7414172137317877 / 2 ^ 63 + 7414172137317877 / 2 ^ 63)
      = 7414172137317877 / 2 ^ 62 :=
  fl_cert _ _ 62 7414172137317877 (by norm_num) (by norm_num) (by norm_num)
    (by norm_num) (by norm_num) (by norm_num)

theorem fl_sum3_W :
    fl (7414172137317877 / 2 ^ 62 + 5675921253449093 / 2 ^ 67)
      = 7591544676488161 / 2 ^ 62 :=
  fl_cert _ _ 62 7591544676488161 (by norm_num) (by norm_num) (by norm_num)
    (by norm_num) (by norm_num) (by norm_num)

theorem fl_sum4_W :
    fl (7591544676488161 / 2 ^ 62 + 5675921253449093 / 2 ^ 67)
      = 7768917215658445 / 2 ^ 62 :=
  fl_cert _ _ 62 7768917215658445 (by norm_num) (by norm_num) (by norm_num)
    (by norm_num) (by norm_num) (by norm_num)

theorem fl_sum2_X :
    fl (4824533065431729 / 2 ^ 66 + 4824533065431729 / 2 ^ 66)
      = 4824533065431729 / 2 ^ 65 :=
  fl_cert _ _ 65 4824533065431729 (by norm_num) (by norm_num) (by norm_num)
    (by norm_num) (by norm_num) (by norm_num)

theorem fl_sum3_X :
    fl (4824533065431729 / 2 ^ 65 + 4895482081099843 / 2 ^ 64)
      = 7307748613815708 / 2 ^ 64 :=
  fl_cert_even _ _ 64 7307748613815708 (by norm_num) (by norm_num) (by norm_num)
    (by norm_num) (by decide) (by norm_num) (by norm_num)

theorem fl_sum4_X :
    fl (7307748613815708 / 2 ^ 64 + 4895482081099843 / 2 ^ 64)
      = 6101615347457776 / 2 ^ 63 :=
  fl_cert_even _ _ 63 6101615347457776 (by norm_num) (by norm_num) (by norm_num)
    (by norm_num) (by decide) (by norm_num) (by norm_num)

theorem fl_sum2_Y :
    fl (7485121152985992 / 2 ^ 63 + 7485121152985992 / 2 ^ 63)
      = 7485121152985992 / 2 ^ 62 :=
  fl_cert _ _ 62 7485121152985992 (by norm_num) (by norm_num) (by norm_num)
    (by norm_num) (by norm_num) (by norm_num)

theorem fl_sum3_Y :
    fl (7485121152985992 / 2 ^ 62 + 7059427058977310 / 2 ^ 62)
      = 7272274105981651 / 2 ^ 61 :=
  fl_cert _ _ 61 7272274105981651 (by norm_num) (by norm_num) (by norm_num)
    (by norm_num) (by norm_num) (by norm_num)

theorem fl_sum4_Y :
    fl (7272274105981651 / 2 ^ 61 + 7059427058977310 / 2 ^ 62)
      = 5400993817735153 / 2 ^ 60 :=
  fl_cert _ _ 60 5400993817735153 (by norm_num) (by norm_num) (by norm_num)
    (by norm_num) (by norm_num) (by norm_num)

theorem fl_sum2_Z :
    fl (7946289754828730 / 2 ^ 68 + 7946289754828730 / 2 ^ 68)
      = 7946289754828730 / 2 ^ 67 :=
  fl_cert _ _ 67 7946289754828730 (by norm_num) (by norm_num) (by norm_num)
    (by norm_num) (by norm_num) (by norm_num)

theorem fl_sum3_Z :
    fl (7946289754828730 / 2 ^ 67 + 4629423272344417 / 2 ^ 62)
      = 4877744827182815 / 2 ^ 62 :=
  fl_cert _ _ 62 4877744827182815 (by norm_num) (by norm_num) (by norm_num)
    (by norm_num) (by norm_num) (by norm_num)

theorem fl_sum4_Z :
    fl (4877744827182815 / 2 ^ 62 + 4629423272344417 / 2 ^ 62)
      = 4753584049763616 / 2 ^ 61 :=
  fl_cert _ _ 61 4753584049763616 (by norm_num) (by norm_num) (by norm_num)
    (by norm_num) (by norm_num) (by norm_num)

/-! The computed and the exact correlation of each of the 26 trial shifts. -/

theorem trial_EERR_0 :
    corrVal (shift "EERR".toList ((0 : Nat) : Int)) (getLetterFrequencies alphabet)
      = 7999501516579815 / 2 ^ 59 :=
  corrVal_pairs _ _ 'E' 'R' _ _ _ _ _ _ _ _ rfl
    (uniform_profile 'E' (by decide)) (uniform_profile 'R' (by decide)) ref_E ref_R
    fl_prod_E fl_prod_R fl_self_E fl_sum2_E fl_sum3_E fl_sum4_E

theorem trial_EERR_1 :
    corrVal (shift "EERR".toList ((1 : Nat) : Int)) (getLetterFrequencies alphabet)
      = 7857603485243588 / 2 ^ 61 :=
  corrVal_pairs _ _ 'D' 'Q' _ _ _ _ _ _ _ _ rfl
    (uniform_profile 'D' (by decide)) (uniform_profile 'Q' (by decide)) ref_D ref_Q
    fl_prod_D fl_prod_Q fl_self_D fl_sum2_D fl_sum3_D fl_sum4_D

theorem trial_EERR_2 :
    corrVal (shift "EERR".toList ((2 : Nat) : Int)) (getLetterFrequencies alphabet)
      = 8034976024413873 / 2 ^ 61 :=
  corrVal_pairs _ _ 'C' 'P' _ _ _ _ _ _ _ _ rfl
    (uniform_profile 'C' (by decide)) (uniform_profile 'P' (by decide)) ref_C ref_P
    fl_prod_C fl_prod_P fl_self_C fl_sum2_C fl_sum3_C fl_sum4_C

theorem trial_EERR_3 :
    corrVal (shift "EERR".toList ((3 : Nat) : Int)) (getLetterFrequencies alphabet)
      = 8132530920957528 / 2 ^ 60 :=
  corrVal_pairs _ _ 'B' 'O' _ _ _ _ _ _ _ _ rfl
    (uniform_profile 'B' (by decide)) (uniform_profile 'O' (by decide)) ref_B ref_O
    fl_prod_B fl_prod_O fl_self_B fl_sum2_B fl_sum3_B fl_sum4_B

theorem trial_EERR_4 :
    corrVal (shift "EERR".toList ((4 : Nat) : Int)) (getLetterFrequencies alphabet)
      = 6682510413240456 / 2 ^ 59 :=
  corrVal_pairs _ _ 'A' 'N' _ _ _ _ _ _ _ _ rfl
    (uniform_profile 'A' (by decide)) (uniform_profile 'N' (by decide)) ref_A ref_N
    fl_prod_A fl_prod_N fl_self_A fl_sum2_A fl_sum3_A fl_sum4_A

theorem trial_EERR_5 :
    corrVal (shift "EERR".toList ((5 : Nat) : Int)) (getLetterFrequencies alphabet)
      = 4753584049763616 / 2 ^ 61 :=
  corrVal_pairs _ _ 'Z' 'M' _ _ _ _ _ _ _ _ rfl
    (uniform_profile 'Z' (by decide)) (uniform_profile 'M' (by decide)) ref_Z ref_M
    fl_prod_Z fl_prod_M fl_self_Z fl_sum2_Z fl_sum3_Z fl_sum4_Z

theorem trial_EERR_6 :
    corrVal (shift "EERR".toList ((6 : Nat) : Int)) (getLetterFrequencies alphabet)
      = 5400993817735153 / 2 ^ 60 :=
  corrVal_pairs _ _ 'Y' 'L' _ _ _ _ _ _ _ _ rfl
    (uniform_profile 'Y' (by decide)) (uniform_profile 'L' (by decide)) ref_Y ref_L
    fl_prod_Y fl_prod_L fl_self_Y fl_sum2_Y fl_sum3_Y fl_sum4_Y

theorem trial_EERR_7 :
    corrVal (shift "EERR".toList ((7 : Nat) : Int)) (getLetterFrequencies alphabet)
      = 6101615347457776 / 2 ^ 63 :=
  corrVal_pairs _ _ 'X' 'K' _ _ _ _ _ _ _ _ rfl
    (uniform_profile 'X' (by decide)) (uniform_profile 'K' (by decide)) ref_X ref_K
    fl_prod_X fl_prod_K fl_self_X fl_sum2_X fl_sum3_X fl_sum4_X

theorem trial_EERR_8 :
    corrVal (shift "EERR".toList ((8 : Nat) : Int)) (getLetterFrequencies alphabet)
      = 7768917215658445 / 2 ^ 62 :=
  corrVal_pairs _ _ 'W' 'J' _ _ _ _ _ _ _ _ rfl
    (uniform_profile 'W' (by decide)) (uniform_profile 'J' (by decide)) ref_W ref_J
    fl_prod_W fl_prod_J fl_self_W fl_sum2_W fl_sum3_W fl_sum4_W

theorem trial_EERR_9 :
    corrVal (shift "EERR".toList ((9 : Nat) : Int)) (getLetterFrequencies alphabet)
      = 7467383899068963 / 2 ^ 60 :=
  corrVal_pairs _ _ 'V' 'I' _ _ _ _ _ _ _ _ rfl
    (uniform_profile 'V' (by decide)) (uniform_profile 'I' (by decide)) ref_V ref_I
    fl_prod_V fl_prod_I fl_self_V fl_sum2_V fl_sum3_V fl_sum4_V

theorem trial_EERR_10 :
    corrVal (shift "EERR".toList ((10 : Nat) : Int)) (getLetterFrequencies alphabet)
      = 7804391723492504 / 2 ^ 60 :=
  corrVal_pairs _ _ 'U' 'H' _ _ _ _ _ _ _ _ rfl
    (uniform_profile 'U' (by decide)) (uniform_profile 'H' (by decide)) ref_U ref_H
    fl_prod_U fl_prod_H fl_self_U fl_sum2_U fl_sum3_U fl_sum4_U

theorem trial_EERR_11 :
    corrVal (shift "EERR".toList ((11 : Nat) : Int)) (getLetterFrequencies alphabet)
      = 4935390902413156 / 2 ^ 59 :=
  corrVal_pairs _ _ 'T' 'G' _ _ _ _ _ _ _ _ rfl
    (uniform_profile 'T' (by decide)) (uniform_profile 'G' (by decide)) ref_T ref_G
    fl_prod_T fl_prod_G fl_self_T fl_sum2_T fl_sum3_T fl_sum4_T

theorem trial_EERR_12 :
    corrVal (shift "EERR".toList ((12 : Nat) : Int)) (getLetterFrequencies alphabet)
      = 7609281930405190 / 2 ^ 60 :=
  corrVal_pairs _ _ 'S' 'F' _ _ _ _ _ _ _ _ rfl
    (uniform_profile 'S' (by decide)) (uniform_profile 'F' (by decide)) ref_S ref_F
    fl_prod_S fl_prod_F fl_self_S fl_sum2_S fl_sum3_S fl_sum4_S

theorem trial_EERR_13 :
    corrVal (shift "EERR".toList ((13 : Nat) : Int)) (getLetterFrequencies alphabet)
      = 7999501516579816 / 2 ^ 59 :=
  corrVal_pairs _ _ 'R' 'E' _ _ _ _ _ _ _ _ rfl
    (uniform_profile 'R' (by decide)) (uniform_profile 'E' (by decide)) ref_R ref_E
    fl_prod_R fl_prod_E fl_self_R fl_sum2_R fl_sum3_R fl_sum4_R

theorem trial_EERR_14 :
    corrVal (shift "EERR".toList ((14 : Nat) : Int)) (getLetterFrequencies alphabet)
      = 7857603485243588 / 2 ^ 61 :=
  corrVal_pairs _ _ 'Q' 'D' _ _ _ _ _ _ _ _ rfl
    (uniform_profile 'Q' (by decide)) (uniform_profile 'D' (by decide)) ref_Q ref_D
    fl_prod_Q fl_prod_D fl_self_Q fl_sum2_Q fl_sum3_Q fl_sum4_Q

theorem trial_EERR_15 :
    corrVal (shift "EERR".toList ((15 : Nat) : Int)) (getLetterFrequencies alphabet)
      = 8034976024413872 / 2 ^ 61 :=
  corrVal_pairs _ _ 'P' 'C' _ _ _ _ _ _ _ _ rfl
    (uniform_profile 'P' (by decide)) (uniform_profile 'C' (by decide)) ref_P ref_C
    fl_prod_P fl_prod_C fl_self_P fl_sum2_P fl_sum3_P fl_sum4_P

theorem trial_EERR_16 :
    corrVal (shift "EERR".toList ((16 : Nat) : Int)) (getLetterFrequencies alphabet)
      = 8132530920957528 / 2 ^ 60 :=
  corrVal_pairs _ _ 'O' 'B' _ _ _ _ _ _ _ _ rfl
    (uniform_profile 'O' (by decide)) (uniform_profile 'B' (by decide)) ref_O ref_B
    fl_prod_O fl_prod_B fl_self_O fl_sum2_O fl_sum3_O fl_sum4_O

theorem trial_EERR_17 :
    corrVal (shift "EERR".toList ((17 : Nat) : Int)) (getLetterFrequencies alphabet)
      = 6682510413240456 / 2 ^ 59 :=
  corrVal_pairs _ _ 'N' 'A' _ _ _ _ _ _ _ _ rfl
    (uniform_profile 'N' (by decide)) (uniform_profile 'A' (by decide)) ref_N ref_A
    fl_prod_N fl_prod_A fl_self_N fl_sum2_N fl_sum3_N fl_sum4_N

theorem trial_EERR_18 :
    corrVal (shift "EERR".toList ((18 : Nat) : Int)) (getLetterFrequencies alphabet)
      = 4753584049763615 / 2 ^ 61 :=
  corrVal_pairs _ _ 'M' 'Z' _ _ _ _ _ _ _ _ rfl
    (uniform_profile 'M' (by decide)) (uniform_profile 'Z' (by decide)) ref_M ref_Z
    fl_prod_M fl_prod_Z fl_self_M fl_sum2_M fl_sum3_M fl_sum4_M

theorem trial_EERR_19 :
    corrVal (shift "EERR".toList ((19 : Nat) : Int)) (getLetterFrequencies alphabet)
      = 5400993817735153 / 2 ^ 60 :=
  corrVal_pairs _ _ 'L' 'Y' _ _ _ _ _ _ _ _ rfl
    (uniform_profile 'L' (by decide)) (uniform_profile 'Y' (by decide)) ref_L ref_Y
    fl_prod_L fl_prod_Y fl_self_L fl_sum2_L fl_sum3_L fl_sum4_L

theorem trial_EERR_20 :
    corrVal (shift "EERR".toList ((20 : Nat) : Int)) (getLetterFrequencies alphabet)
      = 6101615347457775 / 2 ^ 63 :=
  corrVal_pairs _ _ 'K' 'X' _ _ _ _ _ _ _ _ rfl
    (uniform_profile 'K' (by decide)) (uniform_profile 'X' (by decide)) ref_K ref_X
    fl_prod_K fl_prod_X fl_self_K fl_sum2_K fl_sum3_K fl_sum4_K

theorem trial_EERR_21 :
    corrVal (shift "EERR".toList ((21 : Nat) : Int)) (getLetterFrequencies alphabet)
      = 7768917215658446 / 2 ^ 62 :=
  corrVal_pairs _ _ 'J' 'W' _ _ _ _ _ _ _ _ rfl
    (uniform_profile 'J' (by decide)) (uniform_profile 'W' (by decide)) ref_J ref_W
    fl_prod_J fl_prod_W fl_self_J fl_sum2_J fl_sum3_J fl_sum4_J

theorem trial_EERR_22 :
    corrVal (shift "EERR".toList ((22 : Nat) : Int)) (getLetterFrequencies alphabet)
      = 7467383899068964 / 2 ^ 60 :=
  corrVal_pairs _ _ 'I' 'V' _ _ _ _ _ _ _ _ rfl
    (uniform_profile 'I' (by decide)) (uniform_profile 'V' (by decide)) ref_I ref_V
    fl_prod_I fl_prod_V fl_self_I fl_sum2_I fl_sum3_I fl_sum4_I

theorem trial_EERR_23 :
    corrVal (shift "EERR".toList ((23 : Nat) : Int)) (getLetterFrequencies alphabet)
      = 7804391723492503 / 2 ^ 60 :=
  corrVal_pairs _ _ 'H' 'U' _ _ _ _ _ _ _ _ rfl
    (uniform_profile 'H' (by decide)) (uniform_profile 'U' (by decide)) ref_H ref_U
    fl_prod_H fl_prod_U fl_self_H fl_sum2_H fl_sum3_H fl_sum4_H

theorem trial_EERR_24 :
    corrVal (shift "EERR".toList ((24 : Nat) : Int)) (getLetterFrequencies alphabet)
      = 4935390902413156 / 2 ^ 59 :=
  corrVal_pairs _ _ 'G' 'T' _ _ _ _ _ _ _ _ rfl
    (uniform_profile 'G' (by decide)) (uniform_profile 'T' (by decide)) ref_G ref_T
    fl_prod_G fl_prod_T fl_self_G fl_sum2_G fl_sum3_G fl_sum4_G

theorem trial_EERR_25 :
    corrVal (shift "EERR".toList ((25 : Nat) : Int)) (getLetterFrequencies alphabet)
      = 7609281930405190 / 2 ^ 60 :=
  corrVal_pairs _ _ 'F' 'S' _ _ _ _ _ _ _ _ rfl
    (uniform_profile 'F' (by decide)) (uniform_profile 'S' (by decide)) ref_F ref_S
    fl_prod_F fl_prod_S fl_self_F fl_sum2_F fl_sum3_F fl_sum4_F

theorem exact_EERR_0 :
    corrSum (shift "EERR".toList ((0 : Nat) : Int)) (getLetterFrequencies alphabet)
      = 2 * (5542891849071380 / 2 ^ 57) * (8661322803358938 / 2 ^ 56 + 8675734322166523 / 2 ^ 57) :=
  corrSum_pairs _ _ 'E' 'R' _ _ _ rfl
    (uniform_profile 'E' (by decide)) (uniform_profile 'R' (by decide)) ref_E ref_R

theorem exact_EERR_1 :
    corrSum (shift "EERR".toList ((1 : Nat) : Int)) (getLetterFrequencies alphabet)
      = 2 * (5542891849071380 / 2 ^ 57) * (6225776124876974 / 2 ^ 57 + 5072854620270127 / 2 ^ 62) :=
  corrSum_pairs _ _ 'D' 'Q' _ _ _ rfl
    (uniform_profile 'D' (by decide)) (uniform_profile 'Q' (by decide)) ref_D ref_Q

theorem exact_EERR_2 :
    corrSum (shift "EERR".toList ((2 : Nat) : Int)) (getLetterFrequencies alphabet)
      = 2 * (5542891849071380 / 2 ^ 57) * (7811043193711388 / 2 ^ 58 + 5245792845961154 / 2 ^ 58) :=
  corrSum_pairs _ _ 'C' 'P' _ _ _ rfl
    (uniform_profile 'C' (by decide)) (uniform_profile 'P' (by decide)) ref_C ref_P

theorem exact_EERR_3 :
    corrSum (shift "EERR".toList ((3 : Nat) : Int)) (getLetterFrequencies alphabet)
      = 2 * (5542891849071380 / 2 ^ 57) * (8589265209321010 / 2 ^ 59 + 5534023222112865 / 2 ^ 56) :=
  corrSum_pairs _ _ 'B' 'O' _ _ _ rfl
    (uniform_profile 'B' (by decide)) (uniform_profile 'O' (by decide)) ref_B ref_O

theorem exact_EERR_4 :
    corrSum (shift "EERR".toList ((4 : Nat) : Int)) (getLetterFrequencies alphabet)
      = 2 * (5542891849071380 / 2 ^ 57) * (5851076635879748 / 2 ^ 56 + 5008002785635992 / 2 ^ 56) :=
  corrSum_pairs _ _ 'A' 'N' _ _ _ rfl
    (uniform_profile 'A' (by decide)) (uniform_profile 'N' (by decide)) ref_A ref_N

theorem exact_EERR_5 :
    corrSum (shift "EERR".toList ((5 : Nat) : Int)) (getLetterFrequencies alphabet)
      = 2 * (5542891849071380 / 2 ^ 57) * (6456360425798343 / 2 ^ 63 + 7522812817559677 / 2 ^ 58) :=
  corrSum_pairs _ _ 'Z' 'M' _ _ _ rfl
    (uniform_profile 'Z' (by decide)) (uniform_profile 'M' (by decide)) ref_Z ref_M

theorem exact_EERR_6 :
    corrSum (shift "EERR".toList ((6 : Nat) : Int)) (getLetterFrequencies alphabet)
      = 2 * (5542891849071380 / 2 ^ 57) * (6081660936801118 / 2 ^ 58 + 5735784485419064 / 2 ^ 57) :=
  corrSum_pairs _ _ 'Y' 'L' _ _ _ rfl
    (uniform_profile 'Y' (by decide)) (uniform_profile 'L' (by decide)) ref_Y ref_L

theorem exact_EERR_7 :
    corrSum (shift "EERR".toList ((7 : Nat) : Int)) (getLetterFrequencies alphabet)
      = 2 * (5542891849071380 / 2 ^ 57) * (7839866231326559 / 2 ^ 62 + 7955158381787244 / 2 ^ 60) :=
  corrSum_pairs _ _ 'X' 'K' _ _ _ rfl
    (uniform_profile 'X' (by decide)) (uniform_profile 'K' (by decide)) ref_X ref_K

theorem exact_EERR_8 :
    corrSum (shift "EERR".toList ((8 : Nat) : Int)) (getLetterFrequencies alphabet)
      = 2 * (5542891849071380 / 2 ^ 57) * (6024014861570775 / 2 ^ 58 + 4611686018427388 / 2 ^ 62) :=
  corrSum_pairs _ _ 'W' 'J' _ _ _ rfl
    (uniform_profile 'W' (by decide)) (uniform_profile 'J' (by decide)) ref_W ref_J

theorem exact_EERR_9 :
    corrSum (shift "EERR".toList ((9 : Nat) : Int)) (getLetterFrequencies alphabet)
      = 2 * (5542891849071380 / 2 ^ 57) * (6398714350568001 / 2 ^ 59 + 5267410124172532 / 2 ^ 56) :=
  corrSum_pairs _ _ 'V' 'I' _ _ _ rfl
    (uniform_profile 'V' (by decide)) (uniform_profile 'I' (by decide)) ref_V ref_I

theorem exact_EERR_10 :
    corrSum (shift "EERR".toList ((10 : Nat) : Int)) (getLetterFrequencies alphabet)
      = 2 * (5542891849071380 / 2 ^ 57) * (8301034833169298 / 2 ^ 58 + 8531619134090668 / 2 ^ 57) :=
  corrSum_pairs _ _ 'U' 'H' _ _ _ rfl
    (uniform_profile 'U' (by decide)) (uniform_profile 'H' (by decide)) ref_U ref_H

theorem exact_EERR_11 :
    corrSum (shift "EERR".toList ((11 : Nat) : Int)) (getLetterFrequencies alphabet)
      = 2 * (5542891849071380 / 2 ^ 57) * (6557241057451442 / 2 ^ 56 + 5851076635879748 / 2 ^ 58) :=
  corrSum_pairs _ _ 'T' 'G' _ _ _ rfl
    (uniform_profile 'T' (by decide)) (uniform_profile 'G' (by decide)) ref_T ref_G

theorem exact_EERR_12 :
    corrSum (shift "EERR".toList ((12 : Nat) : Int)) (getLetterFrequencies alphabet)
      = 2 * (5542891849071380 / 2 ^ 57) * (4525216905581874 / 2 ^ 56 + 6629298651489370 / 2 ^ 58) :=
  corrSum_pairs _ _ 'S' 'F' _ _ _ rfl
    (uniform_profile 'S' (by decide)) (uniform_profile 'F' (by decide)) ref_S ref_F

theorem exact_EERR_13 :
    corrSum (shift "EERR".toList ((13 : Nat) : Int)) (getLetterFrequencies alphabet)
      = 2 * (5542891849071380 / 2 ^ 57) * (8675734322166523 / 2 ^ 57 + 8661322803358938 / 2 ^ 56) :=
  corrSum_pairs _ _ 'R' 'E' _ _ _ rfl
    (uniform_profile 'R' (by decide)) (uniform_profile 'E' (by decide)) ref_R ref_E

theorem exact_EERR_14 :
    corrSum (shift "EERR".toList ((14 : Nat) : Int)) (getLetterFrequencies alphabet)
      = 2 * (5542891849071380 / 2 ^ 57) * (5072854620270127 / 2 ^ 62 + 6225776124876974 / 2 ^ 57) :=
  corrSum_pairs _ _ 'Q' 'D' _ _ _ rfl
    (uniform_profile 'Q' (by decide)) (uniform_profile 'D' (by decide)) ref_Q ref_D

theorem exact_EERR_15 :
    corrSum (shift "EERR".toList ((15 : Nat) : Int)) (getLetterFrequencies alphabet)
      = 2 * (5542891849071380 / 2 ^ 57) * (5245792845961154 / 2 ^ 58 + 7811043193711388 / 2 ^ 58) :=
  corrSum_pairs _ _ 'P' 'C' _ _ _ rfl
    (uniform_profile 'P' (by decide)) (uniform_profile 'C' (by decide)) ref_P ref_C

theorem exact_EERR_16 :
    corrSum (shift "EERR".toList ((16 : Nat) : Int)) (getLetterFrequencies alphabet)
      = 2 * (5542891849071380 / 2 ^ 57) * (5534023222112865 / 2 ^ 56 + 8589265209321010 / 2 ^ 59) :=
  corrSum_pairs _ _ 'O' 'B' _ _ _ rfl
    (uniform_profile 'O' (by decide)) (uniform_profile 'B' (by decide)) ref_O ref_B

theorem exact_EERR_17 :
    corrSum (shift "EERR".toList ((17 : Nat) : Int)) (getLetterFrequencies alphabet)
      = 2 * (5542891849071380 / 2 ^ 57) * (5008002785635992 / 2 ^ 56 + 5851076635879748 / 2 ^ 56) :=
  corrSum_pairs _ _ 'N' 'A' _ _ _ rfl
    (uniform_profile 'N' (by decide)) (uniform_profile 'A' (by decide)) ref_N ref_A

theorem exact_EERR_18 :
    corrSum (shift "EERR".toList ((18 : Nat) : Int)) (getLetterFrequencies alphabet)
      = 2 * (5542891849071380 / 2 ^ 57) * (7522812817559677 / 2 ^ 58 + 6456360425798343 / 2 ^ 63) :=
  corrSum_pairs _ _ 'M' 'Z' _ _ _ rfl
    (uniform_profile 'M' (by decide)) (uniform_profile 'Z' (by decide)) ref_M ref_Z

theorem exact_EERR_19 :
    corrSum (shift "EERR".toList ((19 : Nat) : Int)) (getLetterFrequencies alphabet)
      = 2 * (5542891849071380 / 2 ^ 57) * (5735784485419064 / 2 ^ 57 + 6081660936801118 / 2 ^ 58) :=
  corrSum_pairs _ _ 'L' 'Y' _ _ _ rfl
    (uniform_profile 'L' (by decide)) (uniform_profile 'Y' (by decide)) ref_L ref_Y

theorem exact_EERR_20 :
    corrSum (shift "EERR".toList ((20 : Nat) : Int)) (getLetterFrequencies alphabet)
      = 2 * (5542891849071380 / 2 ^ 57) * (7955158381787244 / 2 ^ 60 + 7839866231326559 / 2 ^ 62) :=
  corrSum_pairs _ _ 'K' 'X' _ _ _ rfl
    (uniform_profile 'K' (by decide)) (uniform_profile 'X' (by decide)) ref_K ref_X

theorem exact_EERR_21 :
    corrSum (shift "EERR".toList ((21 : Nat) : Int)) (getLetterFrequencies alphabet)
      = 2 * (5542891849071380 / 2 ^ 57) * (4611686018427388 / 2 ^ 62 + 6024014861570775 / 2 ^ 58) :=
  corrSum_pairs _ _ 'J' 'W' _ _ _ rfl
    (uniform_profile 'J' (by decide)) (uniform_profile 'W' (by decide)) ref_J ref_W

theorem exact_EERR_22 :
    corrSum (shift "EERR".toList ((22 : Nat) : Int)) (getLetterFrequencies alphabet)
      = 2 * (5542891849071380 / 2 ^ 57) * (5267410124172532 / 2 ^ 56 + 6398714350568001 / 2 ^ 59) :=
  corrSum_pairs _ _ 'I' 'V' _ _ _ rfl
    (uniform_profile 'I' (by decide)) (uniform_profile 'V' (by decide)) ref_I ref_V

theorem exact_EERR_23 :
    corrSum (shift "EERR".toList ((23 : Nat) : Int)) (getLetterFrequencies alphabet)
      = 2 * (5542891849071380 / 2 ^ 57) * (8531619134090668 / 2 ^ 57 + 8301034833169298 / 2 ^ 58) :=
  corrSum_pairs _ _ 'H' 'U' _ _ _ rfl
    (uniform_profile 'H' (by decide)) (uniform_profile 'U' (by decide)) ref_H ref_U

theorem exact_EERR_24 :
    corrSum (shift "EERR".toList ((24 : Nat) : Int)) (getLetterFrequencies alphabet)
      = 2 * (5542891849071380 / 2 ^ 57) * (5851076635879748 / 2 ^ 58 + 6557241057451442 / 2 ^ 56) :=
  corrSum_pairs _ _ 'G' 'T' _ _ _ rfl
    (uniform_profile 'G' (by decide)) (uniform_profile 'T' (by decide)) ref_G ref_T

theorem exact_EERR_25 :
    corrSum (shift "EERR".toList ((25 : Nat) : Int)) (getLetterFrequencies alphabet)
      = 2 * (5542891849071380 / 2 ^ 57) * (6629298651489370 / 2 ^ 58 + 4525216905581874 / 2 ^ 56) :=
  corrSum_pairs _ _ 'F' 'S' _ _ _ rfl
    (uniform_profile 'F' (by decide)) (uniform_profile 'S' (by decide)) ref_F ref_S

/-- C11, counterexample: the column `EERR` is over A-Z and the profile of the text `A..Z`
has an entry for each letter; the exact correlation of the trial shift `0` is positive and
no trial shift has a larger one, so the smallest maximising shift is `a* = 0` and
`'A' + a*` is `A`; but `findLetter` returns `N`, the letter of the shift `13`, whose
correlation computed in `double` arithmetic is the larger. -/
theorem findLetter_rounding_counterexample :
    (∀ c ∈ "EERR".toList, isAZ c) ∧
    (∀ c ∈ alphabet, (cmFind (getLetterFrequencies alphabet) c).isSome = true) ∧
    0 < corrSum (shift "EERR".toList ((0 : Nat) : Int)) (getLetterFrequencies alphabet) ∧
    (∀ a : Nat, a < 26 →
      corrSum (shift "EERR".toList (a : Int)) (getLetterFrequencies alphabet)
        ≤ corrSum (shift "EERR".toList ((0 : Nat) : Int)) (getLetterFrequencies alphabet)) ∧
    toChar (ord 'A' + ((0 : Nat) : Int)) = 'A' ∧
    findLetter "EERR".toList (getLetterFrequencies alphabet) = Except.ok 'N' := by
  have hS : ∀ c ∈ "EERR".toList, isAZ c := by decide
  have hF : ∀ c ∈ alphabet, (cmFind (getLetterFrequencies alphabet) c).isSome = true :=
    profile_total alphabet (fun _ h => h)
  refine ⟨hS, hF, ?_, ?_, rfl, ?_⟩
  · rw [exact_EERR_0]
    norm_num
  · intro a ha
    interval_cases a
    · exact le_refl _
    · rw [exact_EERR_1, exact_EERR_0]
      norm_num
    · rw [exact_EERR_2, exact_EERR_0]
      norm_num
    · rw [exact_EERR_3, exact_EERR_0]
      norm_num
    · rw [exact_EERR_4, exact_EERR_0]
      norm_num
    · rw [exact_EERR_5, exact_EERR_0]
      norm_num
    · rw [exact_EERR_6, exact_EERR_0]
      norm_num
    · rw [exact_EERR_7, exact_EERR_0]
      norm_num
    · rw [exact_EERR_8, exact_EERR_0]
      norm_num
    · rw [exact_EERR_9, exact_EERR_0]
      norm_num
    · rw [exact_EERR_10, exact_EERR_0]
      norm_num
    · rw [exact_EERR_11, exact_EERR_0]
      norm_num
    · rw [exact_EERR_12, exact_EERR_0]
      norm_num
    · rw [exact_EERR_13, exact_EERR_0]
      norm_num
    · rw [exact_EERR_14, exact_EERR_0]
      norm_num
    · rw [exact_EERR_15, exact_EERR_0]
      norm_num
    · rw [exact_EERR_16, exact_EERR_0]
      norm_num
    · rw [exact_EERR_17, exact_EERR_0]
      norm_num
    · rw [exact_EERR_18, exact_EERR_0]
      norm_num
    · rw [exact_EERR_19, exact_EERR_0]
      norm_num
    · rw [exact_EERR_20, exact_EERR_0]
      norm_num
    · rw [exact_EERR_21, exact_EERR_0]
      norm_num
    · rw [exact_EERR_22, exact_EERR_0]
      norm_num
    · rw [exact_EERR_23, exact_EERR_0]
      norm_num
    · rw [exact_EERR_24, exact_EERR_0]
      norm_num
    · rw [exact_EERR_25, exact_EERR_0]
      norm_num
  · obtain ⟨r, hr, hcases⟩ := findLetter_result "EERR".toList (getLetterFrequencies alphabet)
      (fun a => corrVal (shift "EERR".toList (a : Int)) (getLetterFrequencies alphabet))
      (fun a ha => corr_ok _ _ (shift_isAZ _ a ha hS) hF)
    rcases hcases with ⟨hle, _⟩ | ⟨a0, ha0, hr0, _, hmax, _⟩
    · have h0 := hle 0 (by norm_num)
      simp only at h0
      rw [trial_EERR_0] at h0
      norm_num at h0
    have h13 := hmax 13 (by norm_num)
    simp only at h13
    rw [trial_EERR_13] at h13
    interval_cases a0
    · rw [trial_EERR_0] at h13
      norm_num at h13
    · rw [trial_EERR_1] at h13
      norm_num at h13
    · rw [trial_EERR_2] at h13
      norm_num at h13
    · rw [trial_EERR_3] at h13
      norm_num at h13
    · rw [trial_EERR_4] at h13
      norm_num at h13
    · rw [trial_EERR_5] at h13
      norm_num at h13
    · rw [trial_EERR_6] at h13
      norm_num at h13
    · rw [trial_EERR_7] at h13
      norm_num at h13
    · rw [trial_EERR_8] at h13
      norm_num at h13
    · rw [trial_EERR_9] at h13
      norm_num at h13
    · rw [trial_EERR_10] at h13
      norm_num at h13
    · rw [trial_EERR_11] at h13
      norm_num at h13
    · rw [trial_EERR_12] at h13
      norm_num at h13
    · rw [hr, hr0]
      rfl
    · rw [trial_EERR_14] at h13
      norm_num at h13
    · rw [trial_EERR_15] at h13
      norm_num at h13
    · rw [trial_EERR_16] at h13
      norm_num at h13
    · rw [trial_EERR_17] at h13
      norm_num at h13
    · rw [trial_EERR_18] at h13
      norm_num at h13
    · rw [trial_EERR_19] at h13
      norm_num at h13
    · rw [trial_EERR_20] at h13
      norm_num at h13
    · rw [trial_EERR_21] at h13
      norm_num at h13
    · rw [trial_EERR_22] at h13
      norm_num at h13
    · rw [trial_EERR_23] at h13
      norm_num at h13
    · rw [trial_EERR_24] at h13
      norm_num at h13
    · rw [trial_EERR_25] at h13
      norm_num at h13

/-! ## Theorems: `calculateIOC` beyond the 32-bit range -/

theorem toFinset_replicate_append (n : Nat) (hn : n ≠ 0) :
    (List.replicate n 'A' ++ ['B']).toFinset = {'A', 'B'} := by
  rw [List.toFinset_append, List.toFinset_replicate_of_ne_zero hn]
  rfl

/-- C13, failing input: on the text of 46341 letters `A` followed by one `B` (length
`n = 46342`) the product `n·(n−1) = 2147534622` does not fit a 32-bit `int` and wraps to
`−2147432674`, so `calculateIOC` returns the `double` nearest to
`2147441940 / −2147432674`, about `−1.0000043`, where the formula
`(Σ c·(c−1)) / (n·(n−1))` has the value `23170 / 23171`. -/
theorem calculateIOC_overflow :
    calculateIOC (List.replicate 46341 'A' ++ ['B'])
      = some (-(4503619060042194 / 2 ^ 52)) ∧
    Finset.sum (List.replicate 46341 'A' ++ ['B']).toFinset
        (fun x => ((List.replicate 46341 'A' ++ ['B']).count x : ℚ)
          * (((List.replicate 46341 'A' ++ ['B']).count x : ℚ) - 1))
      / (((List.replicate 46341 'A' ++ ['B']).length : ℚ)
          * (((List.replicate 46341 'A' ++ ['B']).length : ℚ) - 1))
      = 23170 / 23171 := by
  have hne : ('A' : Char) ≠ 'B' := by decide
  have hcA : (List.replicate 46341 'A' ++ ['B']).count 'A' = 46341 := by
    rw [List.count_append, List.count_replicate_self]
    rfl
  have hcB : (List.replicate 46341 'A' ++ ['B']).count 'B' = 1 := by
    rw [List.count_append, List.count_replicate]
    rfl
  have hlen : (List.replicate 46341 'A' ++ ['B']).length = 46342 := by
    rw [List.length_append, List.length_replicate]
    rfl
  constructor
  · rw [calculateIOC_eq, toFinset_replicate_append 46341 (by norm_num), Finset.sum_pair hne,
      hcA, hcB, hlen]
    have h1 : wrap32 (((46341 : Nat) : Int) * (((46341 : Nat) : Int) - 1)) = 2147441940 := by
      decide
    have h2 : wrap32 (((1 : Nat) : Int) * (((1 : Nat) : Int) - 1)) = 0 := by decide
    have h3 : wrap32 (((46342 : Nat) : Int) * (((46342 : Nat) : Int) - 1)) = -2147432674 := by
      decide
    rw [h1, h2, h3]
    unfold fdiv
    rw [if_neg (by norm_num)]
    have h4 : (((2147441940 : Int) : ℚ) + ((0 : Int) : ℚ)) / ((-2147432674 : Int) : ℚ)
        = -(2147441940 / 2147432674) := by norm_num
    have h5 : fl (2147441940 / 2147432674) = 4503619060042194 / 2 ^ 52 :=
      fl_cert _ _ 52 4503619060042194 (by norm_num) (by norm_num) (by norm_num) (by norm_num)
        (by norm_num) (by norm_num)
    rw [h4, fl_neg, h5]
  · rw [toFinset_replicate_append 46341 (by norm_num), Finset.sum_pair hne, hcA, hcB, hlen]
    norm_num

end Q2
